import Mathlib

/-!
# Bracketed/decompress: `src/index.js`

A shallow embedding of the extraction pipeline of `src/index.js`
(`runPlugins`, `safeMakeDir`, `preventWritingThroughSymlink`, `extractFile`
and the default export) together with a model of the parts of the Node.js
runtime it calls (`path.join`, `path.dirname`, `fs.realpath`, `fs.readlink`,
`fs.writeFile`, `fs.link`, `fs.symlink`, `fs.utimes`, `make-dir`,
`Promise.all`).

Conventions of the model:

* JavaScript strings are lists of characters (`Str`).
* The path functions are the POSIX flavour of Node's `path` module, read on the
  `/`-separated segments of a path.
* The filesystem is a map from real paths (lists of component names below the
  root `/`) to nodes.  The root always exists and is a directory.  The
  process working directory is the root, so a relative path is resolved
  against `/`.
* Path resolution by the operating system (`walk`) follows at most `maxLinks`
  symbolic links and takes `..` in the directory it has reached.  A symbolic
  link with an empty target does not resolve, and `fs.symlink` refuses to
  create one; such a link can only be part of the filesystem the program
  starts on.
* `fs.realpath` is the JavaScript implementation of Node's `fs` module (the
  program calls it through `pify(fs)`): it applies `path.resolve` to its
  argument and to the target of every link it meets, so `..` is removed from
  the path string, and it looks at each component with `lstat`.  Its loop has
  no bound in Node; the model follows at most `maxExpansions` links in one
  call and answers `Err.unsettled` beyond, which is not a rejection: nothing
  is said about a run in which it occurs.
* The process owns every file and is not the superuser: an existing file can
  be opened for writing only when its mode has the owner-write bit.  Search
  and write permission is assumed on every directory.
* Timestamps are not part of the filesystem state: `utimes` only checks that
  its path resolves.  A hard link is a copy of the linked node.
* A callback of `files.map(async ...)` is a process (`Proc`): a sequence of
  calls of filesystem functions, each of which is one atomic step.  All
  callbacks are started before any of them has finished; a schedule (a list
  of positions in `files`) says whose pending call is performed next, and
  when the schedule is used up the callbacks still running are finished one
  after the other in list order.  The empty schedule therefore runs the
  callbacks one at a time.  Every callback runs to its end even when another
  one has failed, and `Promise.all` is rejected with the failure that comes
  first in time.
* A promise is otherwise modelled by what it settles to.
-/

namespace Decompress

/-! ## Strings and Node's `path` module (POSIX) -/

/-- A JavaScript string. -/
abbrev Str := List Char

/-- One path component. -/
abbrev Name := List Char

/-- Split a string at every `/` (as `String.prototype.split('/')`): the result
is never empty, and `n` slashes give `n + 1` segments. -/
def splitSlash : Str → List Str
  | [] => [[]]
  | c :: cs =>
    match splitSlash cs with
    | [] => [[]]
    | seg :: segs => if c = '/' then [] :: seg :: segs else (c :: seg) :: segs

/-- Join segments with `/` (as `Array.prototype.join('/')`). -/
def joinSlash : List Str → Str
  | [] => []
  | [s] => s
  | s :: t :: rest => s ++ '/' :: joinSlash (t :: rest)

/-- Segment-level reading of Node's `normalizeString(path, allowAboveRoot)`:
empty and `.` segments are dropped, a `..` segment removes the segment before
it unless there is none or it is itself `..`, in which case it is kept when
`allowAboveRoot` holds and dropped otherwise.  `acc` is the result so far, in
reverse order. -/
def normalizeSegs (allowAboveRoot : Bool) : List Str → List Str → List Str
  | acc, [] => acc.reverse
  | acc, seg :: rest =>
    if seg = [] ∨ seg = ['.'] then normalizeSegs allowAboveRoot acc rest
    else if seg = ['.', '.'] then
      match acc with
      | [] => normalizeSegs allowAboveRoot (if allowAboveRoot then [seg] else []) rest
      | last :: acc' =>
        if last = ['.', '.'] then
          normalizeSegs allowAboveRoot (if allowAboveRoot then seg :: last :: acc' else last :: acc') rest
        else normalizeSegs allowAboveRoot acc' rest
    else normalizeSegs allowAboveRoot (seg :: acc) rest

/-- Node's `path.posix.normalize`. -/
def normalize (path : Str) : Str :=
  if path = [] then ['.']
  else
    let isAbsolute := path.head? = some '/'
    let trailingSeparator := path.getLast? = some '/'
    let body := joinSlash (normalizeSegs (!isAbsolute) [] (splitSlash path))
    if body = [] then
      if isAbsolute then ['/'] else if trailingSeparator then ['.', '/'] else ['.']
    else
      let body := if trailingSeparator then body ++ ['/'] else body
      if isAbsolute then '/' :: body else body

/-- Node's `path.posix.join(a, b)` for two string arguments. -/
def join (a b : Str) : Str :=
  if a = [] then (if b = [] then ['.'] else normalize b)
  else if b = [] then normalize a
  else normalize (a ++ '/' :: b)

/-- Node's `path.posix.dirname`, read on the `/`-separated segments of the
path: trailing slashes are ignored, the last remaining segment is removed, and
what is left is the directory; a path without directory part gives `/` when it
starts with a slash and `.` otherwise. -/
def dirname (path : Str) : Str :=
  if path = [] then ['.']
  else
    let hasRoot := path.head? = some '/'
    let kept := ((splitSlash path).reverse.dropWhile (· = [])).reverse
    match kept.dropLast with
    | [] => if hasRoot then ['/'] else ['.']
    | s :: r =>
      let d := joinSlash (s :: r)
      if d = [] then ['/'] else if hasRoot ∧ d = ['/'] then ['/', '/'] else d

/-- The string form of a real path: `/` for the root, otherwise each component
preceded by `/`. -/
def render : List Name → Str
  | [] => ['/']
  | [n] => '/' :: n
  | n :: m :: rest => '/' :: n ++ render (m :: rest)

/-- The test `s.indexOf(prefix) === 0`. -/
def startsWith (s pre : Str) : Bool := pre.isPrefixOf s

/-! ## Errors -/

/-- What a `TypeError` raised by the runtime was about. -/
inductive TypeErrorKind where
  | concatNotFunction
  | thenNotFunction
  | pathNotString
  | reduceEmpty
  deriving DecidableEq, Repr

/-- The errors a call can be rejected with. -/
inductive Err where
  /-- the error `TypeError('Input file required')` -/
  | inputRequired
  /-- the error `Error('Refusing to create a directory outside the output path.')` -/
  | escapeDir
  /-- the error `Error('Refusing to write outside output directory: ' + realDestinationDir)` -/
  | escapeWrite (realDestinationDir : Str)
  /-- the error `Error('Refusing to write into a symlink')` -/
  | symlinkRefused
  /-- a `TypeError` raised by the runtime -/
  | typeError (kind : TypeErrorKind)
  /-- the `RangeError` of `fs.writeFile` for a `mode` that is not an unsigned
  32-bit integer -/
  | rangeError
  /-- an error of a filesystem operation -/
  | io
  /-- an error thrown by a plugin or by `stripDirs` -/
  | thrown (code : Nat)
  /-- the recursion of `safeMakeDir` does not end -/
  | diverges
  /-- not a rejection: the loop of `fs.realpath` has not returned within the
  bound of the model -/
  | unsettled
  deriving DecidableEq, Repr

/-! ## The filesystem -/

/-- A filesystem node. -/
inductive Node where
  | dir
  | file (data : List Nat) (mode : Nat)
  | symlink (target : Str)
  deriving DecidableEq, Repr

/-- A filesystem state: the node stored at each real path below the root. -/
abbrev FS := List Name → Option Node

/-- Node at a real path; the root is always a directory. -/
def look (fs : FS) (p : List Name) : Option Node :=
  if p = [] then some Node.dir else fs p

/-- Store a node at a real path. -/
def store (fs : FS) (p : List Name) (n : Node) : FS :=
  fun q => if q = p then some n else fs q

/-- Is the real path a directory. -/
def isDir (fs : FS) (p : List Name) : Bool :=
  match look fs p with
  | some Node.dir => true
  | _ => false

/-- One pass of path resolution over the segments still to visit, starting in
the directory `cur`; `expand` is what to do with the segments of a symbolic
link (resolution with one unit of link budget less). -/
def walkWith (fs : FS) (expand : List Name → List Str → Option (List Name)) :
    List Name → List Str → Option (List Name)
  | cur, [] => some cur
  | cur, c :: rest =>
    if c = [] ∨ c = ['.'] then walkWith fs expand cur rest
    else if c = ['.', '.'] then walkWith fs expand cur.dropLast rest
    else
      match look fs (cur ++ [c]) with
      | none => none
      | some Node.dir => walkWith fs expand (cur ++ [c]) rest
      | some (Node.file _ _) => if rest = [] then some (cur ++ [c]) else none
      | some (Node.symlink t) =>
        if t = [] then none
        else expand (if t.head? = some '/' then [] else cur) (splitSlash t ++ rest)

/-- Path resolution following at most `budget` symbolic links (`ELOOP`
beyond). -/
def walk (fs : FS) : Nat → List Name → List Str → Option (List Name)
  | 0 => walkWith fs (fun _ _ => none)
  | budget + 1 => walkWith fs (walk fs budget)

/-- The number of symbolic links one resolution may follow. -/
def maxLinks : Nat := 40

/-- Resolve a path string to the real path of an existing node. -/
def resolve (fs : FS) (p : Str) : Option (List Name) :=
  walk fs maxLinks [] (splitSlash p)

/-- Split a path into the real path of its parent directory and its final
component, without following the final component. -/
def resolveParent (fs : FS) (p : Str) : Option (List Name × Name) :=
  let segs := splitSlash p
  match segs.getLast? with
  | none => none
  | some last =>
    if last = [] ∨ last = ['.'] ∨ last = ['.', '.'] then none
    else
      match walk fs maxLinks [] segs.dropLast with
      | none => none
      | some d => if isDir fs d then some (d, last) else none

/-- Model of `fs.readlink`: the target of the symbolic link at `p`, failure when
`p` does not exist or is not a symbolic link. -/
def readlink (fs : FS) (p : Str) : Option Str :=
  match resolveParent fs p with
  | none => none
  | some (d, last) =>
    match look fs (d ++ [last]) with
    | some (Node.symlink t) => some t
    | _ => none

/-- Model of `fs.utimes`: fails when the path does not resolve. -/
def utimes (fs : FS) (p : Str) : Option FS :=
  match resolve fs p with
  | none => none
  | some _ => some fs

/-- Model of `path.resolve(p)` with the root as working directory, as a
component list. -/
def resolveLexical (p : Str) : List Name :=
  normalizeSegs false [] (splitSlash p)

/-- Model of `fs.lstat` on the component `c` of the directory with the path
`known`: the node there, the final component not followed. -/
def lstatIn (fs : FS) (known : List Name) (c : Name) : Option Node :=
  match walk fs maxLinks [] known with
  | none => none
  | some d => if isDir fs d then look fs (d ++ [c]) else none

/-- One pass of the loop of Node's `fs.realpath` over the components still to
scan; `known` are the components scanned so far, none of them a link.  On a
symbolic link, `fs.stat` must succeed on it, and the scan starts again
(`restart`) on `path.resolve(path.resolve(previous, target), rest)`. -/
def scanWith (fs : FS) (restart : List Name → Except Err (List Name)) :
    List Name → List Name → Except Err (List Name)
  | known, [] => Except.ok known
  | known, c :: rest =>
    match lstatIn fs known c with
    | none => Except.error Err.io
    | some (Node.symlink t) =>
      match walk fs maxLinks [] (known ++ [c]) with
      | none => Except.error Err.io
      | some _ =>
        restart
          (normalizeSegs false (if t.head? = some '/' then [] else known.reverse) (splitSlash t)
            ++ rest)
    | some _ => scanWith fs restart (known ++ [c]) rest

/-- The loop of Node's `fs.realpath` on an absolute, normalized path, with a
bound on the number of scans. -/
def realpathFrom (fs : FS) : Nat → List Name → Except Err (List Name)
  | 0 => fun _ => Except.error Err.unsettled
  | bound + 1 => scanWith fs (realpathFrom fs bound) []

/-- The number of links one call of `fs.realpath` may expand in the model. -/
def maxExpansions : Nat := 64

/-- Model of `fs.realpath` (the JavaScript implementation of Node): the real
path as a string, a failure (`Err.io`), or `Err.unsettled`. -/
def realpath (fs : FS) (p : Str) : Except Err Str :=
  match realpathFrom fs (maxExpansions + 1) (resolveLexical p) with
  | Except.ok q => Except.ok (render q)
  | Except.error e => Except.error e

/-- Creation of a directory and its missing ancestors along an absolute,
normalized component list given in reverse order (`make-dir`): an existing
directory is accepted, any other existing node is an error. -/
def mkdirRev (fs : FS) : List Name → Option FS
  | [] => some fs
  | last :: parentRev =>
    match walk fs maxLinks [] (last :: parentRev).reverse with
    | some q => if isDir fs q then some fs else none
    | none =>
      match mkdirRev fs parentRev with
      | none => none
      | some fs1 =>
        match walk fs1 maxLinks [] parentRev.reverse with
        | none => none
        | some d =>
          if isDir fs1 d ∧ look fs1 (d ++ [last]) = none
          then some (store fs1 (d ++ [last]) Node.dir) else none


/-- Model of `makeDir(p)`: resolves with the absolute path string. -/
def makeDir (fs : FS) (p : Str) : Option (Str × FS) :=
  match mkdirRev fs (resolveLexical p).reverse with
  | none => none
  | some fs1 => some (render (resolveLexical p), fs1)

/-- The owner-write permission bit (`0o200`) of a file mode. -/
def ownerWritable (m : Nat) : Bool := m.testBit 7

/-- Open-for-writing at the final component `last` of directory `d`
(`O_CREAT | O_TRUNC`), following a symbolic link at the final component.  An
existing file is opened only when its mode grants the owner write permission;
a file that is created takes the permission bits of the mode given. -/
def writeAt (fs : FS) (data : List Nat) (mode : Nat) : Nat → List Name → Name → Option FS
  | budget, d, last =>
    match look fs (d ++ [last]) with
    | none => some (store fs (d ++ [last]) (Node.file data (mode % 4096)))
    | some (Node.file _ m) =>
      if ownerWritable m then some (store fs (d ++ [last]) (Node.file data m)) else none
    | some Node.dir => none
    | some (Node.symlink t) =>
      match budget with
      | 0 => none
      | budget + 1 =>
        if t = [] then none
        else
          let segs := splitSlash t
          match segs.getLast? with
          | none => none
          | some l =>
            if l = [] ∨ l = ['.'] ∨ l = ['.', '.'] then none
            else
              match walk fs maxLinks (if t.head? = some '/' then [] else d) segs.dropLast with
              | none => none
              | some d1 => if isDir fs d1 then writeAt fs data mode budget d1 l else none

/-- Model of `fs.writeFile(p, data, {mode})` for a mode that is an unsigned
32-bit integer. -/
def writeFile (fs : FS) (p : Str) (data : List Nat) (mode : Nat) : Option FS :=
  match resolveParent fs p with
  | none => none
  | some (d, last) => writeAt fs data mode maxLinks d last

/-- Model of `fs.symlink(target, p)`: `p` must not exist; an empty target is
refused. -/
def symlink (fs : FS) (target p : Str) : Option FS :=
  if target = [] then none
  else
    match resolveParent fs p with
    | none => none
    | some (d, last) =>
      match look fs (d ++ [last]) with
      | none => some (store fs (d ++ [last]) (Node.symlink target))
      | some _ => none

/-- Model of `fs.link(existing, p)`: `existing` must be a non-directory, `p`
must not exist. -/
def link (fs : FS) (existing p : Str) : Option FS :=
  match resolveParent fs existing with
  | none => none
  | some (d0, last0) =>
    match look fs (d0 ++ [last0]) with
    | none => none
    | some Node.dir => none
    | some n =>
      match resolveParent fs p with
      | none => none
      | some (d, last) =>
        match look fs (d ++ [last]) with
        | none => some (store fs (d ++ [last]) n)
        | some _ => none

/-! ## Values of the program -/

/-- Raw bytes. -/
abbrev Buffer := List Nat

/-- The `type` of an archive entry. -/
inductive EntryType where
  | file
  | directory
  | link
  | symlink
  deriving DecidableEq, Repr

/-- An archive entry as produced by a decoder plugin. -/
structure Entry where
  path : Str
  type : EntryType
  data : Buffer
  linkname : Str
  mode : Nat
  mtime : Nat
  deriving DecidableEq, Repr

/-- An element of the `files` array: an entry object, or a settled promise (the
result of an `async` callback), fulfilled with an entry or rejected. -/
inductive Value where
  | entry (e : Entry)
  | promise (settled : Option Entry)
  deriving DecidableEq, Repr

/-- The property read `x.path`: `none` is `undefined`. -/
def Value.path? : Value → Option Str
  | Value.entry e => some e.path
  | Value.promise _ => none

/-- A decoder plugin: entries, or a thrown error. -/
abbrev Plugin := Buffer → Except Err (List Entry)

/-- The options object after the defaults have been filled in.  An absent
`strip` reads as `0` in `opts.strip > 0`; `filter` and `map` are present when
`typeof` gives `'function'`, and `filter` is read through the truthiness of
what it returns. -/
structure Options where
  plugins : List Plugin
  strip : Nat := 0
  filter : Option (Value → Bool) := none
  map : Option (Value → Value) := none

/-- What the program takes from its environment: `process.umask()`,
`process.platform === 'win32'`, the `stripDirs` function of
`@bracketed/strip-dirs` (it may throw), and the four decoders of
`@bracketed/decompression-types`. -/
structure Env where
  umask : Nat
  win32 : Bool
  stripDirs : Str → Nat → Except Err Str
  tar : Plugin
  tarbz2 : Plugin
  targz : Plugin
  zip : Plugin

/-! ## Effects on the filesystem -/

/-- Equality of resolved-or-rejected results is decidable. -/
instance exceptDecEq {ε α : Type} [DecidableEq ε] [DecidableEq α] : DecidableEq (Except ε α) :=
  fun a b =>
    match a, b with
    | Except.ok x, Except.ok y =>
      if h : x = y then isTrue (by rw [h]) else isFalse (fun h' => h (by cases h'; rfl))
    | Except.error x, Except.error y =>
      if h : x = y then isTrue (by rw [h]) else isFalse (fun h' => h (by cases h'; rfl))
    | Except.ok _, Except.error _ => isFalse (fun h => by cases h)
    | Except.error _, Except.ok _ => isFalse (fun h => by cases h)

/-- One call of a filesystem function: it resolves or rejects, and leaves a
filesystem in both cases. -/
def Eff (α : Type) : Type := FS → Except Err α × FS

/-- A filesystem operation that changes the state, as an effect. -/
def Eff.ofOp {α : Type} (op : FS → Option (α × FS)) : Eff α := fun fs =>
  match op fs with
  | none => (Except.error Err.io, fs)
  | some (a, fs1) => (Except.ok a, fs1)

/-- A filesystem query, as an effect. -/
def Eff.ofQuery {α : Type} (q : FS → Option α) : Eff α := fun fs =>
  match q fs with
  | none => (Except.error Err.io, fs)
  | some a => (Except.ok a, fs)

/-- A filesystem operation without a result, as an effect; what it resolves
with is written as the empty string. -/
def Eff.ofUpdate (op : FS → Option FS) : Eff Str := fun fs =>
  match op fs with
  | none => (Except.error Err.io, fs)
  | some fs1 => (Except.ok [], fs1)

/-- A call of a filesystem function by the program. -/
inductive Call where
  /-- the call `makeDir(p)` -/
  | makeDir (p : Str)
  /-- the call `fsP.realpath(p)` -/
  | realpath (p : Str)
  /-- the call `fsP.readlink(p)` -/
  | readlink (p : Str)
  /-- the call `fsP.link(existing, p)` -/
  | link (existing p : Str)
  /-- the call `fsP.symlink(target, p)` -/
  | symlink (target p : Str)
  /-- the call `fsP.writeFile(p, data, { mode })` -/
  | writeFile (p : Str) (data : List Nat) (mode : Int)
  /-- the call `fsP.utimes(p, now, mtime)` -/
  | utimes (p : Str)

/-- What a call does to the filesystem and what its promise settles to.
`fs.writeFile` checks the mode before it opens the file. -/
def Call.perform : Call → Eff Str
  | Call.makeDir p => Eff.ofOp (fun fs => Decompress.makeDir fs p)
  | Call.realpath p => fun fs => (Decompress.realpath fs p, fs)
  | Call.readlink p => Eff.ofQuery (fun fs => Decompress.readlink fs p)
  | Call.link existing p => Eff.ofUpdate (fun fs => Decompress.link fs existing p)
  | Call.symlink target p => Eff.ofUpdate (fun fs => Decompress.symlink fs target p)
  | Call.writeFile p data mode => fun fs =>
    if mode < 0 then (Except.error Err.rangeError, fs)
    else Eff.ofUpdate (fun fs => Decompress.writeFile fs p data mode.toNat) fs
  | Call.utimes p => Eff.ofUpdate (fun fs => Decompress.utimes fs p)

/-! ## Processes and `Promise.all` -/

/-- An `async` computation: it has settled, or it waits for a filesystem call
and goes on with what the call settles to. -/
inductive Proc (α : Type) : Type where
  | done (r : Except Err α) : Proc α
  | call (c : Call) (k : Except Err Str → Proc α) : Proc α

/-- Sequencing (`.then`, `await`): a rejection skips the continuation. -/
def Proc.bind {α β : Type} : Proc α → (α → Proc β) → Proc β
  | Proc.done (Except.ok a), f => f a
  | Proc.done (Except.error e), _ => Proc.done (Except.error e)
  | Proc.call c k, f => Proc.call c (fun r => (k r).bind f)

instance : Monad Proc where
  pure := fun a => Proc.done (Except.ok a)
  bind := Proc.bind

/-- Reject with an error. -/
def Proc.throw {α : Type} (e : Err) : Proc α := Proc.done (Except.error e)

/-- Await one filesystem call. -/
def Proc.await (c : Call) : Proc Str := Proc.call c Proc.done

/-- The method `.catch(h)`: a rejection is handed to `h`; a computation that
does not settle has nothing to hand over. -/
def Proc.recover {α : Type} : Proc α → (Err → Proc α) → Proc α
  | Proc.done (Except.ok a), _ => Proc.done (Except.ok a)
  | Proc.done (Except.error e), h =>
    if e = Err.unsettled then Proc.done (Except.error e) else h e
  | Proc.call c k, h => Proc.call c (fun r => (k r).recover h)

/-- The process run alone, from its next call to its end. -/
def Proc.run {α : Type} : Proc α → Eff α
  | Proc.done r, fs => (r, fs)
  | Proc.call c k, fs => (k (c.perform fs).1).run (c.perform fs).2

/-- The rejection a process has settled with, if it has. -/
def Proc.rejection {α : Type} : Proc α → Option Err
  | Proc.done (Except.error e) => some e
  | _ => none

/-- The earlier of two rejections, the first argument being the earlier
event. -/
def earlier (a b : Option Err) : Option Err :=
  match a with
  | some e => some e
  | none => b

/-- The first rejection among processes that have settled without a call. -/
def firstRejection {α : Type} : List (Proc α) → Option Err
  | [] => none
  | p :: ps => earlier p.rejection (firstRejection ps)

/-- The pending call of the process at position `i` is performed and the
process resumed up to its next call; a position that names no process, or a
settled one, changes nothing.  The third component is the rejection the
process has settled with in this step. -/
def stepAt {α : Type} : Nat → List (Proc α) → FS → List (Proc α) × FS × Option Err
  | _, [], fs => ([], fs, none)
  | 0, Proc.done r :: ps, fs => (Proc.done r :: ps, fs, none)
  | 0, Proc.call c k :: ps, fs =>
    (k (c.perform fs).1 :: ps, (c.perform fs).2, (k (c.perform fs).1).rejection)
  | i + 1, p :: ps, fs =>
    ((p :: (stepAt i ps fs).1), (stepAt i ps fs).2.1, (stepAt i ps fs).2.2)

/-- The steps of a schedule, one after the other; `first` is the first
rejection so far. -/
def runSchedule {α : Type} :
    List Nat → List (Proc α) → FS → Option Err → List (Proc α) × FS × Option Err
  | [], ps, fs, first => (ps, fs, first)
  | i :: sched, ps, fs, first =>
    runSchedule sched (stepAt i ps fs).1 (stepAt i ps fs).2.1 (earlier first (stepAt i ps fs).2.2)

/-- The rejection in a result. -/
def rejectionOf {α : Type} : Except Err α → Option Err
  | Except.error e => some e
  | Except.ok _ => none

/-- The processes still running are finished one after the other, in list
order. -/
def finishAll {α : Type} : List (Proc α) → FS → Option Err → List (Except Err α) × FS × Option Err
  | [], fs, first => ([], fs, first)
  | p :: ps, fs, first =>
    ((p.run fs).1 :: (finishAll ps (p.run fs).2 (earlier first (rejectionOf (p.run fs).1))).1,
      (finishAll ps (p.run fs).2 (earlier first (rejectionOf (p.run fs).1))).2.1,
      (finishAll ps (p.run fs).2 (earlier first (rejectionOf (p.run fs).1))).2.2)

/-- The call `Promise.all` over settled results: the values, or the first rejection. -/
def promiseAll {α : Type} : List (Except Err α) → Except Err (List α)
  | [] => Except.ok []
  | Except.error e :: _ => Except.error e
  | Except.ok a :: rest =>
    match promiseAll rest with
    | Except.ok as => Except.ok (a :: as)
    | Except.error e => Except.error e

/-- The call `Promise.all(ps)` on processes that have all been started, under
a schedule: the values when every process has resolved, otherwise the
rejection that came first in time; the filesystem is the one left when every
process has settled. -/
def awaitAll {α : Type} (sched : List Nat) (ps : List (Proc α)) (fs : FS) :
    Except Err (List α) × FS :=
  let s := runSchedule sched ps fs (firstRejection ps)
  let f := finishAll s.1 s.2.1 s.2.2
  (match f.2.2 with
    | some e => Except.error e
    | none => promiseAll f.1,
   f.2.1)

/-! ## `src/index.js` -/

/-- What the `async` reducer of `runPlugins` sees as accumulator: the first
array, or the promise returned by the previous call of the reducer. -/
inductive Acc where
  | array (xs : List Entry)
  | promise (settled : Except Err (List Entry))

/-- The reducer `async (a, b) => await a.concat(b)`: it returns a promise; on a
promise `a`, `a.concat` is `undefined` and the call throws. -/
def concatReducer (a : Acc) (b : List Entry) : Acc :=
  match a with
  | Acc.array xs => Acc.promise (Except.ok (xs ++ b))
  | Acc.promise _ => Acc.promise (Except.error (Err.typeError TypeErrorKind.concatNotFunction))

/-- The call `files.reduce(f)` without initial value, followed by `await`. -/
def reduceAwait : List (List Entry) → Except Err (List Entry)
  | [] => Except.error (Err.typeError TypeErrorKind.reduceEmpty)
  | first :: rest =>
    match rest.foldl concatReducer (Acc.array first) with
    | Acc.array xs => Except.ok xs
    | Acc.promise settled => settled

/-- The function `runPlugins(input, opts)`. -/
def runPlugins (input : Buffer) (opts : Options) : Except Err (List Entry) :=
  if opts.plugins.length = 0 then Except.ok []
  else
    match promiseAll (opts.plugins.map (fun x => x input)) with
    | Except.error e => Except.error e
    | Except.ok files => reduceAwait files

/-- The `.then` callback of `safeMakeDir`: the prefix test on the real path
obtained, then `makeDir(dir).then(fsP.realpath)`. -/
def checkAndMake (dir realOutputPath realParentPath : Str) : Proc Str :=
  if !(startsWith realParentPath realOutputPath) then
    Proc.throw Err.escapeDir
  else do
    let made ← Proc.await (Call.makeDir dir)
    Proc.await (Call.realpath made)

/-- The recursion of `safeMakeDir`: `realpath(dir)`, in its `.catch` the
recursive call on `dirname(dir)`, then the `.then` callback; `fuel` bounds the
number of recursive calls. -/
def safeMakeDirAux : Nat → Str → Str → Proc Str
  | 0, dir, realOutputPath =>
    (Proc.await (Call.realpath dir)).recover (fun _ => Proc.throw Err.diverges)
      >>= checkAndMake dir realOutputPath
  | fuel + 1, dir, realOutputPath =>
    (Proc.await (Call.realpath dir)).recover
        (fun _ => safeMakeDirAux fuel (dirname dir) realOutputPath)
      >>= checkAndMake dir realOutputPath

/-- The function `safeMakeDir(dir, realOutputPath)`.  Each recursive call is on
`dirname(dir)`; `dir.length` calls are enough (`safeMakeDirAux_total`). -/
def safeMakeDir (dir realOutputPath : Str) : Proc Str :=
  safeMakeDirAux dir.length dir realOutputPath

/-- Truthiness of what `readlink(...).catch(() => null)` gives: `null` and the
empty string are falsy. -/
def truthy : Option Str → Bool
  | none => false
  | some s => !s.isEmpty

/-- The function `preventWritingThroughSymlink(destination, realOutputPath)`. -/
def preventWritingThroughSymlink (destination realOutputPath : Str) : Proc Str := do
  let symlinkPointsTo ←
    (Proc.await (Call.readlink destination) >>= fun t => pure (some t)).recover
      (fun _ => pure none)
  if truthy symlinkPointsTo then Proc.throw Err.symlinkRefused
  else pure realOutputPath

/-- The value of `x.mode & ~process.umask()`: a signed 32-bit integer. -/
def maskMode (env : Env) (mode : Nat) : Int :=
  let bits := Nat.land (mode % 2 ^ 32) (2 ^ 32 - 1 - env.umask % 2 ^ 32)
  if bits < 2 ^ 31 then (bits : Int) else (bits : Int) - 2 ^ 32

/-- The `.then` callback of `extractFile` that creates the link or writes the
file at `dest`. -/
def writeEntry (env : Env) (e : Entry) (dest : Str) : Proc Str :=
  if e.type = EntryType.link then
    Proc.await (Call.link e.linkname dest)
  else if e.type = EntryType.symlink ∧ env.win32 = true then
    Proc.await (Call.link e.linkname dest)
  else if e.type = EntryType.symlink then
    Proc.await (Call.symlink e.linkname dest)
  else
    Proc.await (Call.writeFile dest e.data (maskMode env e.mode))

/-- The callback of `files.map` in `extractFile`: materialize one element of
`files` below `output`. -/
def materialize (env : Env) (output : Str) (x : Value) : Proc Value :=
  match x with
  | Value.promise _ => Proc.throw (Err.typeError TypeErrorKind.pathNotString)
  | Value.entry e =>
    let dest := join output e.path
    if e.type = EntryType.directory then do
      let outputPath ← Proc.await (Call.makeDir output)
      let realOutputPath ← Proc.await (Call.realpath outputPath)
      let _ ← safeMakeDir dest realOutputPath
      let _ ← Proc.await (Call.utimes dest)
      pure x
    else do
      let outputPath ← Proc.await (Call.makeDir output)
      let realOutputPath ← Proc.await (Call.realpath outputPath)
      let _ ← safeMakeDir (dirname dest) realOutputPath
      let realOutputPath ←
        if e.type = EntryType.file then preventWritingThroughSymlink dest realOutputPath
        else pure realOutputPath
      let realDestinationDir ← Proc.await (Call.realpath (dirname dest))
      if !(startsWith realDestinationDir realOutputPath) then
        Proc.throw (Err.escapeWrite realDestinationDir)
      else do
        let _ ← writeEntry env e dest
        let _ ← if e.type = EntryType.file then Proc.await (Call.utimes dest) else pure []
        pure x

/-- The strip step of `extractFile`: `files.map(async ...)` gives promises, and
`.filter((x) => x.path !== '.')` then reads `path` on those promises. -/
def stripStage (env : Env) (strip : Nat) (files : List Entry) : List Value :=
  (files.map (fun x =>
      match env.stripDirs x.path strip with
      | Except.ok p => Value.promise (some { x with path := p })
      | Except.error _ => Value.promise none)).filter
    (fun x => x.path? != some ['.'])

/-- The transform stage of `extractFile`: strip, then filter, then map. -/
def transform (env : Env) (opts : Options) (files : List Entry) : List Value :=
  let files : List Value :=
    if opts.strip > 0 then stripStage env opts.strip files else files.map Value.entry
  let files : List Value :=
    match opts.filter with
    | some f => files.filter f
    | none => files
  match opts.map with
  | some f => files.map f
  | none => files

/-- The state of the world: the filesystem, the paths read with `readFile` and
the number of plugin calls made so far. -/
structure World where
  fs : FS
  reads : List Str
  pluginCalls : Nat

/-- Is `output` falsy (`!output`): absent, `null` or the empty string. -/
def falsy : Option Str → Bool
  | none => true
  | some s => s.isEmpty

/-- The function `extractFile(input, output, opts)`; `sched` is the order in
which the runtime performs the filesystem calls of the callbacks of
`files.map`. -/
def extractFile (env : Env) (sched : List Nat) (input : Buffer) (output : Option Str)
    (opts : Options) (w : World) : Except Err (List Value) × World :=
  let w1 : World := { w with pluginCalls := w.pluginCalls + opts.plugins.length }
  match runPlugins input opts with
  | Except.error e => (Except.error e, w1)
  | Except.ok files =>
    let files := transform env opts files
    match output with
    | none => (Except.ok files, w1)
    | some out =>
      if falsy output then (Except.ok files, w1)
      else
        let r := awaitAll sched (files.map (materialize env out)) w1.fs
        (r.1, { w1 with fs := r.2 })

/-- The first argument of the default export. -/
inductive Input where
  | str (path : Str)
  | buffer (b : Buffer)
  | other

/-- The options object as the caller passes it. -/
structure UserOptions where
  plugins : Option (List Plugin) := none
  strip : Nat := 0
  filter : Option (Value → Bool) := none
  map : Option (Value → Value) := none

/-- The second argument of the default export: absent, a string, or something
with `typeof output === 'object'` (an options object or `null`). -/
inductive OutputArg where
  | undefined
  | str (path : Str)
  | object (opts : Option UserOptions)

/-- The call `Object.assign({ plugins: [tar, tarbz2, targz, zip] }, opts)`. -/
def assignDefaults (env : Env) (opts : Option UserOptions) : Options :=
  let defaults := [env.tar, env.tarbz2, env.targz, env.zip]
  match opts with
  | none => { plugins := defaults }
  | some o =>
    { plugins := o.plugins.getD defaults, strip := o.strip, filter := o.filter, map := o.map }

/-- Model of `fs.readFile`: the bytes of the file the path resolves to. -/
def readFile (fs : FS) (p : Str) : Option Buffer :=
  match resolve fs p with
  | none => none
  | some q =>
    match look fs q with
    | some (Node.file data _) => some data
    | _ => none

/-- A value on which `.then` is called: a plain value or a settled promise. -/
inductive Thenable (α : Type) where
  | plain (a : α)
  | promise (settled : Except Err α)

/-- The call `v.then(k)`: a plain `Buffer` has no `then` method. -/
def callThen {α β : Type} (v : Thenable α) (k : α → Except Err β × World) (w : World) :
    Except Err β × World :=
  match v with
  | Thenable.plain _ => (Except.error (Err.typeError TypeErrorKind.thenNotFunction), w)
  | Thenable.promise (Except.ok a) => k a
  | Thenable.promise (Except.error e) => (Except.error e, w)

/-- The default export `async (input, output, opts) => ...`. -/
def decompress (env : Env) (sched : List Nat) (input : Input) (output : OutputArg)
    (opts : Option UserOptions) (w : World) : Except Err (List Value) × World :=
  match input with
  | Input.other => (Except.error Err.inputRequired, w)
  | _ =>
    let (opts, output) : Option UserOptions × Option Str :=
      match output with
      | OutputArg.object o => (o, none)
      | OutputArg.str p => (opts, some p)
      | OutputArg.undefined => (opts, none)
    let opts := assignDefaults env opts
    -- `read` is what `await fsP.readFile(input)` or `await Promise.resolve(input)` gives
    let read : Except Err Buffer × World :=
      match input with
      | Input.str p =>
        let w1 : World := { w with reads := p :: w.reads }
        match readFile w.fs p with
        | some b => (Except.ok b, w1)
        | none => (Except.error Err.io, w1)
      | Input.buffer b => (Except.ok b, w)
      | Input.other => (Except.error Err.inputRequired, w)
    match read with
    | (Except.error e, w1) => (Except.error e, w1)
    | (Except.ok buf, w1) =>
      callThen (Thenable.plain buf) (fun buf => extractFile env sched buf output opts w1) w1

/-! ## Sample values -/

/-- The function `stripDirs` as the `strip-dirs` package documents it: the path is normalized
and split at `/`, a leading `.` is dropped, at most all but the last component
are removed, and the rest is joined again; an absolute path is refused. -/
def sampleStripDirs (p : Str) (count : Nat) : Except Err Str :=
  if p.head? = some '/' then Except.error (Err.thrown 0)
  else
    let comps := splitSlash (normalize p)
    let comps := if comps.length > 1 ∧ comps.head? = some ['.'] then comps.tail else comps
    let rest := comps.drop (min count (comps.length - 1))
    let joined := joinSlash (rest.filter (fun c => !c.isEmpty))
    Except.ok (if joined = [] then ['.'] else normalize joined)

/-- A sample environment: a POSIX platform with umask `022` and decoders that
recognise nothing. -/
def posixEnv : Env :=
  { umask := 18, win32 := false, stripDirs := sampleStripDirs,
    tar := fun _ => Except.ok [], tarbz2 := fun _ => Except.ok [],
    targz := fun _ => Except.ok [], zip := fun _ => Except.ok [] }

/-- A regular-file entry. -/
def fileEntry (path : Str) (data : Buffer) (mode : Nat) : Entry :=
  { path := path, type := EntryType.file, data := data, linkname := [], mode := mode, mtime := 0 }

/-- A directory entry. -/
def dirEntry (path : Str) : Entry :=
  { path := path, type := EntryType.directory, data := [], linkname := [], mode := 493, mtime := 0 }

/-- A symbolic-link entry. -/
def symlinkEntry (path target : Str) : Entry :=
  { path := path, type := EntryType.symlink, data := [], linkname := target, mode := 493, mtime := 0 }

/-- The filter `e => e.path !== 'skip.txt'`. -/
def skipFilter (x : Value) : Bool := x.path? != some "skip.txt".toList

/-- The map `e => { e.mode = 0o644; return e }` (a property set on a promise
object is not tracked). -/
def setMode644 (x : Value) : Value :=
  match x with
  | Value.entry e => Value.entry { e with mode := 420 }
  | Value.promise s => Value.promise s

/-- A filesystem with the directories `/tmp` and `/tmp/out-evil`. -/
def siblingFS : FS := fun p =>
  if p = ["tmp".toList] then some Node.dir
  else if p = ["tmp".toList, "out-evil".toList] then some Node.dir
  else none

/-- A filesystem with the directory `/out` and, in it, a symbolic link `f`
whose target is the empty string. -/
def emptyLinkFS : FS := fun p =>
  if p = ["out".toList] then some Node.dir
  else if p = ["out".toList, "f".toList] then some (Node.symlink [])
  else none

/-- A filesystem with the directory `/tmp` only. -/
def tmpFS : FS := fun p => if p = ["tmp".toList] then some Node.dir else none

/-- A filesystem with the directories `/tmp`, `/tmp/deep`, `/tmp/x`, `/out`
and `/out/x`, and the links `/out/m` to `/tmp/deep` and `/out/l` to
`m/../x`. -/
def dotdotFS : FS := fun p =>
  if p = ["tmp".toList] then some Node.dir
  else if p = ["tmp".toList, "deep".toList] then some Node.dir
  else if p = ["tmp".toList, "x".toList] then some Node.dir
  else if p = ["out".toList] then some Node.dir
  else if p = ["out".toList, "x".toList] then some Node.dir
  else if p = ["out".toList, "m".toList] then some (Node.symlink "/tmp/deep".toList)
  else if p = ["out".toList, "l".toList] then some (Node.symlink "m/../x".toList)
  else none

/-- A filesystem with the directories `/tmp`, `/out`, `/out/deep`,
`/out/deep/er`, `/out/deep/x` and `/out/x`, and the links `/out/m` to
`/out/deep/er`, `/out/l` to `m/../x` and `/out/x/name` to
`/out/deep/x/name/../../../../tmp`. -/
def dotdotLinkFS : FS := fun p =>
  if p = ["tmp".toList] then some Node.dir
  else if p = ["out".toList] then some Node.dir
  else if p = ["out".toList, "deep".toList] then some Node.dir
  else if p = ["out".toList, "deep".toList, "er".toList] then some Node.dir
  else if p = ["out".toList, "deep".toList, "x".toList] then some Node.dir
  else if p = ["out".toList, "x".toList] then some Node.dir
  else if p = ["out".toList, "m".toList] then some (Node.symlink "/out/deep/er".toList)
  else if p = ["out".toList, "l".toList] then some (Node.symlink "m/../x".toList)
  else if p = ["out".toList, "x".toList, "name".toList] then
    some (Node.symlink "/out/deep/x/name/../../../../tmp".toList)
  else none

/-- The archive of a symbolic link `evil -> /tmp` followed by a file
`evil/pwned`. -/
def evilArchive : List Entry :=
  [symlinkEntry "evil".toList "/tmp".toList, fileEntry "evil/pwned".toList [1] 420]

/-- Options with a single plugin that decodes every input to the given
entries. -/
def archiveOptions (entries : List Entry) : Options :=
  { plugins := [fun _ => Except.ok entries] }

/-- The world with the given filesystem and nothing read or called yet. -/
def freshWorld (fs : FS) : World := { fs := fs, reads := [], pluginCalls := 0 }


/-- The real path of the nearest ancestor of `dir` (itself included) that
resolves, among `dir`, `dirname(dir)`, ... (at most `fuel + 1` paths). -/
def nearestReal (fs : FS) : Nat → Str → Except Err Str
  | 0, dir => realpath fs dir
  | fuel + 1, dir =>
    match realpath fs dir with
    | Except.ok real => Except.ok real
    | Except.error Err.unsettled => Except.error Err.unsettled
    | Except.error _ => nearestReal fs fuel (dirname dir)

/-- The directory `safeMakeDir` is called on for an entry: the destination of a
directory entry, the parent of the destination otherwise. -/
def safeTarget (output : Str) (e : Entry) : Str :=
  if e.type = EntryType.directory then join output e.path else dirname (join output e.path)

/-- Two nodes of the same kind: directories, files of the same mode, links with
the same target. -/
def sameKind : Node → Node → Prop
  | Node.dir, Node.dir => True
  | Node.file _ m, Node.file _ m' => m = m'
  | Node.symlink t, Node.symlink t' => t = t'
  | _, _ => False

/-- The filesystem `fs'` has every node of `fs`, of the same kind. -/
def Ext (fs fs' : FS) : Prop :=
  ∀ p n, look fs p = some n → ∃ n', look fs' p = some n' ∧ sameKind n n'

/-- The filesystem `fs'` has every node of `fs`, unchanged. -/
def Grow (fs fs' : FS) : Prop :=
  ∀ p n, look fs p = some n → look fs' p = some n

/-- A component that names a node: not empty, not `.`, not `..`. -/
def Plain (c : Name) : Prop := c ≠ [] ∧ c ≠ ['.'] ∧ c ≠ ['.', '.']

/-- A segment that names nothing: empty, `.` or `..`. -/
def Special (c : Str) : Prop := c = [] ∨ c = ['.'] ∨ c = ['.', '.']

/-- Segments in which the special ones come first, then names, then empty
segments (trailing slashes). -/
def Shaped (segs : List Str) : Prop :=
  ∃ pre mid post, segs = pre ++ mid ++ post ∧ (∀ c ∈ pre, Special c) ∧ (∀ c ∈ mid, Plain c)
    ∧ (∀ c ∈ post, c = [])

/-- A path string whose segments are shaped, as `path.join` returns them. -/
def Normal (s : Str) : Prop := Shaped (splitSlash s)

/-- Every node has a directory as parent. -/
def WellFormed (fs : FS) : Prop :=
  ∀ (p : List Name) (c : Name), look fs (p ++ [c]) ≠ none → isDir fs p = true

/-- The filesystem `fs'` is `fs` with directories added at paths that were
free. -/
def DirGrow (fs fs' : FS) : Prop :=
  ∀ p, (∀ n, look fs p = some n → look fs' p = some n) ∧
    (look fs p = none → look fs' p = none ∨ look fs' p = some Node.dir)


/-- A process keeps an invariant under interference: started in `fs`, with
the other processes changing the filesystem by `R` before each of its calls,
every call it performs in a state satisfying `I` leads to a state satisfying
`I`, is itself a step of `R`, and what the process settles to satisfies `Q` in
the state it settles in. -/
def Holds {α : Type} (I : FS → Prop) (R : FS → FS → Prop) (Q : Except Err α → FS → Prop) :
    Proc α → FS → Prop
  | Proc.done r, fs => Q r fs
  | Proc.call c k, fs =>
    ∀ fs', R fs fs' → I fs' →
      I (c.perform fs').2 ∧ R fs' (c.perform fs').2 ∧
        Holds I R Q (k (c.perform fs').1) (c.perform fs').2

/-- No path leading to `q`, `q` included, is a symbolic link. -/
def NoLinkOn (fs : FS) (q : List Name) : Prop :=
  ∀ p, p <+: q → ∀ t, look fs p ≠ some (Node.symlink t)

/-- The path `q` and every path leading to it are directories. -/
def DirChain (fs : FS) (q : List Name) : Prop :=
  ∀ p, p <+: q → isDir fs p = true

/-- The changes that materializing file and directory entries of `es` below
`out` makes to a filesystem: nodes keep their kind, no symbolic link appears,
and the content of a file that is new or has changed is the data of a file
entry whose destination it is. -/
def Writes (out : Str) (es : List Entry) (fs fs' : FS) : Prop :=
  Ext fs fs' ∧
  (∀ p t, look fs' p = some (Node.symlink t) → look fs p = some (Node.symlink t)) ∧
  (∀ p d m, look fs' p = some (Node.file d m) →
    look fs p = some (Node.file d m) ∨
      ∃ e ∈ es, e.type = EntryType.file ∧ resolveLexical (join out e.path) = p ∧ e.data = d)

/-- A well-formed filesystem in which no symbolic link lies on the path of
the output directory or on the path of the destination of an entry. -/
def Clear (out : Str) (es : List Entry) (fs : FS) : Prop :=
  WellFormed fs ∧ NoLinkOn fs (resolveLexical out) ∧
    ∀ e ∈ es, NoLinkOn fs (resolveLexical (join out e.path))

/-- What the materialization of a file or directory entry has established
when it resolves: the output directory and the directory `safeMakeDir` was
called on exist, the latter with a path that starts with the path of the
former; the destination resolves; and for a file entry the destination is a
file with the data of the entry that may be written again. -/
def Post (out : Str) (e : Entry) (fs : FS) : Prop :=
  DirChain fs (resolveLexical out) ∧ DirChain fs (resolveLexical (safeTarget out e)) ∧
  startsWith (render (resolveLexical (safeTarget out e))) (render (resolveLexical out)) = true ∧
  (∃ q, resolve fs (join out e.path) = some q) ∧
  (e.type = EntryType.file → ∃ d l m, resolveParent fs (join out e.path) = some (d, l) ∧
    d ++ [l] = resolveLexical (join out e.path) ∧
    look fs (resolveLexical (join out e.path)) = some (Node.file e.data m) ∧
    ownerWritable m = true)

/-- The entries the idempotence argument covers: directories, and regular
files whose mode, after the umask, leaves the owner write permission. -/
def Supported (env : Env) (e : Entry) : Prop :=
  (e.type = EntryType.file ∧ ownerWritable (maskMode env e.mode).toNat = true) ∨
    e.type = EntryType.directory

/-- No two file entries with different data have the same destination. -/
def NoConflict (out : Str) (es : List Entry) : Prop :=
  ∀ e1 ∈ es, ∀ e2 ∈ es, e1.type = EntryType.file → e2.type = EntryType.file →
    resolveLexical (join out e1.path) = resolveLexical (join out e2.path) → e1.data = e2.data

/-- An output directory, given by its components, that `/tmp` is not inside
of as far as the prefix test on strings can tell, and that is not below
`/tmp/pwned`. -/
def Outside (qo : List Name) : Prop :=
  (∀ c ∈ qo, Plain c) ∧ startsWith "/tmp".toList (render qo) = false ∧
    ¬ ["tmp".toList, "pwned".toList] <+: qo

/-- The invariant of the extraction of `evilArchive` into the output directory
with the components `qo`: the filesystem is well formed, `/tmp` is a directory
without an entry `pwned`, no symbolic link lies on the path of the output
directory, the entry `evil` of the output directory is absent, a directory or
the link to `/tmp`, and `evil/pwned` there is not a symbolic link. -/
def Trap (qo : List Name) (fs : FS) : Prop :=
  WellFormed fs ∧ isDir fs ["tmp".toList] = true ∧
  look fs ["tmp".toList, "pwned".toList] = none ∧
  NoLinkOn fs qo ∧
  (look fs (qo ++ ["evil".toList]) = none ∨ look fs (qo ++ ["evil".toList]) = some Node.dir ∨
    look fs (qo ++ ["evil".toList]) = some (Node.symlink "/tmp".toList)) ∧
  (∀ t, look fs (qo ++ ["evil".toList, "pwned".toList]) ≠ some (Node.symlink t))

/-- The rejections of the extraction of `evilArchive`: a filesystem error, or
one of the two path-escape errors, the second with the path `/tmp`. -/
def Refusal (e : Err) : Prop :=
  e = Err.io ∨ e = Err.escapeDir ∨ e = Err.escapeWrite "/tmp".toList

/-- A result that is a value or one of those rejections. -/
def Refused {α : Type} (r : Except Err α) : Prop :=
  ∀ e, r = Except.error e → Refusal e

/-! ## Properties -/

theorem runPlugins_one (input : Buffer) (p : Plugin) (o : Options) (h : o.plugins = [p]) :
    runPlugins input o = p input := by
  unfold runPlugins
  rw [h]
  cases hp : p input <;> simp [promiseAll, hp, reduceAwait]

theorem runPlugins_two (input : Buffer) (p q : Plugin) (o : Options) (a b : List Entry)
    (h : o.plugins = [p, q]) (hp : p input = Except.ok a) (hq : q input = Except.ok b) :
    runPlugins input o = Except.ok (a ++ b) := by
  unfold runPlugins
  rw [h]
  simp [promiseAll, hp, hq, reduceAwait, concatReducer]

theorem foldl_concatReducer_promise (rest : List (List Entry)) (s : Except Err (List Entry)) :
    ∃ s', rest.foldl concatReducer (Acc.promise s) = Acc.promise s' ∧
      (rest ≠ [] → s' = Except.error (Err.typeError TypeErrorKind.concatNotFunction)) := by
  induction rest generalizing s with
  | nil => exact ⟨s, rfl, fun h => absurd rfl h⟩
  | cons b rest ih =>
    obtain ⟨s', h1, h2⟩ := ih (Except.error (Err.typeError TypeErrorKind.concatNotFunction))
    refine ⟨s', by simpa [concatReducer] using h1, fun _ => ?_⟩
    cases rest with
    | nil => simp at h1; exact h1.symm
    | cons c rest => exact h2 (by simp)

theorem promiseAll_map_ok {α : Type} (rs : List α) :
    promiseAll (rs.map (fun r => (Except.ok r : Except Err α))) = Except.ok rs := by
  induction rs with
  | nil => rfl
  | cons r rs ih => simp [promiseAll, ih]

theorem sameKind_refl (n : Node) : sameKind n n := by
  cases n <;> simp [sameKind]

theorem sameKind_trans {a b c : Node} (h1 : sameKind a b) (h2 : sameKind b c) : sameKind a c := by
  cases a <;> cases b <;> cases c <;> simp_all [sameKind]

theorem Ext_refl (fs : FS) : Ext fs fs := fun _ n h => ⟨n, h, sameKind_refl n⟩

theorem Ext_trans {a b c : FS} (h1 : Ext a b) (h2 : Ext b c) : Ext a c := by
  intro p n h
  obtain ⟨n1, hn1, k1⟩ := h1 p n h
  obtain ⟨n2, hn2, k2⟩ := h2 p n1 hn1
  exact ⟨n2, hn2, sameKind_trans k1 k2⟩

theorem Grow_refl (fs : FS) : Grow fs fs := fun _ _ h => h

theorem Grow_trans {a b c : FS} (h1 : Grow a b) (h2 : Grow b c) : Grow a c :=
  fun p n h => h2 p n (h1 p n h)

theorem Grow_ext {a b : FS} (h : Grow a b) : Ext a b :=
  fun p n hn => ⟨n, h p n hn, sameKind_refl n⟩

theorem walkWith_mono {fs fs' : FS} (h : Ext fs fs')
    {expand expand' : List Name → List Str → Option (List Name)}
    (hexp : ∀ cur segs q, expand cur segs = some q → expand' cur segs = some q) :
    ∀ (segs : List Str) (cur q : List Name),
      walkWith fs expand cur segs = some q → walkWith fs' expand' cur segs = some q := by
  intro segs
  induction segs with
  | nil => intro cur q hq; simpa [walkWith] using hq
  | cons c rest ih =>
    intro cur q hq
    unfold walkWith at hq ⊢
    by_cases h1 : c = [] ∨ c = ['.']
    · simp only [h1, if_true] at hq ⊢
      exact ih _ _ hq
    · simp only [h1, if_false] at hq ⊢
      by_cases h2 : c = ['.', '.']
      · simp only [h2, if_true] at hq ⊢
        exact ih _ _ hq
      · simp only [h2, if_false] at hq ⊢
        cases hl : look fs (cur ++ [c]) with
        | none => rw [hl] at hq; simp at hq
        | some n =>
          rw [hl] at hq
          obtain ⟨n', hn', hk⟩ := h _ _ hl
          rw [hn']
          cases n with
          | dir =>
            cases n' <;> simp [sameKind] at hk
            exact ih _ _ hq
          | file d m =>
            cases n' <;> simp [sameKind] at hk
            simpa using hq
          | symlink t =>
            cases n' <;> simp [sameKind] at hk
            subst hk
            simp only at hq ⊢
            by_cases ht : t = []
            · simp [ht] at hq
            · simp only [ht, if_false] at hq ⊢
              exact hexp _ _ _ hq

theorem walk_mono {fs fs' : FS} (h : Ext fs fs') :
    ∀ (b : Nat) (cur : List Name) (segs : List Str) (q : List Name),
      walk fs b cur segs = some q → walk fs' b cur segs = some q := by
  intro b
  induction b with
  | zero =>
    intro cur segs q hq
    exact walkWith_mono h (fun _ _ _ hh => by simp at hh) segs cur q hq
  | succ n ih =>
    intro cur segs q hq
    exact walkWith_mono h (fun c s q' hh => ih c s q' hh) segs cur q hq

theorem isDir_iff (fs : FS) (p : List Name) : isDir fs p = true ↔ look fs p = some Node.dir := by
  unfold isDir
  cases h : look fs p with
  | none => simp
  | some n => cases n <;> simp

theorem isDir_mono {fs fs' : FS} (h : Ext fs fs') {p : List Name} (hd : isDir fs p = true) :
    isDir fs' p = true := by
  rw [isDir_iff] at hd ⊢
  obtain ⟨n', hn', hk⟩ := h _ _ hd
  cases n' <;> simp [sameKind] at hk
  exact hn'

theorem resolve_mono {fs fs' : FS} (h : Ext fs fs') {p : Str} {q : List Name}
    (hq : resolve fs p = some q) : resolve fs' p = some q :=
  walk_mono h _ _ _ _ hq

theorem resolveParent_mono {fs fs' : FS} (h : Ext fs fs') {p : Str} {d : List Name} {l : Name}
    (hq : resolveParent fs p = some (d, l)) : resolveParent fs' p = some (d, l) := by
  unfold resolveParent at hq ⊢
  simp only at hq ⊢
  cases hl : (splitSlash p).getLast? with
  | none => simp [hl] at hq
  | some last =>
    rw [hl] at hq
    simp only at hq ⊢
    by_cases hs : last = [] ∨ last = ['.'] ∨ last = ['.', '.']
    · simp [hs] at hq
    · simp only [hs, if_false] at hq ⊢
      cases hw : walk fs maxLinks [] (splitSlash p).dropLast with
      | none => simp [hw] at hq
      | some d' =>
        rw [hw] at hq
        rw [walk_mono h _ _ _ _ hw]
        simp only at hq ⊢
        by_cases hd : isDir fs d' = true
        · simp only [hd, if_true] at hq
          simp only [isDir_mono h hd, if_true]
          exact hq
        · simp [hd] at hq

theorem utimes_eq {fs fs' : FS} {p : Str} (h : utimes fs p = some fs') : fs' = fs := by
  unfold utimes at h
  cases hr : resolve fs p with
  | none => simp [hr] at h
  | some q => simp [hr] at h; exact h.symm

theorem look_store_same (fs : FS) (p : List Name) (n : Node) (hp : p ≠ []) :
    look (store fs p n) p = some n := by
  simp [look, store, hp]

theorem look_store_other (fs : FS) (p q : List Name) (n : Node) (hq : q ≠ p) :
    look (store fs p n) q = look fs q := by
  simp [look, store, hq]

theorem Grow_store_new {fs : FS} {p : List Name} (n : Node) (hp : p ≠ [])
    (hnone : look fs p = none) : Grow fs (store fs p n) := by
  intro q m hq
  by_cases hqp : q = p
  · subst hqp; rw [hnone] at hq; simp at hq
  · rw [look_store_other _ _ _ _ hqp]; exact hq

theorem Ext_store_file {fs : FS} {p : List Name} {d d' : List Nat} {m : Nat} (hp : p ≠ [])
    (hfile : look fs p = some (Node.file d m)) : Ext fs (store fs p (Node.file d' m)) := by
  intro q n hq
  by_cases hqp : q = p
  · subst hqp
    rw [hfile] at hq
    cases hq
    exact ⟨_, look_store_same _ _ _ hp, by simp [sameKind]⟩
  · exact ⟨n, by rw [look_store_other _ _ _ _ hqp]; exact hq, sameKind_refl n⟩

theorem walk_nil (fs : FS) (b : Nat) (cur : List Name) : walk fs b cur [] = some cur := by
  cases b <;> simp [walk, walkWith]

theorem walk_cons (fs : FS) (b : Nat) (cur : List Name) (c : Str) (rest : List Str) :
    walk fs b cur (c :: rest) =
      if c = [] ∨ c = ['.'] then walk fs b cur rest
      else if c = ['.', '.'] then walk fs b cur.dropLast rest
      else
        match look fs (cur ++ [c]) with
        | none => none
        | some Node.dir => walk fs b (cur ++ [c]) rest
        | some (Node.file _ _) => if rest = [] then some (cur ++ [c]) else none
        | some (Node.symlink t) =>
          if t = [] then none
          else
            match b with
            | 0 => none
            | b0 + 1 => walk fs b0 (if t.head? = some '/' then [] else cur) (splitSlash t ++ rest) := by
  cases b with
  | zero =>
    simp only [walk]
    rw [walkWith]
  | succ n =>
    simp only [walk]
    rw [walkWith]

theorem walk_plain_dir (fs : FS) (b : Nat) (cur : List Name) (c : Name) (hc : Plain c)
    (hd : look fs (cur ++ [c]) = some Node.dir) : walk fs b cur [c] = some (cur ++ [c]) := by
  rw [walk_cons]
  obtain ⟨h1, h2, h3⟩ := hc
  simp [h1, h2, h3, hd, walk_nil]

theorem walk_append (fs : FS) :
    ∀ (b : Nat) (xs : List Str) (cur d : List Name),
      walk fs b cur xs = some d → isDir fs d = true →
      ∃ b', b' ≤ b ∧ ∀ ys, walk fs b cur (xs ++ ys) = walk fs b' d ys := by
  intro b
  induction b using Nat.strong_induction_on with
  | _ b ihb =>
    intro xs
    induction xs with
    | nil =>
      intro cur d h _
      rw [walk_nil] at h
      cases h
      exact ⟨b, le_refl _, fun ys => by simp⟩
    | cons c rest ih =>
      intro cur d h hd
      rw [walk_cons] at h
      by_cases h1 : c = [] ∨ c = ['.']
      · simp only [h1, if_true] at h
        obtain ⟨b', hb', hys⟩ := ih _ _ h hd
        refine ⟨b', hb', fun ys => ?_⟩
        rw [List.cons_append, walk_cons]
        simp only [h1, if_true]
        exact hys ys
      · simp only [h1, if_false] at h
        by_cases h2 : c = ['.', '.']
        · simp only [h2, if_true] at h
          obtain ⟨b', hb', hys⟩ := ih _ _ h hd
          refine ⟨b', hb', fun ys => ?_⟩
          rw [List.cons_append, walk_cons]
          simp only [h1, if_false, h2, if_true]
          exact hys ys
        · simp only [h2, if_false] at h
          cases hl : look fs (cur ++ [c]) with
          | none => rw [hl] at h; simp at h
          | some n =>
            rw [hl] at h
            cases n with
            | dir =>
              simp only at h
              obtain ⟨b', hb', hys⟩ := ih _ _ h hd
              refine ⟨b', hb', fun ys => ?_⟩
              rw [List.cons_append, walk_cons]
              simp only [h1, if_false, h2, hl]
              exact hys ys
            | file dt m =>
              simp only at h
              by_cases hr : rest = []
              · simp only [hr, if_true] at h
                cases h
                rw [isDir_iff, hl] at hd
                cases hd
              · simp [hr] at h
            | symlink t =>
              simp only at h
              by_cases ht : t = []
              · simp [ht] at h
              · simp only [ht, if_false] at h
                cases b with
                | zero => simp at h
                | succ b0 =>
                  simp only at h
                  obtain ⟨b', hb', hys⟩ := ihb b0 (Nat.lt_succ_self _) _ _ _ h hd
                  refine ⟨b', Nat.le_succ_of_le hb', fun ys => ?_⟩
                  rw [List.cons_append, walk_cons]
                  simp only [h1, if_false, h2, hl, ht]
                  rw [← List.append_assoc]
                  exact hys ys

theorem mkdirRev_grow : ∀ (rev : List Name) (fs fs' : FS), mkdirRev fs rev = some fs' → Grow fs fs' := by
  intro rev
  induction rev with
  | nil => intro fs fs' h; simp [mkdirRev] at h; subst h; exact Grow_refl _
  | cons last parentRev ih =>
    intro fs fs' h
    rw [mkdirRev] at h
    cases hw : walk fs maxLinks [] (last :: parentRev).reverse with
    | some q =>
      rw [hw] at h
      simp only at h
      by_cases hd : isDir fs q = true
      · simp [hd] at h; subst h; exact Grow_refl _
      · simp [hd] at h
    | none =>
      rw [hw] at h
      simp only at h
      cases hm : mkdirRev fs parentRev with
      | none => rw [hm] at h; simp at h
      | some fs1 =>
        rw [hm] at h
        simp only at h
        cases hw1 : walk fs1 maxLinks [] parentRev.reverse with
        | none => rw [hw1] at h; simp at h
        | some d =>
          rw [hw1] at h
          simp only at h
          by_cases hc : isDir fs1 d = true ∧ look fs1 (d ++ [last]) = none
          · simp only [hc, and_self, if_true] at h
            cases h
            exact Grow_trans (ih _ _ hm) (Grow_store_new _ (by simp) hc.2)
          · simp [hc] at h

theorem mkdirRev_post : ∀ (rev : List Name) (fs fs' : FS), (∀ c ∈ rev, Plain c) →
    mkdirRev fs rev = some fs' →
    ∃ q, walk fs' maxLinks [] rev.reverse = some q ∧ isDir fs' q = true := by
  intro rev
  cases rev with
  | nil =>
    intro fs fs' _ h
    exact ⟨[], by simp [walk_nil], by simp [isDir, look]⟩
  | cons last parentRev =>
    intro fs fs' hplain h
    rw [mkdirRev] at h
    cases hw : walk fs maxLinks [] (last :: parentRev).reverse with
    | some q =>
      rw [hw] at h
      simp only at h
      by_cases hd : isDir fs q = true
      · simp [hd] at h; subst h; exact ⟨q, hw, hd⟩
      · simp [hd] at h
    | none =>
      rw [hw] at h
      simp only at h
      cases hm : mkdirRev fs parentRev with
      | none => rw [hm] at h; simp at h
      | some fs1 =>
        rw [hm] at h
        simp only at h
        cases hw1 : walk fs1 maxLinks [] parentRev.reverse with
        | none => rw [hw1] at h; simp at h
        | some d =>
          rw [hw1] at h
          simp only at h
          by_cases hc : isDir fs1 d = true ∧ look fs1 (d ++ [last]) = none
          · simp only [hc, and_self, if_true] at h
            cases h
            have hg : Grow fs1 (store fs1 (d ++ [last]) Node.dir) :=
              Grow_store_new _ (by simp) hc.2
            have hw2 := walk_mono (Grow_ext hg) _ _ _ _ hw1
            have hd2 := isDir_mono (Grow_ext hg) hc.1
            obtain ⟨b', _, hys⟩ := walk_append _ _ _ _ _ hw2 hd2
            have hl : look (store fs1 (d ++ [last]) Node.dir) (d ++ [last]) = some Node.dir :=
              look_store_same _ _ _ (by simp)
            refine ⟨d ++ [last], ?_, by rw [isDir_iff]; exact hl⟩
            rw [List.reverse_cons, hys, walk_plain_dir _ _ _ _ (hplain last (by simp)) hl]
          · simp [hc] at h

theorem mkdirRev_noop (fs : FS) (rev : List Name) (q : List Name)
    (hw : walk fs maxLinks [] rev.reverse = some q) (hd : isDir fs q = true) :
    mkdirRev fs rev = some fs := by
  cases rev with
  | nil => rfl
  | cons last parentRev =>
    rw [mkdirRev, hw]
    simp [hd]

theorem normalizeSegs_false_plain : ∀ (segs acc : List Str), (∀ c ∈ acc, Plain c) →
    ∀ c ∈ normalizeSegs false acc segs, Plain c := by
  intro segs
  induction segs with
  | nil => intro acc h c hc; simp [normalizeSegs] at hc; exact h c hc
  | cons s rest ih =>
    intro acc h c hc
    by_cases h1 : s = [] ∨ s = ['.']
    · rw [normalizeSegs.eq_def] at hc
      simp only [h1, if_true] at hc; exact ih acc h c hc
    · by_cases h2 : s = ['.', '.']
      · cases acc with
        | nil =>
          rw [normalizeSegs.eq_def] at hc
          simp [h2] at hc; exact ih [] (by simp) c hc
        | cons last acc' =>
          rw [normalizeSegs.eq_def] at hc
          have hl : last ≠ ['.', '.'] := (h last (by simp)).2.2
          simp [h2, hl] at hc
          exact ih acc' (fun x hx => h x (by simp [hx])) c hc
      · rw [normalizeSegs.eq_def] at hc
        simp only [h1, if_false, h2] at hc
        refine ih (s :: acc) ?_ c hc
        intro x hx
        simp at hx
        rcases hx with rfl | hx
        · exact ⟨fun e => h1 (Or.inl e), fun e => h1 (Or.inr e), h2⟩
        · exact h x hx

theorem resolveLexical_plain (p : Str) : ∀ c ∈ resolveLexical p, Plain c :=
  normalizeSegs_false_plain _ [] (by simp)

theorem makeDir_inv {fs fs' : FS} {p out : Str} (h : makeDir fs p = some (out, fs')) :
    out = render (resolveLexical p) ∧ mkdirRev fs (resolveLexical p).reverse = some fs' := by
  unfold makeDir at h
  cases hm : mkdirRev fs (resolveLexical p).reverse with
  | none => simp [hm] at h
  | some fs1 => simp [hm] at h; exact ⟨h.1.symm, by rw [h.2]⟩

theorem makeDir_post {fs fs' : FS} {p out : Str} (h : makeDir fs p = some (out, fs')) :
    ∃ q, walk fs' maxLinks [] (resolveLexical p) = some q ∧ isDir fs' q = true := by
  have := mkdirRev_post _ _ _ (fun c hc => resolveLexical_plain p c (by simpa using hc)) (makeDir_inv h).2
  simpa using this

theorem makeDir_noop {fs : FS} {p : Str} {q : List Name}
    (hw : walk fs maxLinks [] (resolveLexical p) = some q) (hd : isDir fs q = true) :
    makeDir fs p = some (render (resolveLexical p), fs) := by
  unfold makeDir
  rw [mkdirRev_noop fs _ q (by simpa using hw) hd]

theorem writeAt_ext (data : List Nat) (mode : Nat) :
    ∀ (budget : Nat) (fs fs' : FS) (d : List Name) (l : Name),
      writeAt fs data mode budget d l = some fs' → Ext fs fs' := by
  intro budget
  induction budget with
  | zero =>
    intro fs fs' d l h
    rw [writeAt] at h
    cases hl : look fs (d ++ [l]) with
    | none => rw [hl] at h; simp at h; subst h; exact Grow_ext (Grow_store_new _ (by simp) hl)
    | some n =>
      rw [hl] at h
      cases n with
      | dir => simp at h
      | file dt m =>
        simp only at h
        by_cases hw : ownerWritable m = true
        · simp [hw] at h; subst h; exact Ext_store_file (by simp) hl
        · simp [hw] at h
      | symlink t => simp at h
  | succ b ih =>
    intro fs fs' d l h
    rw [writeAt] at h
    cases hl : look fs (d ++ [l]) with
    | none => rw [hl] at h; simp at h; subst h; exact Grow_ext (Grow_store_new _ (by simp) hl)
    | some n =>
      rw [hl] at h
      cases n with
      | dir => simp at h
      | file dt m =>
        simp only at h
        by_cases hw : ownerWritable m = true
        · simp [hw] at h; subst h; exact Ext_store_file (by simp) hl
        · simp [hw] at h
      | symlink t =>
        simp only at h
        by_cases ht : t = []
        · simp [ht] at h
        · simp only [ht, if_false] at h
          cases hg : (splitSlash t).getLast? with
          | none => simp [hg] at h
          | some l1 =>
            rw [hg] at h
            simp only at h
            by_cases hs : l1 = [] ∨ l1 = ['.'] ∨ l1 = ['.', '.']
            · simp [hs] at h
            · simp only [hs, if_false] at h
              cases hw : walk fs maxLinks (if t.head? = some '/' then [] else d) (splitSlash t).dropLast with
              | none => simp [hw] at h
              | some d1 =>
                rw [hw] at h
                simp only at h
                by_cases hd : isDir fs d1 = true
                · simp only [hd, if_true] at h
                  exact ih _ _ _ _ h
                · simp [hd] at h

theorem runPlugins_archiveOptions (input : Buffer) (entries : List Entry) :
    runPlugins input (archiveOptions entries) = Except.ok entries := by
  simp [runPlugins, archiveOptions, promiseAll, reduceAwait]

theorem transform_archiveOptions (env : Env) (entries files : List Entry) :
    transform env (archiveOptions entries) files = files.map Value.entry := by
  simp [transform, archiveOptions]

theorem readlink_of_file {fs : FS} {p : Str} {d : List Name} {l : Name} {dt : List Nat} {m : Nat}
    (hp : resolveParent fs p = some (d, l)) (hl : look fs (d ++ [l]) = some (Node.file dt m)) :
    readlink fs p = none := by
  simp [readlink, hp, hl]

theorem writeAt_file {fs : FS} {d : List Name} {l : Name} {dt data : List Nat} {m mode : Nat}
    (b : Nat) (hl : look fs (d ++ [l]) = some (Node.file dt m)) (hw : ownerWritable m = true) :
    writeAt fs data mode b d l = some (store fs (d ++ [l]) (Node.file data m)) := by
  rw [writeAt]
  simp [hl, hw]

theorem splitSlash_ne_nil (s : Str) : splitSlash s ≠ [] := by
  cases s with
  | nil => simp [splitSlash]
  | cons c cs =>
    rw [splitSlash]
    cases splitSlash cs with
    | nil => simp
    | cons seg segs => by_cases h : c = '/' <;> simp [h]

theorem splitSlash_cons_slash (cs : Str) : splitSlash ('/' :: cs) = [] :: splitSlash cs := by
  rw [splitSlash]
  cases h : splitSlash cs with
  | nil => exact absurd h (splitSlash_ne_nil cs)
  | cons seg segs => simp

theorem splitSlash_cons_other {c : Char} (hc : c ≠ '/') (cs : Str) :
    splitSlash (c :: cs) = (c :: (splitSlash cs).headD []) :: (splitSlash cs).tail := by
  rw [splitSlash]
  cases h : splitSlash cs with
  | nil => exact absurd h (splitSlash_ne_nil cs)
  | cons seg segs => simp [hc]

theorem splitSlash_append_slash (a b : Str) :
    splitSlash (a ++ '/' :: b) = splitSlash a ++ splitSlash b := by
  induction a with
  | nil => rw [List.nil_append, splitSlash_cons_slash]; rfl
  | cons c a ih =>
    by_cases hc : c = '/'
    · subst hc
      rw [List.cons_append, splitSlash_cons_slash, splitSlash_cons_slash, ih]
      rfl
    · rw [List.cons_append, splitSlash_cons_other hc, splitSlash_cons_other hc, ih]
      cases h : splitSlash a with
      | nil => exact absurd h (splitSlash_ne_nil a)
      | cons seg segs => simp

theorem splitSlash_of_noslash (seg : Str) (h : '/' ∉ seg) : splitSlash seg = [seg] := by
  induction seg with
  | nil => rfl
  | cons c cs ih =>
    have hc : c ≠ '/' := fun e => h (by simp [e])
    have hcs : '/' ∉ cs := fun e => h (by simp [e])
    rw [splitSlash_cons_other hc, ih hcs]
    rfl

theorem splitSlash_noslash (s : Str) : ∀ seg ∈ splitSlash s, '/' ∉ seg := by
  induction s with
  | nil => intro seg h; simp [splitSlash] at h; subst h; simp
  | cons c cs ih =>
    intro seg h
    by_cases hc : c = '/'
    · subst hc
      rw [splitSlash_cons_slash] at h
      simp only [List.mem_cons] at h
      rcases h with rfl | h
      · simp
      · exact ih seg h
    · rw [splitSlash_cons_other hc] at h
      cases hs : splitSlash cs with
      | nil => exact absurd hs (splitSlash_ne_nil cs)
      | cons s0 ss =>
        rw [hs] at h ih
        simp only [List.headD_cons, List.tail_cons, List.mem_cons] at h
        rcases h with rfl | h
        · intro hm
          simp only [List.mem_cons] at hm
          rcases hm with e | hm
          · exact hc e.symm
          · exact ih s0 (by simp) hm
        · exact ih seg (by simp [h])

theorem splitSlash_joinSlash : ∀ (segs : List Str), segs ≠ [] → (∀ seg ∈ segs, '/' ∉ seg) →
    splitSlash (joinSlash segs) = segs := by
  intro segs
  induction segs with
  | nil => intro h; exact absurd rfl h
  | cons s rest ih =>
    intro _ hno
    cases rest with
    | nil => simpa [joinSlash] using splitSlash_of_noslash s (hno s (by simp))
    | cons t rest =>
      rw [joinSlash, splitSlash_append_slash, splitSlash_of_noslash s (hno s (by simp)),
        ih (by simp) (fun x hx => hno x (by simp [hx]))]
      rfl

theorem splitSlash_snoc_slash (a : Str) : splitSlash (a ++ ['/']) = splitSlash a ++ [[]] := by
  rw [splitSlash_append_slash]
  rfl

theorem joinSlash_eq_nil {segs : List Str} (h : joinSlash segs = []) : segs = [] ∨ segs = [[]] := by
  cases segs with
  | nil => exact Or.inl rfl
  | cons s rest =>
    cases rest with
    | nil => right; simpa [joinSlash] using h
    | cons t rest => simp [joinSlash] at h

theorem plain_not_special {c : Str} (h : Plain c) : ¬ Special c := by
  intro hs
  rcases hs with e | e | e
  · exact h.1 e
  · exact h.2.1 e
  · exact h.2.2 e

theorem plain_or_special (c : Str) : Plain c ∨ Special c := by
  by_cases h1 : c = []
  · exact Or.inr (Or.inl h1)
  · by_cases h2 : c = ['.']
    · exact Or.inr (Or.inr (Or.inl h2))
    · by_cases h3 : c = ['.', '.']
      · exact Or.inr (Or.inr (Or.inr h3))
      · exact Or.inl ⟨h1, h2, h3⟩

/-- The result of `normalizeSegs`: `..` segments (none when `allowAboveRoot` is
false), then names. -/
theorem normalizeSegs_shape (b : Bool) : ∀ (segs acc : List Str),
    (∃ dots plains, acc.reverse = dots ++ plains ∧ (∀ c ∈ dots, c = ['.', '.']) ∧
      (∀ c ∈ plains, Plain c) ∧ (b = false → dots = [])) →
    ∃ dots plains, normalizeSegs b acc segs = dots ++ plains ∧ (∀ c ∈ dots, c = ['.', '.']) ∧
      (∀ c ∈ plains, Plain c) ∧ (b = false → dots = []) := by
  intro segs
  induction segs with
  | nil => intro acc h; simpa [normalizeSegs] using h
  | cons s rest ih =>
    intro acc h
    obtain ⟨dots, plains, hacc, hdots, hplains, hb⟩ := h
    by_cases h1 : s = [] ∨ s = ['.']
    · rw [normalizeSegs.eq_def]
      simp only [h1, if_true]
      exact ih acc ⟨dots, plains, hacc, hdots, hplains, hb⟩
    · by_cases h2 : s = ['.', '.']
      · subst h2
        cases acc with
        | nil =>
          rw [normalizeSegs.eq_def]
          simp only [List.cons_ne_nil, false_or, List.cons.injEq, and_false, if_false, if_true]
          refine ih _ ?_
          cases b with
          | true => exact ⟨[['.', '.']], [], by simp, by simp, by simp, by simp⟩
          | false => exact ⟨[], [], by simp, by simp, by simp, by simp⟩
        | cons last acc' =>
          rw [normalizeSegs.eq_def]
          simp only [List.cons_ne_nil, false_or, List.cons.injEq, and_false, if_false, if_true]
          simp only [List.reverse_cons] at hacc
          by_cases hl : last = ['.', '.']
          · simp only [hl, if_true]
            refine ih _ ?_
            -- the accumulator ends with `..`, so it holds no name
            have hpl : plains = [] := by
              rcases List.eq_nil_or_concat plains with hp | ⟨pl, x, hp⟩
              · exact hp
              · subst hp
                simp only [List.concat_eq_append] at hacc hplains ⊢
                rw [← List.append_assoc] at hacc
                have := List.append_inj_right' hacc (by simp)
                simp only [List.cons.injEq, and_true] at this
                have hx := hplains x (by simp)
                exact absurd (this ▸ hl) hx.2.2
            subst hpl
            simp only [List.append_nil] at hacc
            cases b with
            | true =>
              refine ⟨dots ++ [['.', '.']], [], ?_, ?_, by simp, by simp⟩
              · simp [List.reverse_cons, ← hacc, hl]
              · intro c hc
                simp only [List.mem_append, List.mem_singleton] at hc
                rcases hc with hc | hc
                · exact hdots c hc
                · exact hc
            | false =>
              have hd := hb rfl
              subst hd
              simp at hacc
          · simp only [hl, if_false]
            refine ih _ ?_
            have hpl : ∃ pl, plains = pl ++ [last] := by
              rcases List.eq_nil_or_concat plains with hp | ⟨pl, x, hp⟩
              · subst hp
                simp only [List.append_nil] at hacc
                have : last ∈ dots := by rw [← hacc]; simp
                exact absurd (hdots last this) hl
              · subst hp
                simp only [List.concat_eq_append] at hacc hplains ⊢
                rw [← List.append_assoc] at hacc
                have := List.append_inj_right' hacc (by simp)
                simp only [List.cons.injEq, and_true] at this
                exact ⟨pl, by rw [this]⟩
            obtain ⟨pl, rfl⟩ := hpl
            rw [← List.append_assoc] at hacc
            have hleft := List.append_inj_left' hacc (by simp)
            exact ⟨dots, pl, hleft, hdots, fun c hc => hplains c (by simp [hc]), hb⟩
      · rw [normalizeSegs.eq_def]
        simp only [h1, if_false, h2]
        refine ih _ ⟨dots, plains ++ [s], ?_, hdots, ?_, hb⟩
        · simp [List.reverse_cons, hacc]
        · intro c hc
          simp only [List.mem_append, List.mem_singleton] at hc
          rcases hc with hc | hc
          · exact hplains c hc
          · subst hc
            exact ⟨fun e => h1 (Or.inl e), fun e => h1 (Or.inr e), h2⟩

theorem normalizeSegs_skip_special : ∀ (pre rest : List Str), (∀ c ∈ pre, Special c) →
    normalizeSegs false [] (pre ++ rest) = normalizeSegs false [] rest := by
  intro pre
  induction pre with
  | nil => intro rest _; rfl
  | cons s pre ih =>
    intro rest h
    have hs := h s (by simp)
    rw [List.cons_append, normalizeSegs.eq_def]
    rcases hs with e | e | e
    · subst e
      simpa using ih rest (fun c hc => h c (by simp [hc]))
    · subst e
      simpa using ih rest (fun c hc => h c (by simp [hc]))
    · subst e
      simpa using ih rest (fun c hc => h c (by simp [hc]))

theorem normalizeSegs_push_plain : ∀ (mid rest acc : List Str), (∀ c ∈ mid, Plain c) →
    normalizeSegs false acc (mid ++ rest) = normalizeSegs false (mid.reverse ++ acc) rest := by
  intro mid
  induction mid with
  | nil => intro rest acc _; rfl
  | cons s mid ih =>
    intro rest acc h
    obtain ⟨h1, h2, h3⟩ := h s (by simp)
    rw [List.cons_append, normalizeSegs.eq_def]
    simp only [h1, h2, h3, or_self, if_false]
    rw [ih rest (s :: acc) (fun c hc => h c (by simp [hc]))]
    simp

theorem normalizeSegs_skip_empty : ∀ (post acc : List Str), (∀ c ∈ post, c = []) →
    normalizeSegs false acc post = acc.reverse := by
  intro post
  induction post with
  | nil => intro acc _; rfl
  | cons s post ih =>
    intro acc h
    have hs := h s (by simp)
    subst hs
    rw [normalizeSegs.eq_def]
    simpa using ih acc (fun c hc => h c (by simp [hc]))

theorem normalizeSegs_of_shaped {pre mid post : List Str} (hpre : ∀ c ∈ pre, Special c)
    (hmid : ∀ c ∈ mid, Plain c) (hpost : ∀ c ∈ post, c = []) :
    normalizeSegs false [] (pre ++ mid ++ post) = mid := by
  rw [List.append_assoc, normalizeSegs_skip_special _ _ hpre, normalizeSegs_push_plain _ _ _ hmid,
    normalizeSegs_skip_empty _ _ hpost]
  simp

theorem normalizeSegs_subset (b : Bool) : ∀ (segs acc : List Str),
    ∀ c ∈ normalizeSegs b acc segs, c ∈ acc ∨ c ∈ segs := by
  intro segs
  induction segs with
  | nil => intro acc c hc; simp [normalizeSegs] at hc; exact Or.inl hc
  | cons s rest ih =>
    intro acc c hc
    have key : ∀ acc2, (∀ x ∈ acc2, x ∈ acc ∨ x = s) → c ∈ normalizeSegs b acc2 rest →
        c ∈ acc ∨ c ∈ s :: rest := by
      intro acc2 hsub hmem
      rcases ih acc2 c hmem with h | h
      · rcases hsub c h with h' | h'
        · exact Or.inl h'
        · exact Or.inr (by simp [h'])
      · exact Or.inr (by simp [h])
    by_cases h1 : s = [] ∨ s = ['.']
    · rw [normalizeSegs.eq_def] at hc
      simp only [h1, if_true] at hc
      exact key acc (fun x hx => Or.inl hx) hc
    · by_cases h2 : s = ['.', '.']
      · cases acc with
        | nil =>
          rw [normalizeSegs.eq_def] at hc
          simp only [h1, if_false, h2, if_true] at hc
          refine key _ ?_ hc
          intro x hx
          split_ifs at hx
          · simp only [List.mem_singleton] at hx
            exact Or.inr (by rw [hx, h2])
          · simp at hx
        | cons last acc' =>
          rw [normalizeSegs.eq_def] at hc
          simp only [h1, if_false, h2, if_true] at hc
          by_cases hl : last = ['.', '.']
          · simp only [hl, if_true] at hc
            refine key _ ?_ hc
            intro x hx
            split_ifs at hx
            · simp only [List.mem_cons] at hx
              rcases hx with hx | hx | hx
              · exact Or.inr (by rw [hx, h2])
              · exact Or.inl (by simp [hx, hl])
              · exact Or.inl (by simp [hx])
            · simp only [List.mem_cons] at hx
              rcases hx with hx | hx
              · exact Or.inl (by simp [hx, hl])
              · exact Or.inl (by simp [hx])
          · simp only [hl, if_false] at hc
            exact key _ (fun x hx => Or.inl (by simp [hx])) hc
      · rw [normalizeSegs.eq_def] at hc
        simp only [h1, if_false, h2] at hc
        refine key _ ?_ hc
        intro x hx
        simp only [List.mem_cons] at hx
        rcases hx with hx | hx
        · exact Or.inr hx
        · exact Or.inl hx

theorem normal_normalize (x : Str) : Normal (normalize x) := by
  unfold normalize
  by_cases hx : x = []
  · simp only [hx, if_true]
    exact ⟨[['.']], [], [], by decide, by simp [Special], by simp, by simp⟩
  · simp only [hx, if_false]
    obtain ⟨dots, plains, hns, hdots, hplains, _⟩ :=
      normalizeSegs_shape (!decide (x.head? = some '/')) (splitSlash x) []
        ⟨[], [], by simp, by simp, by simp, by simp⟩
    have hnoslash : ∀ c ∈ normalizeSegs (!decide (x.head? = some '/')) [] (splitSlash x), '/' ∉ c := by
      intro c hc
      rcases normalizeSegs_subset _ _ _ c hc with h | h
      · simp at h
      · exact splitSlash_noslash x c h
    generalize normalizeSegs (!decide (x.head? = some '/')) [] (splitSlash x) = ns at hns hnoslash ⊢
    by_cases hbody : joinSlash ns = []
    · simp only [hbody, if_true]
      split_ifs
      · exact ⟨[[], []], [], [], by decide, by simp [Special], by simp, by simp⟩
      · exact ⟨[['.'], []], [], [], by decide, by simp [Special], by simp, by simp⟩
      · exact ⟨[['.']], [], [], by decide, by simp [Special], by simp, by simp⟩
    · simp only [hbody, if_false]
      have hne : ns ≠ [] := by
        intro h
        rw [h] at hbody
        exact hbody rfl
      have hsplit := splitSlash_joinSlash _ hne hnoslash
      have hd : ∀ c ∈ dots, Special c := fun c hc => Or.inr (Or.inr (hdots c hc))
      have hd' : ∀ c ∈ [] :: dots, Special c := by
        intro c hc
        simp only [List.mem_cons] at hc
        rcases hc with rfl | hc
        · exact Or.inl rfl
        · exact hd c hc
      by_cases hAbs : x.head? = some '/'
      · by_cases hTr : x.getLast? = some '/'
        · simp only [hAbs, hTr, if_true]
          refine ⟨[] :: dots, plains, [[]], ?_, hd', hplains, by simp⟩
          rw [splitSlash_cons_slash, splitSlash_snoc_slash, hsplit, hns]
          simp
        · simp only [hAbs, hTr, if_true, if_false]
          refine ⟨[] :: dots, plains, [], ?_, hd', hplains, by simp⟩
          rw [splitSlash_cons_slash, hsplit, hns]
          simp
      · by_cases hTr : x.getLast? = some '/'
        · simp only [hAbs, hTr, if_true, if_false]
          refine ⟨dots, plains, [[]], ?_, hd, hplains, by simp⟩
          rw [splitSlash_snoc_slash, hsplit, hns]
        · simp only [hAbs, hTr, if_false]
          refine ⟨dots, plains, [], ?_, hd, hplains, by simp⟩
          rw [hsplit, hns]
          simp

theorem normal_join (a b : Str) : Normal (join a b) := by
  unfold join
  split_ifs
  · exact ⟨[['.']], [], [], by decide, by simp [Special], by simp, by simp⟩
  · exact normal_normalize _
  · exact normal_normalize _
  · exact normal_normalize _

theorem dropWhile_append_all {α : Type} (p : α → Bool) : ∀ (l1 l2 : List α),
    (∀ x ∈ l1, p x = true) → (l1 ++ l2).dropWhile p = l2.dropWhile p := by
  intro l1
  induction l1 with
  | nil => intro l2 _; rfl
  | cons a l1 ih =>
    intro l2 h
    rw [List.cons_append, List.dropWhile_cons, h a (by simp)]
    simp only [if_true]
    exact ih l2 (fun x hx => h x (by simp [hx]))

theorem mem_kept_dropLast {l : List Str} {c : Str}
    (h : c ∈ ((l.reverse.dropWhile (· = [])).reverse).dropLast) : c ∈ l := by
  have h1 := List.mem_of_mem_dropLast h
  rw [List.mem_reverse] at h1
  have h2 := (List.dropWhile_sublist (fun x : Str => decide (x = []))).subset h1
  exact List.mem_reverse.mp h2

theorem kept_dropLast_shape {pre mid post : List Str} (hpre : ∀ c ∈ pre, Special c)
    (hmid : ∀ c ∈ mid, Plain c) (hpost : ∀ c ∈ post, c = []) :
    ∃ pre2, (((pre ++ mid ++ post).reverse.dropWhile (· = [])).reverse).dropLast
        = pre2 ++ mid.dropLast ∧ (∀ c ∈ pre2, Special c) := by
  rcases List.eq_nil_or_concat mid with hm | ⟨m, x, hm⟩
  · subst hm
    refine ⟨(((pre ++ [] ++ post).reverse.dropWhile (· = [])).reverse).dropLast, by simp, ?_⟩
    intro c hc
    have := mem_kept_dropLast hc
    simp only [List.append_nil, List.mem_append] at this
    rcases this with h | h
    · exact hpre c h
    · exact Or.inl (hpost c h)
  · subst hm
    simp only [List.concat_eq_append] at hmid ⊢
    have hx : x ≠ [] := (hmid x (by simp)).1
    refine ⟨pre, ?_, hpre⟩
    have h1 : (pre ++ (m ++ [x]) ++ post).reverse = post.reverse ++ (x :: (m.reverse ++ pre.reverse)) := by
      simp
    rw [h1, dropWhile_append_all _ _ _ (by
      intro y hy
      simp only [List.mem_reverse] at hy
      simp [hpost y hy])]
    rw [List.dropWhile_cons]
    simp only [hx, decide_False, Bool.false_eq_true, if_false]
    simp [List.dropLast_concat, ← List.append_assoc]

theorem resolveLexical_of_shaped {s : Str} {pre mid post : List Str}
    (hs : splitSlash s = pre ++ mid ++ post) (hpre : ∀ c ∈ pre, Special c)
    (hmid : ∀ c ∈ mid, Plain c) (hpost : ∀ c ∈ post, c = []) : resolveLexical s = mid := by
  unfold resolveLexical
  rw [hs]
  exact normalizeSegs_of_shaped hpre hmid hpost

theorem normal_of_special_segs {s : Str} (h : ∀ c ∈ splitSlash s, Special c) :
    Normal s ∧ resolveLexical s = [] :=
  ⟨⟨splitSlash s, [], [], by simp, h, by simp, by simp⟩,
    @resolveLexical_of_shaped s (splitSlash s) [] [] (by simp) h (by simp)
      (by simp)⟩

/-- The parent of a normal path is normal, and `path.resolve` of the parent is
`path.resolve` of the path without its last component. -/
theorem dirname_normal (s : Str) (h : Normal s) :
    Normal (dirname s) ∧ resolveLexical (dirname s) = (resolveLexical s).dropLast := by
  obtain ⟨pre, mid, post, hseg, hpre, hmid, hpost⟩ := h
  rw [resolveLexical_of_shaped hseg hpre hmid hpost]
  have hdot : Normal ['.'] ∧ resolveLexical ['.'] = [] :=
    normal_of_special_segs (by
      intro c hc
      have : splitSlash ['.'] = [['.']] := by decide
      rw [this] at hc
      simp only [List.mem_singleton] at hc
      exact Or.inr (Or.inl hc))
  have hroot : Normal ['/'] ∧ resolveLexical ['/'] = [] :=
    normal_of_special_segs (by
      intro c hc
      have : splitSlash ['/'] = [[], []] := by decide
      rw [this] at hc
      simp only [List.mem_cons, List.mem_singleton, List.not_mem_nil, or_false, or_self] at hc
      exact Or.inl hc)
  have hroot2 : Normal ['/', '/'] ∧ resolveLexical ['/', '/'] = [] :=
    normal_of_special_segs (by
      intro c hc
      have : splitSlash ['/', '/'] = [[], [], []] := by decide
      rw [this] at hc
      simp only [List.mem_cons, List.mem_singleton, List.not_mem_nil, or_false, or_self] at hc
      exact Or.inl hc)
  obtain ⟨pre2, hkept, hpre2⟩ := kept_dropLast_shape hpre hmid hpost
  have hplain_drop : ∀ c ∈ mid.dropLast, Plain c := fun c hc => hmid c (List.mem_of_mem_dropLast hc)
  -- when every kept segment is empty, no name is left
  have hnil_of_empty : (∀ c ∈ pre2 ++ mid.dropLast, c = []) → mid.dropLast = [] := by
    intro hall
    cases hd : mid.dropLast with
    | nil => rfl
    | cons a l =>
      have ha : a ∈ mid.dropLast := by rw [hd]; simp
      exact absurd (hall a (by simp [ha])) (hplain_drop a ha).1
  unfold dirname
  by_cases hs : s = []
  · simp only [hs, if_true]
    subst hs
    have : mid = [] := by
      cases mid with
      | nil => rfl
      | cons a l =>
        have : a ∈ splitSlash [] := by rw [hseg]; simp
        simp only [splitSlash, List.mem_singleton] at this
        exact absurd this (hmid a (by simp)).1
    rw [this]
    exact ⟨hdot.1, hdot.2⟩
  · simp only [hs, if_false]
    rw [hseg, hkept]
    cases hr : pre2 ++ mid.dropLast with
    | nil =>
      have hm : mid.dropLast = [] := by
        have := congrArg List.length hr
        simp only [List.length_append, List.length_nil] at this
        exact List.length_eq_zero.mp (by omega)
      simp only [hm]
      split_ifs
      · exact ⟨hroot.1, hroot.2⟩
      · exact ⟨hdot.1, hdot.2⟩
    | cons a l =>
      simp only
      have hne : a :: l ≠ [] := by simp
      have hnoslash : ∀ c ∈ a :: l, '/' ∉ c := by
        intro c hc
        rw [← hr, ← hkept] at hc
        have := mem_kept_dropLast hc
        rw [← hseg] at this
        exact splitSlash_noslash s c this
      have hsplit := splitSlash_joinSlash _ hne hnoslash
      by_cases hd : joinSlash (a :: l) = []
      · simp only [hd, if_true]
        have hm : mid.dropLast = [] := by
          refine hnil_of_empty ?_
          rw [hr]
          rcases joinSlash_eq_nil hd with h | h
          · exact absurd h hne
          · rw [h]; simp
        rw [hm]
        exact ⟨hroot.1, hroot.2⟩
      · simp only [hd, if_false]
        by_cases hd2 : s.head? = some '/' ∧ joinSlash (a :: l) = ['/']
        · simp only [hd2, and_self, if_true]
          have hm : mid.dropLast = [] := by
            refine hnil_of_empty ?_
            rw [hr, ← hsplit, hd2.2]
            decide
          rw [hm]
          exact ⟨hroot2.1, hroot2.2⟩
        · simp only [hd2, if_false]
          have hshape : splitSlash (joinSlash (a :: l)) = pre2 ++ mid.dropLast ++ [] := by
            rw [hsplit, hr]; simp
          exact ⟨⟨pre2, mid.dropLast, [], hshape, hpre2, hplain_drop, by simp⟩,
            resolveLexical_of_shaped hshape hpre2 hplain_drop (by simp)⟩

theorem walk_skip_special_root (fs : FS) (b : Nat) : ∀ (pre rest : List Str),
    (∀ c ∈ pre, Special c) → walk fs b [] (pre ++ rest) = walk fs b [] rest := by
  intro pre
  induction pre with
  | nil => intro rest _; rfl
  | cons s pre ih =>
    intro rest h
    have hs := h s (by simp)
    rw [List.cons_append, walk_cons]
    rcases hs with e | e | e
    · subst e
      simpa using ih rest (fun c hc => h c (by simp [hc]))
    · subst e
      simpa using ih rest (fun c hc => h c (by simp [hc]))
    · subst e
      simpa using ih rest (fun c hc => h c (by simp [hc]))

theorem walk_empties (fs : FS) (b : Nat) (cur : List Name) : ∀ (post : List Str),
    (∀ c ∈ post, c = []) → walk fs b cur post = some cur := by
  intro post
  induction post with
  | nil => intro _; exact walk_nil fs b cur
  | cons s post ih =>
    intro h
    have hs := h s (by simp)
    subst hs
    rw [walk_cons]
    simpa using ih (fun c hc => h c (by simp [hc]))

theorem walk_drop_empties (fs : FS) (post : List Str) (hpost : ∀ c ∈ post, c = []) :
    ∀ (b : Nat) (xs : List Str) (cur q : List Name),
      walk fs b cur (xs ++ post) = some q → walk fs b cur xs = some q := by
  intro b
  induction b using Nat.strong_induction_on with
  | _ b ihb =>
    intro xs
    induction xs with
    | nil =>
      intro cur q h
      rw [List.nil_append, walk_empties fs b cur post hpost] at h
      rw [walk_nil]
      exact h
    | cons c rest ih =>
      intro cur q h
      rw [List.cons_append, walk_cons] at h
      rw [walk_cons]
      by_cases h1 : c = [] ∨ c = ['.']
      · simp only [h1, if_true] at h ⊢
        exact ih _ _ h
      · simp only [h1, if_false] at h ⊢
        by_cases h2 : c = ['.', '.']
        · simp only [h2, if_true] at h ⊢
          exact ih _ _ h
        · simp only [h2, if_false] at h ⊢
          cases hl : look fs (cur ++ [c]) with
          | none => rw [hl] at h; simp at h
          | some n =>
            rw [hl] at h
            cases n with
            | dir => exact ih _ _ h
            | file dt m =>
              simp only at h ⊢
              by_cases hr : rest ++ post = []
              · simp only [hr, if_true] at h
                have : rest = [] := (List.append_eq_nil.mp hr).1
                simp only [this, if_true]
                exact h
              · simp [hr] at h
            | symlink t =>
              simp only at h ⊢
              by_cases ht : t = []
              · simp [ht] at h
              · simp only [ht, if_false] at h ⊢
                cases b with
                | zero => simp at h
                | succ b0 =>
                  simp only at h ⊢
                  rw [← List.append_assoc] at h
                  exact ihb b0 (Nat.lt_succ_self _) _ _ _ h

/-- On a normal path, resolving the string gives what resolving its
`path.resolve` components gives. -/
theorem walk_lexical_of_string {fs : FS} {s : Str} (hn : Normal s) {b : Nat} {q : List Name}
    (h : walk fs b [] (splitSlash s) = some q) : walk fs b [] (resolveLexical s) = some q := by
  obtain ⟨pre, mid, post, hseg, hpre, hmid, hpost⟩ := hn
  rw [resolveLexical_of_shaped hseg hpre hmid hpost]
  rw [hseg, List.append_assoc, walk_skip_special_root fs b pre _ hpre] at h
  exact walk_drop_empties fs post hpost b mid [] q h

theorem DirGrow_refl (fs : FS) : DirGrow fs fs :=
  fun _ => ⟨fun _ h => h, fun h => Or.inl h⟩

theorem DirGrow_trans {a b c : FS} (h1 : DirGrow a b) (h2 : DirGrow b c) : DirGrow a c := by
  intro p
  refine ⟨fun n hn => (h2 p).1 n ((h1 p).1 n hn), fun hn => ?_⟩
  rcases (h1 p).2 hn with h | h
  · exact (h2 p).2 h
  · exact Or.inr ((h2 p).1 _ h)

theorem DirGrow_grow {a b : FS} (h : DirGrow a b) : Grow a b := fun p n hn => (h p).1 n hn

theorem DirGrow_store {fs : FS} {p : List Name} (hp : p ≠ []) (hnone : look fs p = none) :
    DirGrow fs (store fs p Node.dir) := by
  intro q
  by_cases hq : q = p
  · subst hq
    refine ⟨fun n hn => ?_, fun _ => Or.inr (look_store_same _ _ _ hp)⟩
    rw [hnone] at hn
    cases hn
  · rw [look_store_other _ _ _ _ hq]
    exact ⟨fun _ h => h, fun h => Or.inl h⟩

theorem WellFormed_store {fs : FS} {d : List Name} {c : Name} {n : Node}
    (hwf : WellFormed fs) (hd : isDir fs d = true) (hnone : look fs (d ++ [c]) = none) :
    WellFormed (store fs (d ++ [c]) n) := by
  intro p x hx
  have hg : Grow fs (store fs (d ++ [c]) n) := Grow_store_new n (by simp) hnone
  by_cases hpx : p ++ [x] = d ++ [c]
  · have := List.append_inj_left' hpx (by simp)
    rw [this]
    exact isDir_mono (Grow_ext hg) hd
  · rw [look_store_other _ _ _ _ hpx] at hx
    exact isDir_mono (Grow_ext hg) (hwf p x hx)

theorem mkdirRev_dirgrow : ∀ (rev : List Name) (fs fs' : FS),
    mkdirRev fs rev = some fs' → DirGrow fs fs' := by
  intro rev
  induction rev with
  | nil => intro fs fs' h; simp [mkdirRev] at h; subst h; exact DirGrow_refl _
  | cons last parentRev ih =>
    intro fs fs' h
    rw [mkdirRev] at h
    cases hw : walk fs maxLinks [] (last :: parentRev).reverse with
    | some q =>
      rw [hw] at h
      simp only at h
      by_cases hd : isDir fs q = true
      · simp [hd] at h; subst h; exact DirGrow_refl _
      · simp [hd] at h
    | none =>
      rw [hw] at h
      simp only at h
      cases hm : mkdirRev fs parentRev with
      | none => rw [hm] at h; simp at h
      | some fs1 =>
        rw [hm] at h
        simp only at h
        cases hw1 : walk fs1 maxLinks [] parentRev.reverse with
        | none => rw [hw1] at h; simp at h
        | some d =>
          rw [hw1] at h
          simp only at h
          by_cases hc : isDir fs1 d = true ∧ look fs1 (d ++ [last]) = none
          · simp only [hc, and_self, if_true] at h
            cases h
            exact DirGrow_trans (ih _ _ hm) (DirGrow_store (by simp) hc.2)
          · simp [hc] at h

theorem mkdirRev_wf : ∀ (rev : List Name) (fs fs' : FS), WellFormed fs →
    mkdirRev fs rev = some fs' → WellFormed fs' := by
  intro rev
  induction rev with
  | nil => intro fs fs' hwf h; simp [mkdirRev] at h; subst h; exact hwf
  | cons last parentRev ih =>
    intro fs fs' hwf h
    rw [mkdirRev] at h
    cases hw : walk fs maxLinks [] (last :: parentRev).reverse with
    | some q =>
      rw [hw] at h
      simp only at h
      by_cases hd : isDir fs q = true
      · simp [hd] at h; subst h; exact hwf
      · simp [hd] at h
    | none =>
      rw [hw] at h
      simp only at h
      cases hm : mkdirRev fs parentRev with
      | none => rw [hm] at h; simp at h
      | some fs1 =>
        rw [hm] at h
        simp only at h
        cases hw1 : walk fs1 maxLinks [] parentRev.reverse with
        | none => rw [hw1] at h; simp at h
        | some d =>
          rw [hw1] at h
          simp only at h
          by_cases hc : isDir fs1 d = true ∧ look fs1 (d ++ [last]) = none
          · simp only [hc, and_self, if_true] at h
            cases h
            exact WellFormed_store (ih _ _ hwf hm) hc.1 hc.2
          · simp [hc] at h

theorem render_snoc (d : List Name) (c : Name) (hd : d ≠ []) :
    render (d ++ [c]) = render d ++ '/' :: c := by
  induction d with
  | nil => exact absurd rfl hd
  | cons a d ih =>
    cases d with
    | nil => simp [render]
    | cons b d =>
      have := ih (by simp)
      simp only [List.cons_append] at this ⊢
      rw [render, this]
      simp [render]

theorem startsWith_render_snoc {d : List Name} {c : Name} {out : Str}
    (h : startsWith (render d) out = true) : startsWith (render (d ++ [c])) out = true := by
  unfold startsWith at h ⊢
  rw [List.isPrefixOf_iff_prefix] at h ⊢
  by_cases hd : d = []
  · subst hd
    simp only [render, List.nil_append] at h ⊢
    obtain ⟨t, ht⟩ := h
    cases out with
    | nil => exact List.nil_prefix
    | cons x out =>
      simp only [List.cons_append, List.cons.injEq] at ht
      obtain ⟨hx, ht⟩ := ht
      have : out = [] := (List.append_eq_nil.mp ht).1
      subst this hx
      exact ⟨c, rfl⟩
  · rw [render_snoc d c hd]
    exact h.trans (List.prefix_append _ _)

theorem resolveParent_isDir {fs : FS} {p : Str} {d : List Name} {l : Name}
    (h : resolveParent fs p = some (d, l)) : isDir fs d = true := by
  unfold resolveParent at h
  simp only at h
  cases hl : (splitSlash p).getLast? with
  | none => simp [hl] at h
  | some last =>
    rw [hl] at h
    simp only at h
    by_cases hs : last = [] ∨ last = ['.'] ∨ last = ['.', '.']
    · simp [hs] at h
    · simp only [hs, if_false] at h
      cases hw : walk fs maxLinks [] (splitSlash p).dropLast with
      | none => simp [hw] at h
      | some d' =>
        rw [hw] at h
        simp only at h
        by_cases hd : isDir fs d' = true
        · simp only [hd, if_true, Option.some.injEq, Prod.mk.injEq] at h
          rw [← h.1]; exact hd
        · simp [hd] at h

theorem WellFormed_store_file {fs : FS} {p : List Name} {d d' : List Nat} {m m' : Nat}
    (hwf : WellFormed fs) (hfile : look fs p = some (Node.file d m)) :
    WellFormed (store fs p (Node.file d' m')) := by
  intro q x hx
  have hq : isDir fs q = true := by
    by_cases hqx : q ++ [x] = p
    · exact hwf q x (by rw [hqx, hfile]; simp)
    · rw [look_store_other _ _ _ _ hqx] at hx
      exact hwf q x hx
  have hne : q ≠ p := by
    intro e
    subst e
    rw [isDir_iff, hfile] at hq
    cases hq
  rw [isDir_iff] at hq ⊢
  rw [look_store_other _ _ _ _ hne]
  exact hq

theorem makeDir_wf {fs fs' : FS} {p out : Str} (hwf : WellFormed fs)
    (h : makeDir fs p = some (out, fs')) : WellFormed fs' :=
  mkdirRev_wf _ _ _ hwf (makeDir_inv h).2

theorem entries_of_values (P : Entry → Prop) :
    ∀ (vs : List Value), (∀ v ∈ vs, ∃ e, v = Value.entry e ∧ P e) →
      ∃ es : List Entry, vs = es.map Value.entry ∧ ∀ e ∈ es, P e := by
  intro vs
  induction vs with
  | nil => intro _; exact ⟨[], rfl, by simp⟩
  | cons v vs ih =>
    intro h
    obtain ⟨e, rfl, hp⟩ := h v (by simp)
    obtain ⟨es, rfl, hes⟩ := ih (fun v' hv' => h v' (by simp [hv']))
    refine ⟨e :: es, rfl, ?_⟩
    intro e' he'
    simp only [List.mem_cons] at he'
    rcases he' with rfl | he'
    · exact hp
    · exact hes e' he'

theorem tmpFS_wellFormed : WellFormed tmpFS := by
  intro p c h
  have hp : p = [] := by
    by_contra hne
    have : look tmpFS (p ++ [c]) = none := by
      cases p with
      | nil => exact absurd rfl hne
      | cons a p => cases p <;> simp [look, tmpFS]
    exact h this
  subst hp
  simp [isDir, look]

theorem joinSlash_splitSlash (s : Str) : joinSlash (splitSlash s) = s := by
  induction s with
  | nil => rfl
  | cons c cs ih =>
    by_cases hc : c = '/'
    · subst hc
      rw [splitSlash_cons_slash]
      cases hs : splitSlash cs with
      | nil => exact absurd hs (splitSlash_ne_nil cs)
      | cons a l =>
        rw [hs] at ih
        simp [joinSlash, ih]
    · rw [splitSlash_cons_other hc]
      cases hs : splitSlash cs with
      | nil => exact absurd hs (splitSlash_ne_nil cs)
      | cons a l =>
        rw [hs] at ih
        cases l with
        | nil => simp only [joinSlash] at ih; simp [joinSlash, ih]
        | cons b l =>
          simp only [joinSlash] at ih
          simp [joinSlash, ih]

theorem joinSlash_append_length (xs ys : List Str) (hx : xs ≠ []) (hy : ys ≠ []) :
    (joinSlash xs).length < (joinSlash (xs ++ ys)).length := by
  induction xs with
  | nil => exact absurd rfl hx
  | cons a xs ih =>
    cases xs with
    | nil =>
      cases ys with
      | nil => exact absurd rfl hy
      | cons b ys => simp [joinSlash]
    | cons b xs =>
      have := ih (by simp)
      have e1 : joinSlash (a :: b :: xs) = a ++ '/' :: joinSlash (b :: xs) := rfl
      have e2 : joinSlash (a :: b :: xs ++ ys) = a ++ '/' :: joinSlash (b :: xs ++ ys) := rfl
      rw [e1, e2]
      simp only [List.length_append, List.length_cons]
      omega

/-! ### Plugins and the strip stage (claims C7, C8) -/

/-- C7: with three or more plugins, each of which resolves, `runPlugins` is
rejected with the `TypeError` of calling `concat` on a promise; it does not
resolve with the concatenation. -/
theorem C7_three_plugins_rejected (input : Buffer) (r1 r2 r3 : List Entry)
    (more : List (List Entry)) (strip : Nat) (filter : Option (Value → Bool))
    (map : Option (Value → Value)) :
    runPlugins input
        { plugins := (r1 :: r2 :: r3 :: more).map (fun r _ => Except.ok r),
          strip := strip, filter := filter, map := map }
      = Except.error (Err.typeError TypeErrorKind.concatNotFunction) := by
  unfold runPlugins
  have h := promiseAll_map_ok (r1 :: r2 :: r3 :: more)
  simp only [List.map_map, List.length_map, List.length_cons] at h ⊢
  have h' : promiseAll (List.map ((fun x => x input) ∘ fun r _ => (Except.ok r : Except Err (List Entry)))
      (r1 :: r2 :: r3 :: more)) = Except.ok (r1 :: r2 :: r3 :: more) := by
    simpa [Function.comp] using h
  rw [h']
  simp only [Nat.add_one_ne_zero, if_false, reduceAwait, List.foldl_cons, concatReducer]
  obtain ⟨s', h1, h2⟩ := foldl_concatReducer_promise more
    (Except.error (Err.typeError TypeErrorKind.concatNotFunction))
  rw [h1]
  cases more with
  | nil => simp at h1; simp [← h1]
  | cons c more => simp [h2 (by simp)]

/-- C8: with `strip > 0` the transform stage drops nothing and returns no entry
record: every element of the input gives one promise. -/
theorem C8_strip_returns_promises (env : Env) (n : Nat) (plugins : List Plugin)
    (files : List Entry) :
    transform env { plugins := plugins, strip := n + 1 } files
      = files.map (fun x =>
          match env.stripDirs x.path (n + 1) with
          | Except.ok p => Value.promise (some { x with path := p })
          | Except.error _ => Value.promise none) := by
  simp only [transform, stripStage, Nat.succ_pos, if_true]
  rw [List.filter_eq_self]
  intro v hv
  simp only [List.mem_map] at hv
  obtain ⟨x, _, rfl⟩ := hv
  cases env.stripDirs x.path (n + 1) <;> simp [Value.path?]

/-! ### Processes run alone; claims C1 (counterexample), C2, C4, C5, C6 -/

theorem Proc.run_done {α : Type} (r : Except Err α) (fs : FS) : (Proc.done r).run fs = (r, fs) := rfl

theorem Proc.run_call {α : Type} (c : Call) (k : Except Err Str → Proc α) (fs : FS) :
    (Proc.call c k).run fs = (k (c.perform fs).1).run (c.perform fs).2 := rfl

theorem Proc.run_pure {α : Type} (a : α) (fs : FS) : (pure a : Proc α).run fs = (Except.ok a, fs) := rfl

theorem Proc.run_throw {α : Type} (e : Err) (fs : FS) :
    (Proc.throw e : Proc α).run fs = (Except.error e, fs) := rfl

theorem Proc.run_await (c : Call) (fs : FS) : (Proc.await c).run fs = c.perform fs := rfl

theorem Proc.bind_done_ok {α β : Type} (a : α) (f : α → Proc β) :
    (Proc.done (Except.ok a) >>= f) = f a := rfl

theorem Proc.bind_done_error {α β : Type} (e : Err) (f : α → Proc β) :
    (Proc.done (Except.error e) >>= f) = Proc.done (Except.error e) := rfl

theorem Proc.bind_call {α β : Type} (c : Call) (k : Except Err Str → Proc α) (f : α → Proc β) :
    (Proc.call c k >>= f) = Proc.call c (fun r => k r >>= f) := rfl

theorem Proc.pure_bind {α β : Type} (a : α) (f : α → Proc β) : ((pure a : Proc α) >>= f) = f a := rfl

theorem Proc.throw_bind {α β : Type} (e : Err) (f : α → Proc β) :
    ((Proc.throw e : Proc α) >>= f) = Proc.throw e := rfl

/-- Running a sequence is running its parts one after the other. -/
theorem Proc.run_bind {α β : Type} (p : Proc α) (f : α → Proc β) :
    ∀ fs, (p >>= f).run fs =
      match p.run fs with
      | (Except.ok a, fs1) => (f a).run fs1
      | (Except.error e, fs1) => (Except.error e, fs1) := by
  induction p with
  | done r =>
    intro fs
    cases r with
    | ok a => rfl
    | error e => rfl
  | call c k ih =>
    intro fs
    rw [Proc.bind_call, Proc.run_call, Proc.run_call]
    exact ih _ _

theorem Proc.run_bind_ok {α β : Type} {p : Proc α} {f : α → Proc β} {fs fs1 : FS} {a : α}
    (h : p.run fs = (Except.ok a, fs1)) : (p >>= f).run fs = (f a).run fs1 := by
  rw [Proc.run_bind, h]

theorem Proc.run_bind_error {α β : Type} {p : Proc α} {f : α → Proc β} {fs fs1 : FS} {e : Err}
    (h : p.run fs = (Except.error e, fs1)) : (p >>= f).run fs = (Except.error e, fs1) := by
  rw [Proc.run_bind, h]

theorem Proc.recover_call {α : Type} (c : Call) (k : Except Err Str → Proc α) (h : Err → Proc α) :
    (Proc.call c k).recover h = Proc.call c (fun r => (k r).recover h) := rfl

/-- Running a computation with a `.catch` handler. -/
theorem Proc.run_recover {α : Type} (p : Proc α) (h : Err → Proc α) :
    ∀ fs, (p.recover h).run fs =
      match p.run fs with
      | (Except.ok a, fs1) => (Except.ok a, fs1)
      | (Except.error e, fs1) =>
        if e = Err.unsettled then (Except.error e, fs1) else (h e).run fs1 := by
  induction p with
  | done r =>
    intro fs
    cases r with
    | ok a => rfl
    | error e =>
      by_cases he : e = Err.unsettled
      · simp [Proc.recover, Proc.run, he]
      · simp [Proc.recover, Proc.run, he]
  | call c k ih =>
    intro fs
    rw [Proc.recover_call, Proc.run_call, Proc.run_call]
    exact ih _ _

theorem earlier_none (b : Option Err) : earlier none b = b := rfl

theorem earlier_some (e : Err) (b : Option Err) : earlier (some e) b = some e := rfl

theorem earlier_self (a : Option Err) : earlier a a = a := by
  cases a <;> rfl

theorem runSchedule_single {α : Type} :
    ∀ (sched : List Nat) (p : Proc α) (fs : FS),
      ∃ p' fs', runSchedule sched [p] fs p.rejection = ([p'], fs', p'.rejection) ∧
        p'.run fs' = p.run fs := by
  intro sched
  induction sched with
  | nil => intro p fs; exact ⟨p, fs, rfl, rfl⟩
  | cons i sched ih =>
    intro p fs
    cases i with
    | zero =>
      cases p with
      | done r =>
        obtain ⟨p', fs', h1, h2⟩ := ih (Proc.done r) fs
        refine ⟨p', fs', ?_, h2⟩
        simp only [runSchedule, stepAt]
        have : earlier (Proc.done r).rejection none = (Proc.done r).rejection := by
          cases (Proc.done r).rejection <;> rfl
        rw [this]
        exact h1
      | call c k =>
        obtain ⟨p', fs', h1, h2⟩ := ih (k (c.perform fs).1) (c.perform fs).2
        refine ⟨p', fs', ?_, by rw [h2]; rfl⟩
        simp only [runSchedule, stepAt]
        exact h1
    | succ j =>
      obtain ⟨p', fs', h1, h2⟩ := ih p fs
      refine ⟨p', fs', ?_, h2⟩
      simp only [runSchedule, stepAt]
      have : earlier p.rejection none = p.rejection := by
        cases p.rejection <;> rfl
      rw [this]
      exact h1

theorem rejection_run {α : Type} (p : Proc α) (fs : FS) :
    earlier p.rejection (rejectionOf (p.run fs).1) = rejectionOf (p.run fs).1 := by
  cases p with
  | done r =>
    cases r with
    | ok a => rfl
    | error e => rfl
  | call c k => rfl

/-- With a single process the schedule does not matter: `Promise.all` settles
as the process does when it runs alone. -/
theorem awaitAll_single {α : Type} (sched : List Nat) (p : Proc α) (fs : FS) :
    awaitAll sched [p] fs
      = (match (p.run fs).1 with
          | Except.ok a => Except.ok [a]
          | Except.error e => Except.error e,
         (p.run fs).2) := by
  obtain ⟨p', fs', h1, h2⟩ := runSchedule_single sched p fs
  have hf : firstRejection [p] = p.rejection := by
    simp only [firstRejection]
    cases p.rejection <;> rfl
  have key := rejection_run p' fs'
  rw [h2] at key
  simp only [awaitAll, hf, h1, finishAll, h2, key]
  cases hr : (p.run fs).1 with
  | ok a => simp [rejectionOf, promiseAll]
  | error e => simp [rejectionOf]

/-- C5: any input that is neither a string nor a Buffer is rejected with
`TypeError('Input file required')`, and the world is left as it was: no file
has been read, no plugin called, nothing written. -/
theorem C5_invalid_input_rejected (env : Env) (sched : List Nat) (output : OutputArg)
    (opts : Option UserOptions) (w : World) :
    decompress env sched Input.other output opts w = (Except.error Err.inputRequired, w) := by
  rfl

/-- C6: with a Buffer as input the default export is rejected with the
`TypeError` of calling `.then` on the awaited Buffer, whatever the output and
the options; it does not resolve with the transformed entry list. -/
theorem C6_buffer_input_rejected (env : Env) (sched : List Nat) (b : Buffer) (output : OutputArg)
    (opts : Option UserOptions) (w : World) :
    decompress env sched (Input.buffer b) output opts w
      = (Except.error (Err.typeError TypeErrorKind.thenNotFunction), w) := by
  cases output <;> rfl

/-- C2: with output root `/tmp/out` and an existing sibling directory
`/tmp/out-evil`, the file entry `../out-evil/x` is materialized successfully
and written to `/tmp/out-evil/x`: the parent written to has real path
`/tmp/out-evil`, which is not `/tmp/out` or below it by whole components. -/
theorem C2_sibling_directory_written :
    ((materialize posixEnv "/tmp/out".toList
        (Value.entry (fileEntry "../out-evil/x".toList [1] 420))).run siblingFS).1
      = Except.ok (Value.entry (fileEntry "../out-evil/x".toList [1] 420))
    ∧ ((materialize posixEnv "/tmp/out".toList
        (Value.entry (fileEntry "../out-evil/x".toList [1] 420))).run siblingFS).2
        ["tmp".toList, "out-evil".toList, "x".toList] = some (Node.file [1] 420)
    ∧ siblingFS ["tmp".toList, "out-evil".toList, "x".toList] = none
    ∧ realpath siblingFS (dirname (join "/tmp/out".toList "../out-evil/x".toList))
        = Except.ok "/tmp/out-evil".toList
    ∧ resolve siblingFS (dirname (join "/tmp/out".toList "../out-evil/x".toList))
        = some ["tmp".toList, "out-evil".toList]
    ∧ ¬ (["tmp".toList, "out".toList] <+: ["tmp".toList, "out-evil".toList]) := by
  decide

/-- C4: where the destination `/out/f` is a symbolic link whose target is the
empty string, `readlink` gives the empty string and the guard resolves with
`realOutputPath` rather than refusing. -/
theorem C4_empty_target_passes :
    readlink emptyLinkFS "/out/f".toList = some []
    ∧ (preventWritingThroughSymlink "/out/f".toList "/out".toList).run emptyLinkFS
        = (Except.ok "/out".toList, emptyLinkFS) := by
  exact ⟨by decide, rfl⟩

/-- C1 (counterexample): into the output root `/out`, a file entry with the
absolute path `/etc/passwd` and a file entry with the path `a/../b` are both
materialized without error, at `/out/etc/passwd` and `/out/b`. -/
theorem C1_absolute_and_dotdot_accepted :
    ((materialize posixEnv "/out".toList
        (Value.entry (fileEntry "/etc/passwd".toList [1] 420))).run tmpFS).1
      = Except.ok (Value.entry (fileEntry "/etc/passwd".toList [1] 420))
    ∧ ((materialize posixEnv "/out".toList
        (Value.entry (fileEntry "/etc/passwd".toList [1] 420))).run tmpFS).2
        ["out".toList, "etc".toList, "passwd".toList] = some (Node.file [1] 420)
    ∧ ((materialize posixEnv "/out".toList
        (Value.entry (fileEntry "a/../b".toList [1] 420))).run tmpFS).1
      = Except.ok (Value.entry (fileEntry "a/../b".toList [1] 420))
    ∧ ((materialize posixEnv "/out".toList
        (Value.entry (fileEntry "a/../b".toList [1] 420))).run tmpFS).2
        ["out".toList, "b".toList] = some (Node.file [1] 420) := by
  decide

/-! ### Invariants under interference -/

section Framework

variable {α β X : Type} {I : FS → Prop} {R : FS → FS → Prop}

theorem Holds_done {Q : Except Err α → FS → Prop} {r : Except Err α} {fs : FS} :
    Holds I R Q (Proc.done r) fs ↔ Q r fs := Iff.rfl

theorem Holds_call {Q : Except Err α → FS → Prop} {c : Call} {k : Except Err Str → Proc α}
    {fs : FS} :
    Holds I R Q (Proc.call c k) fs ↔
      ∀ fs', R fs fs' → I fs' →
        I (c.perform fs').2 ∧ R fs' (c.perform fs').2 ∧
          Holds I R Q (k (c.perform fs').1) (c.perform fs').2 := Iff.rfl

theorem Holds_weaken {Q Q' : Except Err α → FS → Prop} (hq : ∀ r fs, Q r fs → Q' r fs)
    (p : Proc α) : ∀ fs, Holds I R Q p fs → Holds I R Q' p fs := by
  induction p with
  | done r => intro fs h; exact hq _ _ h
  | call c k ih =>
    intro fs h fs' hR hI
    obtain ⟨h1, h2, h3⟩ := h fs' hR hI
    exact ⟨h1, h2, ih _ _ h3⟩

/-- Interference before the next call is covered: the assertion moves along
`R`. -/
theorem Holds_move {Q : Except Err α → FS → Prop}
    (htrans : ∀ a b c, R a b → R b c → R a c)
    (hstable : ∀ r a b, Q r a → R a b → Q r b)
    (p : Proc α) {fs fs1 : FS} (h : Holds I R Q p fs) (hR : R fs fs1) : Holds I R Q p fs1 := by
  cases p with
  | done r => exact hstable _ _ _ h hR
  | call c k =>
    intro fs' hR' hI
    exact h fs' (htrans _ _ _ hR hR') hI

theorem Holds_bind {M : Except Err α → FS → Prop} {Q : Except Err β → FS → Prop}
    (p : Proc α) (f : α → Proc β) :
    ∀ fs, Holds I R M p fs →
      (∀ a fs', M (Except.ok a) fs' → Holds I R Q (f a) fs') →
      (∀ e fs', M (Except.error e) fs' → Q (Except.error e) fs') →
      Holds I R Q (p >>= f) fs := by
  induction p with
  | done r =>
    intro fs h h2 h3
    cases r with
    | ok a => exact h2 a fs h
    | error e => exact h3 e fs h
  | call c k ih =>
    intro fs h h2 h3 fs' hR hI
    obtain ⟨g1, g2, g3⟩ := h fs' hR hI
    exact ⟨g1, g2, ih _ _ g3 h2 h3⟩

theorem Holds_recover {M Q : Except Err α → FS → Prop}
    (p : Proc α) (h : Err → Proc α) :
    ∀ fs, Holds I R M p fs →
      (∀ a fs', M (Except.ok a) fs' → Q (Except.ok a) fs') →
      (∀ e fs', M (Except.error e) fs' →
        (e = Err.unsettled → Q (Except.error e) fs') ∧
        (e ≠ Err.unsettled → Holds I R Q (h e) fs')) →
      Holds I R Q (p.recover h) fs := by
  induction p with
  | done r =>
    intro fs hp h2 h3
    cases r with
    | ok a => exact h2 a fs hp
    | error e =>
      by_cases he : e = Err.unsettled
      · simp only [Proc.recover, he, if_true]
        exact (h3 e fs hp).1 he |> fun x => by simpa [he] using x
      · simp only [Proc.recover, he, if_false]
        exact (h3 e fs hp).2 he
  | call c k ih =>
    intro fs hp h2 h3 fs' hR hI
    obtain ⟨g1, g2, g3⟩ := hp fs' hR hI
    exact ⟨g1, g2, ih _ _ g3 h2 h3⟩

theorem Holds_await {Q : Except Err Str → FS → Prop} {c : Call} {fs : FS}
    (h : ∀ fs', R fs fs' → I fs' →
      I (c.perform fs').2 ∧ R fs' (c.perform fs').2 ∧ Q (c.perform fs').1 (c.perform fs').2) :
    Holds I R Q (Proc.await c) fs := h

/-- A process that keeps the invariant, run alone. -/
theorem Holds_run {Q : Except Err α → FS → Prop}
    (hrefl : ∀ a, R a a) (htrans : ∀ a b c, R a b → R b c → R a c) (p : Proc α) :
    ∀ fs, I fs → Holds I R Q p fs →
      I (p.run fs).2 ∧ R fs (p.run fs).2 ∧ Q (p.run fs).1 (p.run fs).2 := by
  induction p with
  | done r => intro fs hI h; exact ⟨hI, hrefl _, h⟩
  | call c k ih =>
    intro fs hI h
    obtain ⟨g1, g2, g3⟩ := h fs (hrefl _) hI
    obtain ⟨k1, k2, k3⟩ := ih _ _ g1 g3
    exact ⟨k1, htrans _ _ _ g2 k2, k3⟩

/-- One step of one process of a pool whose processes all keep the
invariant. -/
theorem stepAt_holds {Q : X → Except Err α → FS → Prop}
    (hrefl : ∀ a, R a a) (htrans : ∀ a b c, R a b → R b c → R a c)
    (hstable : ∀ x r a b, Q x r a → R a b → Q x r b) :
    ∀ (i : Nat) (xs : List X) (ps : List (Proc α)) (fs : FS), I fs →
      List.Forall₂ (fun x p => Holds I R (Q x) p fs) xs ps →
      I (stepAt i ps fs).2.1 ∧ R fs (stepAt i ps fs).2.1 ∧
      List.Forall₂ (fun x p => Holds I R (Q x) p (stepAt i ps fs).2.1) xs (stepAt i ps fs).1 ∧
      (∀ e, (stepAt i ps fs).2.2 = some e →
        ∃ x ∈ xs, Q x (Except.error e) (stepAt i ps fs).2.1) := by
  intro i
  induction i with
  | zero =>
    intro xs ps fs hI hall
    cases hall with
    | nil => exact ⟨hI, hrefl _, List.Forall₂.nil, fun e he => by simp [stepAt] at he⟩
    | @cons x p xs' ps' hp hrest =>
      cases p with
      | done r =>
        exact ⟨hI, hrefl _, List.Forall₂.cons hp hrest, fun e he => by simp [stepAt] at he⟩
      | call c k =>
        obtain ⟨g1, g2, g3⟩ := hp fs (hrefl _) hI
        refine ⟨g1, g2, List.Forall₂.cons g3 ?_, ?_⟩
        · exact hrest.imp (fun {a b} h => Holds_move htrans (hstable a) b h g2)
        · intro e he
          simp only [stepAt] at he
          refine ⟨x, List.mem_cons_self _ _, ?_⟩
          cases hk : k (c.perform fs).1 with
          | done r =>
            rw [hk] at g3 he
            cases r with
            | ok a => simp [Proc.rejection] at he
            | error e' =>
              simp only [Proc.rejection, Option.some.injEq] at he
              subst he
              exact g3
          | call c' k' =>
            rw [hk] at he
            simp [Proc.rejection] at he
  | succ j ih =>
    intro xs ps fs hI hall
    cases hall with
    | nil => exact ⟨hI, hrefl _, List.Forall₂.nil, fun e he => by simp [stepAt] at he⟩
    | @cons x p xs' ps' hp hrest =>
      obtain ⟨g1, g2, g3, g4⟩ := ih xs' ps' fs hI hrest
      refine ⟨g1, g2, List.Forall₂.cons (Holds_move htrans (hstable x) p hp g2) g3, ?_⟩
      intro e he
      obtain ⟨y, hy, hq⟩ := g4 e he
      exact ⟨y, List.mem_cons_of_mem _ hy, hq⟩

end Framework

/-! ### Invariants of `Promise.all` under every schedule -/

section Pool

variable {α X : Type} {I : FS → Prop} {R : FS → FS → Prop}

theorem runSchedule_holds {Q : X → Except Err α → FS → Prop}
    (hrefl : ∀ a, R a a) (htrans : ∀ a b c, R a b → R b c → R a c)
    (hstable : ∀ x r a b, Q x r a → R a b → Q x r b) (xs : List X) :
    ∀ (sched : List Nat) (ps : List (Proc α)) (fs : FS) (first : Option Err), I fs →
      List.Forall₂ (fun x p => Holds I R (Q x) p fs) xs ps →
      (∀ e, first = some e → ∃ x ∈ xs, Q x (Except.error e) fs) →
      I (runSchedule sched ps fs first).2.1 ∧ R fs (runSchedule sched ps fs first).2.1 ∧
      List.Forall₂ (fun x p => Holds I R (Q x) p (runSchedule sched ps fs first).2.1) xs
        (runSchedule sched ps fs first).1 ∧
      (∀ e, (runSchedule sched ps fs first).2.2 = some e →
        ∃ x ∈ xs, Q x (Except.error e) (runSchedule sched ps fs first).2.1) := by
  intro sched
  induction sched with
  | nil => intro ps fs first hI hall hF; exact ⟨hI, hrefl _, hall, hF⟩
  | cons i sched ih =>
    intro ps fs first hI hall hF
    obtain ⟨g1, g2, g3, g4⟩ := stepAt_holds hrefl htrans hstable i xs ps fs hI hall
    have hF' : ∀ e, earlier first (stepAt i ps fs).2.2 = some e →
        ∃ x ∈ xs, Q x (Except.error e) (stepAt i ps fs).2.1 := by
      intro e he
      cases first with
      | none => exact g4 e he
      | some e0 =>
        simp only [earlier, Option.some.injEq] at he
        subst he
        obtain ⟨x, hx, hq⟩ := hF e0 rfl
        exact ⟨x, hx, hstable _ _ _ _ hq g2⟩
    obtain ⟨k1, k2, k3, k4⟩ := ih _ _ _ g1 g3 hF'
    exact ⟨k1, htrans _ _ _ g2 k2, k3, k4⟩

theorem finishAll_first_none :
    ∀ (ps : List (Proc α)) (fs : FS) (first : Option Err),
      (finishAll ps fs first).2.2 = none → first = none := by
  intro ps
  induction ps with
  | nil => intro fs first h; exact h
  | cons p ps ih =>
    intro fs first h
    have := ih _ _ h
    cases first with
    | none => rfl
    | some e => simp [earlier] at this

theorem finishAll_holds {Q : X → Except Err α → FS → Prop}
    (hrefl : ∀ a, R a a) (htrans : ∀ a b c, R a b → R b c → R a c)
    (hstable : ∀ x r a b, Q x r a → R a b → Q x r b) (L : List X) :
    ∀ (xs : List X) (ps : List (Proc α)) (fs : FS) (first : Option Err), (∀ x ∈ xs, x ∈ L) →
      I fs → List.Forall₂ (fun x p => Holds I R (Q x) p fs) xs ps →
      (∀ e, first = some e → ∃ x ∈ L, Q x (Except.error e) fs) →
      I (finishAll ps fs first).2.1 ∧ R fs (finishAll ps fs first).2.1 ∧
      List.Forall₂ (fun x r => Q x r (finishAll ps fs first).2.1) xs (finishAll ps fs first).1 ∧
      (∀ e, (finishAll ps fs first).2.2 = some e →
        ∃ x ∈ L, Q x (Except.error e) (finishAll ps fs first).2.1) ∧
      ((finishAll ps fs first).2.2 = none →
        ∀ r ∈ (finishAll ps fs first).1, rejectionOf r = none) := by
  intro xs
  induction xs with
  | nil =>
    intro ps fs first _ hI hall hF
    cases hall
    exact ⟨hI, hrefl _, List.Forall₂.nil, hF, fun _ r hr => by simp [finishAll] at hr⟩
  | cons x xs ih =>
    intro ps fs first hL hI hall hF
    cases hall with
    | @cons _ p _ ps' hp hrest =>
      obtain ⟨g1, g2, g3⟩ := Holds_run hrefl htrans p fs hI hp
      have hrest' : List.Forall₂ (fun y q => Holds I R (Q y) q (p.run fs).2) xs ps' :=
        hrest.imp (fun {a b} h => Holds_move htrans (hstable a) b h g2)
      have hF' : ∀ e, earlier first (rejectionOf (p.run fs).1) = some e →
          ∃ y ∈ L, Q y (Except.error e) (p.run fs).2 := by
        intro e he
        cases first with
        | some e0 =>
          simp only [earlier, Option.some.injEq] at he
          subst he
          obtain ⟨y, hy, hq⟩ := hF e0 rfl
          exact ⟨y, hy, hstable _ _ _ _ hq g2⟩
        | none =>
          simp only [earlier] at he
          cases hr : (p.run fs).1 with
          | ok a => rw [hr] at he; simp [rejectionOf] at he
          | error e' =>
            rw [hr] at he g3
            simp only [rejectionOf, Option.some.injEq] at he
            subst he
            exact ⟨x, hL x (List.mem_cons_self _ _), g3⟩
      obtain ⟨k1, k2, k3, k4, k5⟩ :=
        ih ps' (p.run fs).2 (earlier first (rejectionOf (p.run fs).1))
          (fun y hy => hL y (List.mem_cons_of_mem _ hy)) g1 hrest' hF'
      refine ⟨k1, htrans _ _ _ g2 k2, List.Forall₂.cons (hstable _ _ _ _ g3 k2) k3, k4, ?_⟩
      intro hnone r hr
      have hnone' : (finishAll ps' (p.run fs).2
          (earlier first (rejectionOf (p.run fs).1))).2.2 = none := hnone
      have hfirst := finishAll_first_none _ _ _ hnone'
      simp only [finishAll, List.mem_cons] at hr
      rcases hr with rfl | hr
      · cases first with
        | none => simpa [earlier] using hfirst
        | some e0 => simp [earlier] at hfirst
      · exact k5 hnone r hr

theorem promiseAll_of_no_rejection :
    ∀ (rs : List (Except Err α)), (∀ r ∈ rs, rejectionOf r = none) →
      ∃ vs, rs = vs.map Except.ok ∧ promiseAll rs = Except.ok vs := by
  intro rs
  induction rs with
  | nil => intro _; exact ⟨[], rfl, rfl⟩
  | cons r rs ih =>
    intro h
    obtain ⟨vs, h1, h2⟩ := ih (fun r' hr' => h r' (List.mem_cons_of_mem _ hr'))
    cases r with
    | error e => have := h (Except.error e) (List.mem_cons_self _ _); simp [rejectionOf] at this
    | ok a => exact ⟨a :: vs, by simp [h1], by simp [promiseAll, h2]⟩

theorem firstRejection_holds {Q : X → Except Err α → FS → Prop} (fs : FS) :
    ∀ (xs : List X) (ps : List (Proc α)),
      List.Forall₂ (fun x p => Holds I R (Q x) p fs) xs ps →
      ∀ e, firstRejection ps = some e → ∃ x ∈ xs, Q x (Except.error e) fs := by
  intro xs ps hall
  induction hall with
  | nil => intro e he; simp [firstRejection] at he
  | @cons x p xs ps hp _ ih =>
    intro e he
    simp only [firstRejection] at he
    cases hrej : p.rejection with
    | none =>
      rw [hrej] at he
      obtain ⟨y, hy, hq⟩ := ih e he
      exact ⟨y, List.mem_cons_of_mem _ hy, hq⟩
    | some e' =>
      rw [hrej] at he
      simp only [earlier, Option.some.injEq] at he
      subst he
      refine ⟨x, List.mem_cons_self _ _, ?_⟩
      cases p with
      | done r =>
        cases r with
        | ok a => simp [Proc.rejection] at hrej
        | error e0 =>
          simp only [Proc.rejection, Option.some.injEq] at hrej
          subst hrej
          exact hp
      | call c k => simp [Proc.rejection] at hrej

/-- Soundness of the invariant method for `Promise.all` under any
schedule: when every process keeps the invariant `I` under the interference
`R` that the steps of all of them make up, the final state satisfies `I`, the
values resolved with satisfy their assertions there, and a rejection is the
rejection of one of the processes. -/
theorem awaitAll_sound {Q : X → Except Err α → FS → Prop}
    (hrefl : ∀ a, R a a) (htrans : ∀ a b c, R a b → R b c → R a c)
    (hstable : ∀ x r a b, Q x r a → R a b → Q x r b)
    (sched : List Nat) (f : X → Proc α) (xs : List X) (fs : FS) (hI : I fs)
    (h : ∀ x ∈ xs, Holds I R (Q x) (f x) fs) :
    I (awaitAll sched (xs.map f) fs).2 ∧ R fs (awaitAll sched (xs.map f) fs).2 ∧
    (∀ vs, (awaitAll sched (xs.map f) fs).1 = Except.ok vs →
      List.Forall₂ (fun x v => Q x (Except.ok v) (awaitAll sched (xs.map f) fs).2) xs vs) ∧
    (∀ e, (awaitAll sched (xs.map f) fs).1 = Except.error e →
      ∃ x ∈ xs, Q x (Except.error e) (awaitAll sched (xs.map f) fs).2) := by
  have hall : List.Forall₂ (fun x p => Holds I R (Q x) p fs) xs (xs.map f) := by
    clear hI
    induction xs with
    | nil => exact List.Forall₂.nil
    | cons x xs ih =>
      exact List.Forall₂.cons (h x (List.mem_cons_self _ _))
        (ih (fun y hy => h y (List.mem_cons_of_mem _ hy)))
  obtain ⟨g1, g2, g3, g4⟩ := runSchedule_holds hrefl htrans hstable xs sched (xs.map f) fs
    (firstRejection (xs.map f)) hI hall (firstRejection_holds fs xs _ hall)
  obtain ⟨k1, k2, k3, k4, k5⟩ := finishAll_holds hrefl htrans hstable xs xs _ _ _
    (fun _ hx => hx) g1 g3 g4
  refine ⟨k1, htrans _ _ _ g2 k2, ?_, ?_⟩
  · intro vs hvs
    simp only [awaitAll] at hvs
    cases hfirst : (finishAll (runSchedule sched (xs.map f) fs (firstRejection (xs.map f))).1
        (runSchedule sched (xs.map f) fs (firstRejection (xs.map f))).2.1
        (runSchedule sched (xs.map f) fs (firstRejection (xs.map f))).2.2).2.2 with
    | some e => rw [hfirst] at hvs; simp at hvs
    | none =>
      rw [hfirst] at hvs
      simp only at hvs
      obtain ⟨vs', h1, h2⟩ := promiseAll_of_no_rejection _ (k5 hfirst)
      rw [h2] at hvs
      cases hvs
      rw [h1] at k3
      simp only [awaitAll]
      rw [List.forall₂_map_right_iff] at k3
      exact k3
  · intro e he
    simp only [awaitAll] at he
    cases hfirst : (finishAll (runSchedule sched (xs.map f) fs (firstRejection (xs.map f))).1
        (runSchedule sched (xs.map f) fs (firstRejection (xs.map f))).2.1
        (runSchedule sched (xs.map f) fs (firstRejection (xs.map f))).2.2).2.2 with
    | some e' =>
      rw [hfirst] at he
      simp only [Except.error.injEq] at he
      subst he
      exact k4 e' hfirst
    | none =>
      rw [hfirst] at he
      simp only at he
      obtain ⟨vs', h1, h2⟩ := promiseAll_of_no_rejection _ (k5 hfirst)
      rw [h2] at he
      cases he

end Pool

/-! ### Paths without symbolic links -/

theorem NoLinkOn_prefix {fs : FS} {p q : List Name} (h : NoLinkOn fs q) (hp : p <+: q) :
    NoLinkOn fs p := fun r hr t => h r (hr.trans hp) t

theorem DirChain_prefix {fs : FS} {p q : List Name} (h : DirChain fs q) (hp : p <+: q) :
    DirChain fs p := fun r hr => h r (hr.trans hp)

theorem DirChain_mono {fs fs' : FS} (h : Ext fs fs') {q : List Name} (hq : DirChain fs q) :
    DirChain fs' q := fun p hp => isDir_mono h (hq p hp)

theorem DirChain_noLink {fs : FS} {q : List Name} (h : DirChain fs q) : NoLinkOn fs q := by
  intro p hp t ht
  have := (isDir_iff fs p).mp (h p hp)
  rw [this] at ht
  cases ht

theorem isDir_root (fs : FS) : isDir fs [] = true := by simp [isDir, look]

/-- In a well-formed filesystem the paths leading to a node are
directories. -/
theorem WellFormed_prefix {fs : FS} (hwf : WellFormed fs) :
    ∀ (q : List Name), look fs q ≠ none → ∀ p, p <+: q → p ≠ q → isDir fs p = true := by
  intro q
  induction q using List.reverseRecOn with
  | nil =>
    intro _ p hp hne
    exact absurd (List.prefix_nil.mp hp) hne
  | append_singleton q c ih =>
    intro hq p hp hne
    have hparent : isDir fs q = true := hwf q c hq
    have hp' : p <+: q := by
      rcases List.prefix_concat_iff.mp (by simpa [List.concat_eq_append] using hp) with h | h
      · exact absurd (by simpa [List.concat_eq_append] using h) hne
      · exact h
    by_cases hpq : p = q
    · rw [hpq]; exact hparent
    · refine ih ?_ p hp' hpq
      rw [(isDir_iff fs q).mp hparent]
      simp

theorem WellFormed_dirChain {fs : FS} (hwf : WellFormed fs) {q : List Name}
    (hd : isDir fs q = true) : DirChain fs q := by
  intro p hp
  by_cases hpq : p = q
  · rw [hpq]; exact hd
  · refine WellFormed_prefix hwf q ?_ p hp hpq
    rw [(isDir_iff fs q).mp hd]
    simp

/-- Resolution along a path none of whose prefixes is a link gives the path
itself. -/
theorem walk_clear (fs : FS) (b : Nat) :
    ∀ (segs cur r : List Name), (∀ c ∈ segs, Plain c) → isDir fs cur = true →
      (∀ p, p <+: segs → ∀ t, look fs (cur ++ p) ≠ some (Node.symlink t)) →
      walk fs b cur segs = some r →
      r = cur ++ segs ∧ (∀ p, p <+: segs → p ≠ segs → isDir fs (cur ++ p) = true) ∧
        (segs ≠ [] → look fs (cur ++ segs) ≠ none) := by
  intro segs
  induction segs with
  | nil =>
    intro cur r _ _ _ h
    rw [walk_nil] at h
    cases h
    refine ⟨by simp, ?_, fun h => absurd rfl h⟩
    intro p hp hne
    exact absurd (List.prefix_nil.mp hp) hne
  | cons c rest ih =>
    intro cur r hplain hcur hno h
    have hc : Plain c := hplain c (List.mem_cons_self _ _)
    rw [walk_cons] at h
    have h1 : ¬ (c = [] ∨ c = ['.']) := fun hh => hh.elim hc.1 hc.2.1
    simp only [h1, hc.2.2, if_false] at h
    have hlink : ∀ t, look fs (cur ++ [c]) ≠ some (Node.symlink t) :=
      hno [c] (by simp)
    cases hl : look fs (cur ++ [c]) with
    | none => rw [hl] at h; cases h
    | some n =>
      rw [hl] at h
      cases n with
      | symlink t => exact absurd hl (hlink t)
      | file d m =>
        simp only at h
        by_cases hr : rest = []
        · subst hr
          simp only [if_true, Option.some.injEq] at h
          refine ⟨h.symm, ?_, fun _ => by rw [hl]; simp⟩
          intro p hp hne
          rcases List.prefix_cons_iff.mp hp with hnil | ⟨t, ht, hpre⟩
          · subst hnil; simpa using hcur
          · have := List.prefix_nil.mp hpre
            subst this
            subst ht
            exact absurd rfl hne
        · simp only [hr, if_false] at h
          cases h
      | dir =>
        simp only at h
        have := ih (cur ++ [c]) r (fun x hx => hplain x (List.mem_cons_of_mem _ hx))
          ((isDir_iff _ _).mpr hl)
          (fun p hp t => by
            have := hno (c :: p) (List.prefix_cons_inj c |>.mpr hp) t
            simpa using this) h
        obtain ⟨g1, g2, g3⟩ := this
        refine ⟨by simpa using g1, ?_, fun _ => ?_⟩
        · intro p hp hne
          rcases List.prefix_cons_iff.mp hp with hnil | ⟨t, ht, hpre⟩
          · subst hnil; simpa using hcur
          · subst ht
            have := g2 t hpre (fun hh => hne (by rw [hh]))
            simpa using this
        · by_cases hr : rest = []
          · subst hr; rw [hl]; simp
          · have := g3 hr
            simpa using this

/-- Resolution along a chain of directories, with any node at the end. -/
theorem walk_chain (fs : FS) (b : Nat) :
    ∀ (segs cur : List Name), (∀ c ∈ segs, Plain c) →
      (∀ p, p <+: segs → p ≠ [] → p ≠ segs → isDir fs (cur ++ p) = true) →
      (segs ≠ [] → ∃ n, look fs (cur ++ segs) = some n ∧ ∀ t, n ≠ Node.symlink t) →
      walk fs b cur segs = some (cur ++ segs) := by
  intro segs
  induction segs with
  | nil => intro cur _ _ _; rw [walk_nil]; simp
  | cons c rest ih =>
    intro cur hplain hdirs hlast
    have hc : Plain c := hplain c (List.mem_cons_self _ _)
    rw [walk_cons]
    have h1 : ¬ (c = [] ∨ c = ['.']) := fun hh => hh.elim hc.1 hc.2.1
    simp only [h1, hc.2.2, if_false]
    by_cases hr : rest = []
    · subst hr
      obtain ⟨n, hn, hnl⟩ := hlast (by simp)
      rw [hn]
      cases n with
      | dir => simp [walk_nil]
      | file d m => simp
      | symlink t => exact absurd rfl (hnl t)
    · have hd : isDir fs (cur ++ [c]) = true :=
        hdirs [c] (by simp) (by simp) (by simpa using hr)
      rw [(isDir_iff _ _).mp hd]
      simp only
      have := ih (cur ++ [c]) (fun x hx => hplain x (List.mem_cons_of_mem _ hx))
        (fun p hp hne hne' => by
          have := hdirs (c :: p) (List.prefix_cons_inj c |>.mpr hp) (by simp)
            (by simpa using hne')
          simpa using this)
        (fun _ => by
          obtain ⟨n, hn, hnl⟩ := hlast (by simp)
          exact ⟨n, by simpa using hn, hnl⟩)
      simpa using this

theorem walk_dirChain {fs : FS} (b : Nat) {q : List Name} (hplain : ∀ c ∈ q, Plain c)
    (h : DirChain fs q) : walk fs b [] q = some q := by
  have := walk_chain fs b q [] hplain (fun p hp _ _ => by simpa using h p hp)
    (fun _ => ⟨Node.dir, by simpa using (isDir_iff _ _).mp (h q (List.prefix_refl _)),
      fun t => by simp⟩)
  simpa using this

theorem walk_noLink {fs : FS} {b : Nat} {q r : List Name} (hplain : ∀ c ∈ q, Plain c)
    (hno : NoLinkOn fs q) (h : walk fs b [] q = some r) :
    r = q ∧ (∀ p, p <+: q → p ≠ q → isDir fs p = true) ∧ (look fs q ≠ none) := by
  obtain ⟨g1, g2, g3⟩ := walk_clear fs b q [] r hplain (isDir_root fs)
    (fun p hp t => by simpa using hno p hp t) h
  refine ⟨by simpa using g1, fun p hp hne => by simpa using g2 p hp hne, ?_⟩
  by_cases hq : q = []
  · subst hq; simp [look]
  · simpa using g3 hq

theorem lstatIn_of_chain {fs : FS} {known : List Name} (c : Name)
    (hplain : ∀ x ∈ known, Plain x) (h : DirChain fs known) :
    lstatIn fs known c = look fs (known ++ [c]) := by
  simp [lstatIn, walk_dirChain maxLinks hplain h, h known (List.prefix_refl _)]

theorem lstatIn_noLink {fs : FS} {known : List Name} {c : Name} {n : Node}
    (hplain : ∀ x ∈ known, Plain x) (hno : NoLinkOn fs known)
    (h : lstatIn fs known c = some n) :
    look fs (known ++ [c]) = some n ∧ isDir fs known = true := by
  unfold lstatIn at h
  cases hw : walk fs maxLinks [] known with
  | none => rw [hw] at h; cases h
  | some d =>
    rw [hw] at h
    obtain ⟨g1, _, _⟩ := walk_noLink hplain hno hw
    subst g1
    by_cases hd : isDir fs d = true
    · simp only [hd, if_true] at h
      exact ⟨h, hd⟩
    · simp [hd] at h

/-- The scan of `fs.realpath` along a path without links ends with that path
or fails; it never starts again. -/
theorem scanWith_noLink (fs : FS) (restart : List Name → Except Err (List Name)) :
    ∀ (rest known : List Name), (∀ c ∈ known ++ rest, Plain c) → NoLinkOn fs (known ++ rest) →
      (scanWith fs restart known rest = Except.ok (known ++ rest) ∧
        (rest ≠ [] → look fs (known ++ rest) ≠ none)) ∨
      scanWith fs restart known rest = Except.error Err.io := by
  intro rest
  induction rest with
  | nil => intro known _ _; left; exact ⟨by simp [scanWith], fun h => absurd rfl h⟩
  | cons c rest ih =>
    intro known hplain hno
    simp only [scanWith]
    cases hl : lstatIn fs known c with
    | none => right; rfl
    | some n =>
      have hknown : NoLinkOn fs known := NoLinkOn_prefix hno (List.prefix_append _ _)
      obtain ⟨g1, g2⟩ := lstatIn_noLink (fun x hx => hplain x (by simp [hx])) hknown hl
      cases n with
      | symlink t =>
        exact absurd g1 (hno (known ++ [c]) (by simp) t)
      | dir =>
        simp only
        rcases ih (known ++ [c]) (by simpa using hplain) (by simpa using hno) with ⟨h1, h2⟩ | h1
        · left
          refine ⟨by simpa using h1, fun _ => ?_⟩
          by_cases hr : rest = []
          · subst hr; rw [g1]; simp
          · simpa using h2 hr
        · right; exact h1
      | file d m =>
        simp only
        rcases ih (known ++ [c]) (by simpa using hplain) (by simpa using hno) with ⟨h1, h2⟩ | h1
        · left
          refine ⟨by simpa using h1, fun _ => ?_⟩
          by_cases hr : rest = []
          · subst hr; rw [g1]; simp
          · simpa using h2 hr
        · right; exact h1

/-- The scan of `fs.realpath` along a chain of directories. -/
theorem scanWith_dirChain (fs : FS) (restart : List Name → Except Err (List Name)) :
    ∀ (rest known : List Name), (∀ c ∈ known ++ rest, Plain c) → DirChain fs (known ++ rest) →
      scanWith fs restart known rest = Except.ok (known ++ rest) := by
  intro rest
  induction rest with
  | nil => intro known _ _; simp [scanWith]
  | cons c rest ih =>
    intro known hplain hch
    simp only [scanWith]
    have hk : DirChain fs known := DirChain_prefix hch (List.prefix_append _ _)
    rw [lstatIn_of_chain c (fun x hx => hplain x (by simp [hx])) hk]
    have hd : isDir fs (known ++ [c]) = true :=
      hch _ (by simp)
    rw [(isDir_iff _ _).mp hd]
    simp only
    have := ih (known ++ [c]) (by simpa using hplain) (by simpa using hch)
    simpa using this

theorem realpathFrom_dirChain {fs : FS} (n : Nat) {q : List Name} (hplain : ∀ c ∈ q, Plain c)
    (h : DirChain fs q) : realpathFrom fs (n + 1) q = Except.ok q := by
  have := scanWith_dirChain fs (realpathFrom fs n) q [] (by simpa using hplain) (by simpa using h)
  simpa [realpathFrom] using this

theorem realpathFrom_noLink {fs : FS} (n : Nat) {q : List Name} (hplain : ∀ c ∈ q, Plain c)
    (h : NoLinkOn fs q) :
    (realpathFrom fs (n + 1) q = Except.ok q ∧ look fs q ≠ none) ∨
      realpathFrom fs (n + 1) q = Except.error Err.io := by
  rcases scanWith_noLink fs (realpathFrom fs n) q [] (by simpa using hplain) (by simpa using h)
    with ⟨h1, h2⟩ | h1
  · left
    refine ⟨by simpa [realpathFrom] using h1, ?_⟩
    by_cases hq : q = []
    · subst hq; simp [look]
    · simpa using h2 hq
  · right; simpa [realpathFrom] using h1

/-- On a path without links `fs.realpath` gives the lexically resolved path of
an existing node, or fails. -/
theorem realpath_noLink {fs : FS} {p : Str} (h : NoLinkOn fs (resolveLexical p)) :
    (realpath fs p = Except.ok (render (resolveLexical p)) ∧ look fs (resolveLexical p) ≠ none) ∨
      realpath fs p = Except.error Err.io := by
  unfold realpath
  rcases realpathFrom_noLink maxExpansions (resolveLexical_plain p) h with ⟨h1, h2⟩ | h1
  · left; rw [h1]; exact ⟨rfl, h2⟩
  · right; rw [h1]

theorem realpath_dirChain {fs : FS} {p : Str} (h : DirChain fs (resolveLexical p)) :
    realpath fs p = Except.ok (render (resolveLexical p)) := by
  unfold realpath
  rw [realpathFrom_dirChain maxExpansions (resolveLexical_plain p) h]

/-! ### Lexical and resolved paths -/

theorem render_eq_joinSlash : ∀ (q : List Name), q ≠ [] → render q = '/' :: joinSlash q := by
  intro q
  induction q with
  | nil => intro h; exact absurd rfl h
  | cons n rest ih =>
    intro _
    cases rest with
    | nil => rfl
    | cons m rest =>
      have := ih (by simp)
      simp only [render, joinSlash, this]
      simp

theorem resolveLexical_noslash (p : Str) : ∀ c ∈ resolveLexical p, '/' ∉ c := by
  intro c hc
  rcases normalizeSegs_subset false (splitSlash p) [] c hc with h | h
  · simp at h
  · exact splitSlash_noslash p c h

/-- The string of a lexically resolved path resolves to that path. -/
theorem resolveLexical_render {q : List Name} (hplain : ∀ c ∈ q, Plain c)
    (hslash : ∀ c ∈ q, '/' ∉ c) : resolveLexical (render q) = q := by
  by_cases hq : q = []
  · subst hq; decide
  · rw [render_eq_joinSlash q hq]
    unfold resolveLexical
    rw [splitSlash_cons_slash, splitSlash_joinSlash q hq hslash]
    have := @normalizeSegs_of_shaped [[]] q [] (by simp [Special]) hplain (by simp)
    simpa using this

theorem resolveLexical_render_self (p : Str) :
    resolveLexical (render (resolveLexical p)) = resolveLexical p :=
  resolveLexical_render (resolveLexical_plain p) (resolveLexical_noslash p)

theorem startsWith_render_of_dropLast {q : List Name} {out : Str}
    (h : startsWith (render q.dropLast) out = true) : startsWith (render q) out = true := by
  rcases List.eq_nil_or_concat q with hq | ⟨l, c, hq⟩
  · subst hq; simpa using h
  · subst hq
    simp only [List.concat_eq_append, List.dropLast_concat] at h ⊢
    exact startsWith_render_snoc h

/-- On a normalized string whose lexical path has no link, the parent and
the final component that the operating system finds make up the lexical
path. -/
theorem resolveParent_noLink {fs : FS} {s : Str} {d : List Name} {l : Name} (hn : Normal s)
    (hno : NoLinkOn fs (resolveLexical s)) (h : resolveParent fs s = some (d, l)) :
    d ++ [l] = resolveLexical s ∧ isDir fs d = true := by
  obtain ⟨pre, mid, post, hsegs, hpre, hmid, hpost⟩ := hn
  have hlex : resolveLexical s = mid := resolveLexical_of_shaped hsegs hpre hmid hpost
  unfold resolveParent at h
  simp only at h
  cases hlast : (splitSlash s).getLast? with
  | none => rw [hlast] at h; cases h
  | some last =>
    rw [hlast] at h
    simp only at h
    by_cases hsp : last = [] ∨ last = ['.'] ∨ last = ['.', '.']
    · simp [hsp] at h
    · simp only [hsp, if_false] at h
      have hpostnil : post = [] := by
        by_contra hne
        rw [hsegs, List.getLast?_append_of_ne_nil _ hne] at hlast
        have hm := List.mem_of_getLast?_eq_some hlast
        exact hsp (Or.inl (hpost _ hm))
      subst hpostnil
      simp only [List.append_nil] at hsegs
      have hmidne : mid ≠ [] := by
        intro hm
        subst hm
        simp only [List.append_nil] at hsegs
        rw [hsegs] at hlast
        have hm := List.mem_of_getLast?_eq_some hlast
        exact hsp (hpre _ hm)
      rcases List.eq_nil_or_concat mid with hm | ⟨m0, c, hm⟩
      · exact absurd hm hmidne
      · simp only [List.concat_eq_append] at hm
        subst hm
        have hl2 : last = c := by
          rw [hsegs, ← List.append_assoc, List.getLast?_append_of_ne_nil _ (by simp)] at hlast
          simpa using hlast.symm
        subst hl2
        have hdrop : (splitSlash s).dropLast = pre ++ m0 := by
          rw [hsegs, ← List.append_assoc, List.dropLast_concat]
        rw [hdrop] at h
        cases hw : walk fs maxLinks [] (pre ++ m0) with
        | none => rw [hw] at h; cases h
        | some d' =>
          rw [hw] at h
          simp only at h
          by_cases hd : isDir fs d' = true
          · simp only [hd, if_true, Option.some.injEq, Prod.mk.injEq] at h
            obtain ⟨h1, h2⟩ := h
            subst h1
            subst h2
            rw [walk_skip_special_root fs maxLinks pre m0 hpre] at hw
            have hno' : NoLinkOn fs m0 := by
              rw [hlex] at hno
              exact NoLinkOn_prefix hno (List.prefix_append _ _)
            obtain ⟨g1, _, _⟩ := walk_noLink (fun x hx => hmid x (by simp [hx])) hno' hw
            subst g1
            exact ⟨hlex.symm, hd⟩
          · simp [hd] at h

/-- On a normalized string whose lexical path has no link, the operating
system resolves the string to the lexical path. -/
theorem resolve_noLink {fs : FS} {s : Str} {r : List Name} (hn : Normal s)
    (hno : NoLinkOn fs (resolveLexical s)) (h : resolve fs s = some r) :
    r = resolveLexical s := by
  have := walk_lexical_of_string hn h
  exact (walk_noLink (resolveLexical_plain s) hno this).1

/-! ### Filesystem calls on paths without links -/

theorem Writes_refl (out : Str) (es : List Entry) (fs : FS) : Writes out es fs fs :=
  ⟨Ext_refl fs, fun _ _ h => h, fun _ _ _ h => Or.inl h⟩

theorem Writes_trans {out : Str} {es : List Entry} {a b c : FS} (h1 : Writes out es a b)
    (h2 : Writes out es b c) : Writes out es a c := by
  refine ⟨Ext_trans h1.1 h2.1, fun p t h => h1.2.1 p t (h2.2.1 p t h), ?_⟩
  intro p d m h
  rcases h2.2.2 p d m h with h' | h'
  · exact h1.2.2 p d m h'
  · exact Or.inr h'

theorem Writes_of_dirGrow {out : Str} {es : List Entry} {fs fs' : FS} (h : DirGrow fs fs') :
    Writes out es fs fs' := by
  refine ⟨Grow_ext (DirGrow_grow h), ?_, ?_⟩
  · intro p t ht
    cases hl : look fs p with
    | none =>
      rcases (h p).2 hl with h' | h' <;> rw [h'] at ht <;> cases ht
    | some n =>
      have := (h p).1 n hl
      rw [this] at ht
      cases ht
      rfl
  · intro p d m hf
    left
    cases hl : look fs p with
    | none =>
      rcases (h p).2 hl with h' | h' <;> rw [h'] at hf <;> cases hf
    | some n =>
      have := (h p).1 n hl
      rw [this] at hf
      cases hf
      rfl

theorem Writes_noLink {out : Str} {es : List Entry} {fs fs' : FS} (h : Writes out es fs fs')
    {q : List Name} (hq : NoLinkOn fs q) : NoLinkOn fs' q :=
  fun p hp t ht => hq p hp t (h.2.1 p t ht)

theorem Clear_step {out : Str} {es : List Entry} {fs fs' : FS} (hc : Clear out es fs)
    (h : Writes out es fs fs') (hwf : WellFormed fs') : Clear out es fs' :=
  ⟨hwf, Writes_noLink h hc.2.1, fun e he => Writes_noLink h (hc.2.2 e he)⟩

/-- The call `makeDir(p)` on a path without links. -/
theorem makeDir_step {out : Str} {es : List Entry} {fs : FS} (p : Str)
    (hc : Clear out es fs) (hno : NoLinkOn fs (resolveLexical p)) :
    Clear out es ((Call.makeDir p).perform fs).2 ∧
    Writes out es fs ((Call.makeDir p).perform fs).2 ∧
    (∀ a, ((Call.makeDir p).perform fs).1 = Except.ok a →
      a = render (resolveLexical p) ∧ DirChain ((Call.makeDir p).perform fs).2 (resolveLexical p)) := by
  simp only [Call.perform, Eff.ofOp]
  cases hm : makeDir fs p with
  | none => exact ⟨hc, Writes_refl _ _ _, fun a ha => (by cases ha)⟩
  | some res =>
    obtain ⟨made, fs1⟩ := res
    simp only
    obtain ⟨h1, h2⟩ := makeDir_inv hm
    have hdg := mkdirRev_dirgrow _ _ _ h2
    have hwf := mkdirRev_wf _ _ _ hc.1 h2
    have hw : Writes out es fs fs1 := Writes_of_dirGrow hdg
    refine ⟨Clear_step hc hw hwf, hw, ?_⟩
    intro a ha
    cases ha
    obtain ⟨q, hq1, hq2⟩ := makeDir_post hm
    obtain ⟨g1, _, _⟩ := walk_noLink (resolveLexical_plain p) (Writes_noLink hw hno) hq1
    subst g1
    exact ⟨h1, WellFormed_dirChain hwf hq2⟩

/-- The call `fsP.realpath(p)` on a path without links. -/
theorem realpath_step {fs : FS} (p : Str) (hno : NoLinkOn fs (resolveLexical p)) :
    ((Call.realpath p).perform fs).2 = fs ∧
    (∀ a, ((Call.realpath p).perform fs).1 = Except.ok a →
      a = render (resolveLexical p) ∧ look fs (resolveLexical p) ≠ none) ∧
    ((Call.realpath p).perform fs).1 ≠ Except.error Err.unsettled := by
  have e1 : ((Call.realpath p).perform fs) = (realpath fs p, fs) := rfl
  rw [e1]
  rcases realpath_noLink hno with ⟨h1, h2⟩ | h1
  · rw [h1]
    exact ⟨rfl, fun a ha => by cases ha; exact ⟨rfl, h2⟩, by simp⟩
  · rw [h1]
    exact ⟨rfl, fun a ha => (by cases ha), by simp⟩

theorem readlink_noLink {fs : FS} {s : Str} (hn : Normal s)
    (hno : NoLinkOn fs (resolveLexical s)) : readlink fs s = none := by
  unfold readlink
  cases hr : resolveParent fs s with
  | none => rfl
  | some dl =>
    obtain ⟨d, l⟩ := dl
    simp only
    obtain ⟨h1, _⟩ := resolveParent_noLink hn hno hr
    cases hl : look fs (d ++ [l]) with
    | none => rfl
    | some n =>
      cases n with
      | symlink t =>
        rw [h1] at hl
        exact absurd hl (hno _ (List.prefix_refl _) t)
      | dir => rfl
      | file dt m => rfl

theorem writeFile_inv {fs fs' : FS} {p : Str} {data : List Nat} {mode : Nat}
    (h : writeFile fs p data mode = some fs') (hg : readlink fs p = none) :
    ∃ d l m, resolveParent fs p = some (d, l) ∧
      ((look fs (d ++ [l]) = none ∧ m = mode % 4096) ∨
        ∃ dt, look fs (d ++ [l]) = some (Node.file dt m) ∧ ownerWritable m = true) ∧
      fs' = store fs (d ++ [l]) (Node.file data m) := by
  unfold writeFile at h
  cases hr : resolveParent fs p with
  | none => simp [hr] at h
  | some dl =>
    obtain ⟨d, l⟩ := dl
    rw [hr] at h
    simp only at h
    simp only [readlink, hr] at hg
    rw [writeAt] at h
    cases hl : look fs (d ++ [l]) with
    | none =>
      rw [hl] at h
      simp at h
      exact ⟨d, l, mode % 4096, rfl, Or.inl ⟨hl, rfl⟩, h.symm⟩
    | some n =>
      rw [hl] at h hg
      cases n with
      | dir => simp at h
      | file dt m =>
        simp only at h
        by_cases hw : ownerWritable m = true
        · simp [hw] at h
          exact ⟨d, l, m, rfl, Or.inr ⟨dt, hl, hw⟩, h.symm⟩
        · simp [hw] at h
      | symlink t => simp at hg

theorem ownerWritable_mod (m : Nat) : ownerWritable (m % 4096) = ownerWritable m := by
  unfold ownerWritable
  have : (4096 : Nat) = 2 ^ 12 := by norm_num
  rw [this, Nat.testBit_mod_two_pow]
  simp

/-- The call `fsP.writeFile(dest, data, { mode })` for a file entry whose
destination has no link on its path. -/
theorem writeFile_step {out : Str} {es : List Entry} {fs : FS} {e : Entry} (mode : Int)
    (hc : Clear out es fs) (he : e ∈ es) (hf : e.type = EntryType.file)
    (hmode : 0 ≤ mode → ownerWritable mode.toNat = true) :
    Clear out es ((Call.writeFile (join out e.path) e.data mode).perform fs).2 ∧
    Writes out es fs ((Call.writeFile (join out e.path) e.data mode).perform fs).2 ∧
    (∀ a, ((Call.writeFile (join out e.path) e.data mode).perform fs).1 = Except.ok a →
      ∃ d l m, resolveParent ((Call.writeFile (join out e.path) e.data mode).perform fs).2
          (join out e.path) = some (d, l) ∧
        d ++ [l] = resolveLexical (join out e.path) ∧
        look ((Call.writeFile (join out e.path) e.data mode).perform fs).2
          (resolveLexical (join out e.path)) = some (Node.file e.data m) ∧
        ownerWritable m = true) := by
  have hno := hc.2.2 e he
  have hn : Normal (join out e.path) := normal_join _ _
  simp only [Call.perform]
  by_cases hneg : mode < 0
  · simp only [hneg, if_true]
    exact ⟨hc, Writes_refl _ _ _, fun a ha => (by cases ha)⟩
  · simp only [hneg, if_false, Eff.ofUpdate]
    cases hw : writeFile fs (join out e.path) e.data mode.toNat with
    | none => exact ⟨hc, Writes_refl _ _ _, fun a ha => (by cases ha)⟩
    | some fs1 =>
      simp only
      obtain ⟨d, l, m, hp, hold, hst⟩ := writeFile_inv hw (readlink_noLink hn hno)
      obtain ⟨hdl, hdir⟩ := resolveParent_noLink hn hno hp
      have hne : d ++ [l] ≠ [] := by simp
      have hm : ownerWritable m = true := by
        rcases hold with ⟨_, hm⟩ | ⟨_, _, hm⟩
        · rw [hm, ownerWritable_mod]; exact hmode (not_lt.mp hneg)
        · exact hm
      have hlook : look fs1 (d ++ [l]) = some (Node.file e.data m) := by
        rw [hst]; exact look_store_same _ _ _ hne
      have hext : Ext fs fs1 := by
        rw [hst]
        rcases hold with ⟨hnone, _⟩ | ⟨dt, hfile, _⟩
        · exact Grow_ext (Grow_store_new _ hne hnone)
        · exact Ext_store_file hne hfile
      have hwf : WellFormed fs1 := by
        rw [hst]
        rcases hold with ⟨hnone, _⟩ | ⟨dt, hfile, _⟩
        · exact WellFormed_store hc.1 hdir hnone
        · exact WellFormed_store_file hc.1 hfile
      have hwr : Writes out es fs fs1 := by
        refine ⟨hext, ?_, ?_⟩
        · intro p t ht
          by_cases hpe : p = d ++ [l]
          · rw [hpe, hlook] at ht; cases ht
          · rw [hst, look_store_other _ _ _ _ hpe] at ht; exact ht
        · intro p dd mm hfile
          by_cases hpe : p = d ++ [l]
          · right
            rw [hpe, hlook] at hfile
            cases hfile
            exact ⟨e, he, hf, by rw [hpe, hdl], rfl⟩
          · left
            rw [hst, look_store_other _ _ _ _ hpe] at hfile; exact hfile
      refine ⟨Clear_step hc hwr hwf, hwr, ?_⟩
      intro a _
      exact ⟨d, l, m, resolveParent_mono hext hp, hdl, by rw [← hdl]; exact hlook, hm⟩

/-! ### First extraction: `safeMakeDir` -/

theorem Holds_frame {α : Type} {I : FS → Prop} {R : FS → FS → Prop}
    {Q : Except Err α → FS → Prop} {P : FS → Prop}
    (hP : ∀ a b, P a → R a b → P b) (p : Proc α) :
    ∀ fs, P fs → Holds I R Q p fs → Holds I R (fun r fs' => Q r fs' ∧ P fs') p fs := by
  induction p with
  | done r => intro fs hp h; exact ⟨h, hp⟩
  | call c k ih =>
    intro fs hp h fs' hR hI
    obtain ⟨g1, g2, g3⟩ := h fs' hR hI
    exact ⟨g1, g2, ih _ _ (hP _ _ (hP _ _ hp hR) g2) g3⟩

theorem Holds_pure {α : Type} {I : FS → Prop} {R : FS → FS → Prop}
    {Q : Except Err α → FS → Prop} {a : α} {fs : FS} (h : Q (Except.ok a) fs) :
    Holds I R Q (pure a) fs := h

theorem Holds_throw {α : Type} {I : FS → Prop} {R : FS → FS → Prop}
    {Q : Except Err α → FS → Prop} {e : Err} {fs : FS} (h : Q (Except.error e) fs) :
    Holds I R Q (Proc.throw e) fs := h

theorem perform_realpath_state (p : Str) (fs : FS) : ((Call.realpath p).perform fs).2 = fs := rfl

theorem perform_readlink_state (p : Str) (fs : FS) : ((Call.readlink p).perform fs).2 = fs := by
  simp only [Call.perform, Eff.ofQuery]
  cases readlink fs p <;> rfl

theorem perform_utimes_state (p : Str) (fs : FS) : ((Call.utimes p).perform fs).2 = fs := by
  simp only [Call.perform, Eff.ofUpdate]
  cases h : utimes fs p with
  | none => rfl
  | some fs1 => exact utimes_eq h

theorem perform_utimes_ok {p : Str} {fs : FS} {a : Str}
    (h : ((Call.utimes p).perform fs).1 = Except.ok a) : ∃ q, resolve fs p = some q := by
  simp only [Call.perform, Eff.ofUpdate] at h
  cases hu : utimes fs p with
  | none => rw [hu] at h; cases h
  | some fs1 =>
    unfold utimes at hu
    cases hr : resolve fs p with
    | none => rw [hr] at hu; cases hu
    | some q => exact ⟨q, rfl⟩

section FirstRun

variable {out : Str} {es : List Entry}

theorem checkAndMake_holds (dir realOut real : Str) (big : List Name)
    (hbig : ∀ fs, Clear out es fs → NoLinkOn fs big) (hpre : resolveLexical dir <+: big)
    (hreal : startsWith real realOut = true →
      startsWith (render (resolveLexical dir)) realOut = true) (fs : FS) :
    Holds (Clear out es) (Writes out es)
      (fun r fs' => ∀ a, r = Except.ok a →
        a = render (resolveLexical dir) ∧ DirChain fs' (resolveLexical dir) ∧
          startsWith (render (resolveLexical dir)) realOut = true)
      (checkAndMake dir realOut real) fs := by
  unfold checkAndMake
  by_cases hs : startsWith real realOut = true
  · simp only [hs, Bool.not_true, Bool.false_eq_true, if_false]
    refine Holds_bind (M := fun r fs' => ∀ a, r = Except.ok a →
        a = render (resolveLexical dir) ∧ DirChain fs' (resolveLexical dir)) _ _ _ ?_ ?_ ?_
    · refine Holds_await ?_
      intro fs' _ hI
      exact makeDir_step dir hI ( NoLinkOn_prefix (hbig _ hI) hpre)
    · intro made fs1 h1
      obtain ⟨hm, hch⟩ := h1 made rfl
      subst hm
      refine Holds_await ?_
      intro fs' hR hI
      refine ⟨hI, Writes_refl _ _ _, ?_⟩
      intro a ha
      have hno : NoLinkOn fs' (resolveLexical (render (resolveLexical dir))) := by
        rw [resolveLexical_render_self]
        exact NoLinkOn_prefix (hbig _ hI) hpre
      obtain ⟨_, g2, _⟩ := realpath_step (render (resolveLexical dir)) hno
      obtain ⟨g3, _⟩ := g2 a ha
      rw [resolveLexical_render_self] at g3
      exact ⟨g3, DirChain_mono hR.1 hch, hreal hs⟩
    · intro e fs' _ a ha
      cases ha
  · simp only [hs, Bool.not_false, if_true]
    exact fun a ha => by cases ha

theorem safeMakeDirAux_holds (realOut : Str) (big : List Name)
    (hbig : ∀ fs, Clear out es fs → NoLinkOn fs big) :
    ∀ (fuel : Nat) (dir : Str) (fs : FS), Normal dir → resolveLexical dir <+: big →
      Holds (Clear out es) (Writes out es)
        (fun r fs' => ∀ a, r = Except.ok a →
          a = render (resolveLexical dir) ∧ DirChain fs' (resolveLexical dir) ∧
            startsWith (render (resolveLexical dir)) realOut = true)
        (safeMakeDirAux fuel dir realOut) fs := by
  have hfirst : ∀ (dir : Str) (fs : FS), resolveLexical dir <+: big →
      Holds (Clear out es) (Writes out es)
        (fun r _ => ∀ a, r = Except.ok a → a = render (resolveLexical dir))
        (Proc.await (Call.realpath dir)) fs := by
    intro dir fs hpre
    refine Holds_await ?_
    intro fs' _ hI
    refine ⟨hI, Writes_refl _ _ _, ?_⟩
    intro a ha
    exact ((realpath_step dir ( NoLinkOn_prefix (hbig _ hI) hpre)).2.1 a ha).1
  have hcont : ∀ (dir : Str), resolveLexical dir <+: big →
      ∀ (real : Str) (fs' : FS),
      (∀ a, (Except.ok real : Except Err Str) = Except.ok a →
        (startsWith a realOut = true →
          startsWith (render (resolveLexical dir)) realOut = true)) →
      Holds (Clear out es) (Writes out es)
        (fun r fs' => ∀ a, r = Except.ok a →
          a = render (resolveLexical dir) ∧ DirChain fs' (resolveLexical dir) ∧
            startsWith (render (resolveLexical dir)) realOut = true)
        (checkAndMake dir realOut real) fs' := by
    intro dir hpre real fs' h
    exact checkAndMake_holds dir realOut real big hbig hpre (h real rfl) fs'
  intro fuel
  induction fuel with
  | zero =>
    intro dir fs _ hpre
    simp only [safeMakeDirAux]
    refine Holds_bind (M := fun r _ => ∀ a, r = Except.ok a →
        (startsWith a realOut = true →
          startsWith (render (resolveLexical dir)) realOut = true)) _ _ _ ?_
        (hcont dir hpre) ?_
    · refine Holds_recover _ _ _ (hfirst dir fs hpre) ?_ ?_
      · intro a fs' h b hb
        cases hb
        rw [h a rfl]
        exact fun hh => hh
      · intro e fs' _
        exact ⟨fun _ a ha => (by cases ha), fun _ => Holds_throw (fun a ha => (by cases ha))⟩
    · intro e fs' _ a ha
      cases ha
  | succ n ih =>
    intro dir fs hn hpre
    simp only [safeMakeDirAux]
    refine Holds_bind (M := fun r _ => ∀ a, r = Except.ok a →
        (startsWith a realOut = true →
          startsWith (render (resolveLexical dir)) realOut = true)) _ _ _ ?_
        (hcont dir hpre) ?_
    · refine Holds_recover _ _ _ (hfirst dir fs hpre) ?_ ?_
      · intro a fs' h b hb
        cases hb
        rw [h a rfl]
        exact fun hh => hh
      · intro e fs' _
        refine ⟨fun _ a ha => (by cases ha), fun _ => ?_⟩
        obtain ⟨hnd, hlexd⟩ := dirname_normal dir hn
        have hpre' : resolveLexical (dirname dir) <+: big := by
          rw [hlexd]
          exact (List.dropLast_prefix _).trans hpre
        refine Holds_weaken ?_ _ _ (ih (dirname dir) fs' hnd hpre')
        intro r fs'' h a ha hs
        obtain ⟨g1, _, _⟩ := h a ha
        rw [g1, hlexd] at hs
        exact startsWith_render_of_dropLast hs
    · intro e fs' _ a ha
      cases ha

end FirstRun

/-! ### First extraction: one entry -/

section FirstRun2

variable {out : Str} {es : List Entry}

theorem written_stable (hconf : NoConflict out es) {e : Entry} (he : e ∈ es)
    (hf : e.type = EntryType.file) {a b : FS} (h : Writes out es a b)
    (hp : ∃ d l m, resolveParent a (join out e.path) = some (d, l) ∧
      d ++ [l] = resolveLexical (join out e.path) ∧
      look a (resolveLexical (join out e.path)) = some (Node.file e.data m) ∧
      ownerWritable m = true) :
    ∃ d l m, resolveParent b (join out e.path) = some (d, l) ∧
      d ++ [l] = resolveLexical (join out e.path) ∧
      look b (resolveLexical (join out e.path)) = some (Node.file e.data m) ∧
      ownerWritable m = true := by
  obtain ⟨d, l, m, g1, g2, g3, g4⟩ := hp
  obtain ⟨n', hn', hk⟩ := h.1 _ _ g3
  cases n' with
  | dir => simp [sameKind] at hk
  | symlink t => simp [sameKind] at hk
  | file d' m' =>
    simp only [sameKind] at hk
    subst hk
    refine ⟨d, l, m, resolveParent_mono h.1 g1, g2, ?_, g4⟩
    rcases h.2.2 _ _ _ hn' with hold | ⟨e', he', hf', hq', hd'⟩
    · rw [g3] at hold
      cases hold
      exact hn'
    · have := hconf e' he' e he hf' hf hq'
      rw [← hd', this] at hn'
      exact hn'

theorem Post_stable (hconf : NoConflict out es) {e : Entry} (he : e ∈ es) {a b : FS}
    (hp : Post out e a) (h : Writes out es a b) : Post out e b := by
  obtain ⟨h1, h2, h3, ⟨q, h4⟩, h5⟩ := hp
  exact ⟨DirChain_mono h.1 h1, DirChain_mono h.1 h2, h3, ⟨q, resolve_mono h.1 h4⟩,
    fun hf => written_stable hconf he hf h (h5 hf)⟩

theorem guard_holds (dest realOut : Str) (fs : FS) :
    Holds (Clear out es) (Writes out es)
      (fun r _ => ∀ a, r = Except.ok a → a = realOut)
      (preventWritingThroughSymlink dest realOut) fs := by
  unfold preventWritingThroughSymlink
  refine Holds_bind (M := fun _ _ => True) _ _ _ ?_ ?_ ?_
  · refine Holds_recover (M := fun _ _ => True) _ _ _ ?_ ?_ ?_
    · refine Holds_bind (M := fun _ _ => True) _ _ _ ?_ ?_ ?_
      · refine Holds_await ?_
        intro fs' _ hI
        rw [perform_readlink_state]
        exact ⟨hI, Writes_refl _ _ _, trivial⟩
      · intro a fs' _
        exact Holds_pure trivial
      · intro e fs' _
        trivial
    · intro a fs' _
      trivial
    · intro e fs' _
      exact ⟨fun _ => trivial, fun _ => Holds_pure trivial⟩
  · intro s fs' _
    by_cases ht : truthy s = true
    · simp only [ht, if_true]
      exact Holds_throw (fun a ha => by cases ha)
    · simp only [ht, Bool.false_eq_true, if_false]
      exact Holds_pure (fun a ha => by cases ha; rfl)
  · intro e fs' _ a ha
    cases ha

theorem maskMode_nonneg_of_writable {env : Env} {mode : Nat}
    (h : ownerWritable (maskMode env mode).toNat = true) : 0 ≤ maskMode env mode := by
  by_contra hneg
  have : (maskMode env mode).toNat = 0 := Int.toNat_eq_zero.mpr (le_of_lt (not_le.mp hneg))
  rw [this] at h
  simp [ownerWritable] at h

/-- The first run: a process that materializes a file or directory entry
keeps the filesystem clear of links on the paths of the entries, changes it
only as `Writes` says, and when it resolves, it resolves with its entry and
has established `Post`. -/
theorem materialize_holds (env : Env) (hconf : NoConflict out es) {e : Entry} (he : e ∈ es)
    (hs : Supported env e) (fs : FS) :
    Holds (Clear out es) (Writes out es)
      (fun r fs' => ∀ v, r = Except.ok v → v = Value.entry e ∧ Post out e fs')
      (materialize env out (Value.entry e)) fs := by
  have hbig : ∀ fs, Clear out es fs → NoLinkOn fs (resolveLexical (join out e.path)) :=
    fun fs hc => hc.2.2 e he
  have hnj : Normal (join out e.path) := normal_join _ _
  unfold materialize
  simp only
  by_cases hd : e.type = EntryType.directory
  · simp only [hd, if_true]
    have hst : safeTarget out e = join out e.path := by simp [safeTarget, hd]
    refine Holds_bind (M := fun r fs' => ∀ a, r = Except.ok a →
        a = render (resolveLexical out) ∧ DirChain fs' (resolveLexical out)) _ _ _ ?_ ?_ ?_
    · refine Holds_await ?_
      intro fs' _ hI
      exact makeDir_step out hI hI.2.1
    · intro outputPath fs1 h1
      obtain ⟨ho, hch⟩ := h1 _ rfl
      subst ho
      refine Holds_bind (M := fun r fs' => (∀ a, r = Except.ok a →
          a = render (resolveLexical out)) ∧ DirChain fs' (resolveLexical out)) _ _ _ ?_ ?_ ?_
      · refine Holds_await ?_
        intro fs' hR hI
        refine ⟨hI, Writes_refl _ _ _, ?_, DirChain_mono hR.1 hch⟩
        intro a ha
        have hno : NoLinkOn fs' (resolveLexical (render (resolveLexical out))) := by
          rw [resolveLexical_render_self]; exact hI.2.1
        have := ((realpath_step _ hno).2.1 a ha).1
        rw [resolveLexical_render_self] at this
        exact this
      · intro realOut fs2 h2
        obtain ⟨hr, hch2⟩ := h2
        have hr' := hr _ rfl
        subst hr'
        refine Holds_bind (M := fun r fs' => (∀ a, r = Except.ok a →
            a = render (resolveLexical (join out e.path)) ∧
            DirChain fs' (resolveLexical (join out e.path)) ∧
            startsWith (render (resolveLexical (join out e.path)))
              (render (resolveLexical out)) = true) ∧
            DirChain fs' (resolveLexical out)) _ _ _ ?_ ?_ ?_
        · exact Holds_frame (fun a b hp hR => DirChain_mono hR.1 hp) _ _ hch2
            (safeMakeDirAux_holds _ _ hbig _ _ _ hnj (List.prefix_refl _))
        · intro r fs3 h3
          obtain ⟨h3a, hch3⟩ := h3
          obtain ⟨_, hchd, hsw⟩ := h3a _ rfl
          refine Holds_bind (M := fun r fs' => ∀ a, r = Except.ok a → Post out e fs')
            _ _ _ ?_ ?_ ?_
          · refine Holds_await ?_
            intro fs' hR hI
            rw [perform_utimes_state]
            refine ⟨hI, Writes_refl _ _ _, ?_⟩
            intro a ha
            refine ⟨DirChain_mono hR.1 hch3, ?_, ?_, perform_utimes_ok ha, ?_⟩
            · rw [hst]; exact DirChain_mono hR.1 hchd
            · rw [hst]; exact hsw
            · intro hf
              rw [hd] at hf
              cases hf
          · intro a fs4 h4
            exact Holds_pure (fun v hv => by cases hv; exact ⟨rfl, h4 a rfl⟩)
          · intro e' fs' _ v hv
            cases hv
        · intro e' fs' _ v hv
          cases hv
      · intro e' fs' _ v hv
        cases hv
    · intro e' fs' _ v hv
      cases hv
  · have hf : e.type = EntryType.file := by
      rcases hs with ⟨hf, _⟩ | hd'
      · exact hf
      · exact absurd hd' hd
    have hmode : ownerWritable (maskMode env e.mode).toNat = true := by
      rcases hs with ⟨_, hm⟩ | hd'
      · exact hm
      · exact absurd hd' hd
    simp only [hd, if_false, hf, if_true]
    have hst : safeTarget out e = dirname (join out e.path) := by simp [safeTarget, hd]
    obtain ⟨hnd, hlexd⟩ := dirname_normal _ hnj
    have hpre : resolveLexical (dirname (join out e.path)) <+: resolveLexical (join out e.path) := by
      rw [hlexd]; exact List.dropLast_prefix _
    refine Holds_bind (M := fun r fs' => ∀ a, r = Except.ok a →
        a = render (resolveLexical out) ∧ DirChain fs' (resolveLexical out)) _ _ _ ?_ ?_ ?_
    · refine Holds_await ?_
      intro fs' _ hI
      exact makeDir_step out hI hI.2.1
    · intro outputPath fs1 h1
      obtain ⟨ho, hch⟩ := h1 _ rfl
      subst ho
      refine Holds_bind (M := fun r fs' => (∀ a, r = Except.ok a →
          a = render (resolveLexical out)) ∧ DirChain fs' (resolveLexical out)) _ _ _ ?_ ?_ ?_
      · refine Holds_await ?_
        intro fs' hR hI
        refine ⟨hI, Writes_refl _ _ _, ?_, DirChain_mono hR.1 hch⟩
        intro a ha
        have hno : NoLinkOn fs' (resolveLexical (render (resolveLexical out))) := by
          rw [resolveLexical_render_self]; exact hI.2.1
        have := ((realpath_step _ hno).2.1 a ha).1
        rw [resolveLexical_render_self] at this
        exact this
      · intro realOut fs2 h2
        obtain ⟨hr, hch2⟩ := h2
        have hr' := hr _ rfl
        subst hr'
        refine Holds_bind (M := fun r fs' => (∀ a, r = Except.ok a →
            a = render (resolveLexical (dirname (join out e.path))) ∧
            DirChain fs' (resolveLexical (dirname (join out e.path))) ∧
            startsWith (render (resolveLexical (dirname (join out e.path))))
              (render (resolveLexical out)) = true) ∧
            DirChain fs' (resolveLexical out)) _ _ _ ?_ ?_ ?_
        · exact Holds_frame (fun a b hp hR => DirChain_mono hR.1 hp) _ _ hch2
            (safeMakeDirAux_holds _ _ hbig _ _ _ hnd hpre)
        · intro r fs3 h3
          obtain ⟨h3a, hch3⟩ := h3
          obtain ⟨_, hchd, hsw⟩ := h3a _ rfl
          have hbase : ∀ fs', Writes out es fs3 fs' →
              DirChain fs' (resolveLexical out) ∧
              DirChain fs' (resolveLexical (safeTarget out e)) ∧
              startsWith (render (resolveLexical (safeTarget out e)))
                (render (resolveLexical out)) = true := by
            intro fs' hR
            rw [hst]
            exact ⟨DirChain_mono hR.1 hch3, DirChain_mono hR.1 hchd, hsw⟩
          refine Holds_bind (M := fun r fs' => (∀ a, r = Except.ok a →
              a = render (resolveLexical out)) ∧ Writes out es fs3 fs') _ _ _ ?_ ?_ ?_
          · exact Holds_frame (P := fun fs' => Writes out es fs3 fs')
              (fun a b hp hR => Writes_trans hp hR) _ _ (Writes_refl _ _ _)
              (guard_holds _ _ _)
          · intro realOut2 fs4 h4
            obtain ⟨h4a, hw4⟩ := h4
            have h4b := h4a _ rfl
            subst h4b
            refine Holds_bind (M := fun _ fs' => Writes out es fs3 fs') _ _ _ ?_ ?_ ?_
            · refine Holds_await ?_
              intro fs' hR hI
              exact ⟨hI, Writes_refl _ _ _, Writes_trans hw4 hR⟩
            · intro realDestinationDir fs5 hw5
              by_cases hsw5 : startsWith realDestinationDir (render (resolveLexical out)) = true
              · simp only [hsw5, Bool.not_true, Bool.false_eq_true, if_false]
                refine Holds_bind (M := fun r fs' => (∀ a, r = Except.ok a →
                    ∃ d l m, resolveParent fs' (join out e.path) = some (d, l) ∧
                      d ++ [l] = resolveLexical (join out e.path) ∧
                      look fs' (resolveLexical (join out e.path)) = some (Node.file e.data m) ∧
                      ownerWritable m = true) ∧ Writes out es fs3 fs') _ _ _ ?_ ?_ ?_
                · unfold writeEntry
                  simp only [hf, reduceCtorEq, if_false, false_and]
                  refine Holds_await ?_
                  intro fs' hR hI
                  obtain ⟨g1, g2, g3⟩ := writeFile_step (maskMode env e.mode) hI he hf
                    (fun _ => hmode)
                  exact ⟨g1, g2, g3, Writes_trans (Writes_trans hw5 hR) g2⟩
                · intro a fs6 h6
                  obtain ⟨h6a, hw6⟩ := h6
                  obtain ⟨d, l, m, k1, k2, k3, k4⟩ := h6a a rfl
                  have hpost6 : ∀ fs', Writes out es fs6 fs' →
                      (∃ q, resolve fs' (join out e.path) = some q) → Post out e fs' := by
                    intro fs' hR hq
                    obtain ⟨b1, b2, b3⟩ := hbase fs' (Writes_trans hw6 hR)
                    exact ⟨b1, b2, b3, hq, fun _ =>
                      written_stable hconf he hf hR ⟨d, l, m, k1, k2, k3, k4⟩⟩
                  refine Holds_bind (M := fun r fs' => ∀ a, r = Except.ok a → Post out e fs')
                    _ _ _ ?_ ?_ ?_
                  · refine Holds_await ?_
                    intro fs' hR hI
                    rw [perform_utimes_state]
                    exact ⟨hI, Writes_refl _ _ _, fun a ha => hpost6 fs' hR (perform_utimes_ok ha)⟩
                  · intro a' fs7 h7
                    exact Holds_pure (fun v hv => by cases hv; exact ⟨rfl, h7 a' rfl⟩)
                  · intro e' fs' _ v hv
                    cases hv
                · intro e' fs' _ v hv
                  cases hv
              · simp only [hsw5, Bool.not_false, if_true]
                exact Holds_throw (fun v hv => by cases hv)
            · intro e' fs' _ v hv
              cases hv
          · intro e' fs' _ v hv
            cases hv
        · intro e' fs' _ v hv
          cases hv
      · intro e' fs' _ v hv
        cases hv
    · intro e' fs' _ v hv
      cases hv

end FirstRun2

/-! ### Second extraction -/

theorem store_same {fs : FS} {p : List Name} {n : Node} (hp : p ≠ []) (h : look fs p = some n) :
    store fs p n = fs := by
  funext q
  unfold store
  by_cases hq : q = p
  · subst hq
    simp only [look, hp, if_false] at h
    simp [h]
  · simp [hq]

section SecondRun

variable {T : FS}

theorem Holds_fixed_await {c : Call} {r : Except Err Str} (h : c.perform T = (r, T)) :
    Holds (fun fs => fs = T) (fun a b => a = b) (fun r' fs => r' = r ∧ fs = T)
      (Proc.await c) T := by
  refine Holds_await ?_
  intro fs' hR _
  subst hR
  rw [h]
  exact ⟨rfl, rfl, rfl, rfl⟩

theorem perform_makeDir_dirChain {p : Str} (h : DirChain T (resolveLexical p)) :
    (Call.makeDir p).perform T = (Except.ok (render (resolveLexical p)), T) := by
  have hw := walk_dirChain maxLinks (resolveLexical_plain p) h
  have := makeDir_noop hw (h _ (List.prefix_refl _))
  simp [Call.perform, Eff.ofOp, this]

theorem perform_realpath_dirChain {p : Str} (h : DirChain T (resolveLexical p)) :
    (Call.realpath p).perform T = (Except.ok (render (resolveLexical p)), T) := by
  have e1 : (Call.realpath p).perform T = (realpath T p, T) := rfl
  rw [e1, realpath_dirChain h]

theorem safeMakeDirAux_replay (dir realOut : Str) (hch : DirChain T (resolveLexical dir))
    (hsw : startsWith (render (resolveLexical dir)) realOut = true) :
    ∀ fuel, Holds (fun fs => fs = T) (fun a b => a = b)
      (fun r fs => r = Except.ok (render (resolveLexical dir)) ∧ fs = T)
      (safeMakeDirAux fuel dir realOut) T := by
  have hcheck : Holds (fun fs => fs = T) (fun a b => a = b)
      (fun r fs => r = Except.ok (render (resolveLexical dir)) ∧ fs = T)
      (checkAndMake dir realOut (render (resolveLexical dir))) T := by
    unfold checkAndMake
    simp only [hsw, Bool.not_true, Bool.false_eq_true, if_false]
    refine Holds_bind _ _ _ (Holds_fixed_await (perform_makeDir_dirChain hch)) ?_ ?_
    · intro made fs' h
      obtain ⟨h1, h2⟩ := h
      cases h1
      subst h2
      have hch' : DirChain fs' (resolveLexical (render (resolveLexical dir))) := by
        rw [resolveLexical_render_self]; exact hch
      have := Holds_fixed_await (perform_realpath_dirChain hch')
      rw [resolveLexical_render_self] at this
      exact this
    · intro e fs' h
      cases h.1
  have hmain : ∀ (h : Err → Proc Str), Holds (fun fs => fs = T) (fun a b => a = b)
      (fun r fs => r = Except.ok (render (resolveLexical dir)) ∧ fs = T)
      ((Proc.await (Call.realpath dir)).recover h >>= checkAndMake dir realOut) T := by
    intro h
    refine Holds_bind (M := fun r fs => r = Except.ok (render (resolveLexical dir)) ∧ fs = T)
      _ _ _ ?_ ?_ ?_
    · refine Holds_recover _ _ _ (Holds_fixed_await (perform_realpath_dirChain hch)) ?_ ?_
      · intro a fs' h; exact h
      · intro e fs' h; cases h.1
    · intro real fs' h
      obtain ⟨h1, h2⟩ := h
      cases h1
      subst h2
      exact hcheck
    · intro e fs' h
      cases h.1
  intro fuel
  cases fuel with
  | zero => exact hmain _
  | succ n => exact hmain _

/-- The second run: on a filesystem on which `Post` holds, the process of a
file or directory entry resolves with its entry and every one of its calls
leaves the filesystem as it is. -/
theorem materialize_replay (env : Env) {out : Str} {e : Entry} (hs : Supported env e)
    (hp : Post out e T) :
    Holds (fun fs => fs = T) (fun a b => a = b)
      (fun r fs => r = Except.ok (Value.entry e) ∧ fs = T)
      (materialize env out (Value.entry e)) T := by
  obtain ⟨h1, h2, h3, ⟨q, h4⟩, h5⟩ := hp
  have hro : DirChain T (resolveLexical (render (resolveLexical out))) := by
    rw [resolveLexical_render_self]; exact h1
  have hut : (Call.utimes (join out e.path)).perform T = (Except.ok [], T) := by
    simp [Call.perform, Eff.ofUpdate, utimes, h4]
  unfold materialize
  simp only
  by_cases hd : e.type = EntryType.directory
  · simp only [hd, if_true]
    have hst : safeTarget out e = join out e.path := by simp [safeTarget, hd]
    rw [hst] at h2 h3
    refine Holds_bind _ _ _ (Holds_fixed_await (perform_makeDir_dirChain h1)) ?_ ?_
    · intro a fs' h
      obtain ⟨g1, g2⟩ := h
      cases g1
      subst g2
      refine Holds_bind _ _ _ (Holds_fixed_await (perform_realpath_dirChain hro)) ?_ ?_
      · intro a fs' h
        obtain ⟨g1, g2⟩ := h
        cases g1
        subst g2
        rw [resolveLexical_render_self]
        refine Holds_bind _ _ _ (safeMakeDirAux_replay _ _ h2 h3 _) ?_ ?_
        · intro a fs' h
          obtain ⟨_, g2⟩ := h
          subst g2
          refine Holds_bind _ _ _ (Holds_fixed_await hut) ?_ ?_
          · intro a fs' h
            obtain ⟨_, g2⟩ := h
            subst g2
            exact Holds_pure ⟨rfl, rfl⟩
          · intro e' fs' h; cases h.1
        · intro e' fs' h; cases h.1
      · intro e' fs' h; cases h.1
    · intro e' fs' h; cases h.1
  · have hf : e.type = EntryType.file := by
      rcases hs with ⟨hf, _⟩ | hd'
      · exact hf
      · exact absurd hd' hd
    have hmode : ownerWritable (maskMode env e.mode).toNat = true := by
      rcases hs with ⟨_, hm⟩ | hd'
      · exact hm
      · exact absurd hd' hd
    have hst : safeTarget out e = dirname (join out e.path) := by simp [safeTarget, hd]
    rw [hst] at h2 h3
    obtain ⟨d, l, m, k1, k2, k3, k4⟩ := h5 hf
    have hlook : look T (d ++ [l]) = some (Node.file e.data m) := by rw [k2]; exact k3
    have hrl : (Call.readlink (join out e.path)).perform T = (Except.error Err.io, T) := by
      simp [Call.perform, Eff.ofQuery, readlink_of_file k1 hlook]
    have hwr : (Call.writeFile (join out e.path) e.data (maskMode env e.mode)).perform T
        = (Except.ok [], T) := by
      have hnn : ¬ maskMode env e.mode < 0 := not_lt.mpr (maskMode_nonneg_of_writable hmode)
      have hw : writeFile T (join out e.path) e.data (maskMode env e.mode).toNat = some T := by
        simp only [writeFile, k1]
        rw [writeAt_file _ hlook k4, store_same (by simp) hlook]
      simp [Call.perform, hnn, Eff.ofUpdate, hw]
    simp only [hd, if_false, hf, if_true]
    refine Holds_bind _ _ _ (Holds_fixed_await (perform_makeDir_dirChain h1)) ?_ ?_
    · intro a fs' h
      obtain ⟨g1, g2⟩ := h
      cases g1
      subst g2
      refine Holds_bind _ _ _ (Holds_fixed_await (perform_realpath_dirChain hro)) ?_ ?_
      · intro a fs' h
        obtain ⟨g1, g2⟩ := h
        cases g1
        subst g2
        rw [resolveLexical_render_self]
        refine Holds_bind _ _ _ (safeMakeDirAux_replay _ _ h2 h3 _) ?_ ?_
        · intro a fs' h
          obtain ⟨_, g2⟩ := h
          subst g2
          refine Holds_bind (M := fun r fs => r = Except.ok (render (resolveLexical out)) ∧
              fs = fs') _ _ _ ?_ ?_ ?_
          · unfold preventWritingThroughSymlink
            refine Holds_bind (M := fun r fs => r = Except.ok none ∧ fs = fs') _ _ _ ?_ ?_ ?_
            · refine Holds_recover (M := fun r fs => r = Except.error Err.io ∧ fs = fs')
                _ _ _ ?_ ?_ ?_
              · refine Holds_bind _ _ _ (Holds_fixed_await hrl) ?_ ?_
                · intro t fs'' h; cases h.1
                · intro e' fs'' h
                  obtain ⟨g1, g2⟩ := h
                  cases g1
                  exact ⟨rfl, g2⟩
              · intro a fs'' h; cases h.1
              · intro e' fs'' h
                obtain ⟨g1, g2⟩ := h
                cases g1
                subst g2
                exact ⟨fun hh => (by cases hh), fun _ => Holds_pure ⟨rfl, rfl⟩⟩
            · intro s fs'' h
              obtain ⟨g1, g2⟩ := h
              cases g1
              subst g2
              simp only [truthy, Bool.false_eq_true, if_false]
              exact Holds_pure ⟨rfl, rfl⟩
            · intro e' fs'' h; cases h.1
          · intro realOut fs'' h
            obtain ⟨g1, g2⟩ := h
            cases g1
            subst g2
            refine Holds_bind _ _ _ (Holds_fixed_await (perform_realpath_dirChain h2)) ?_ ?_
            · intro a fs' h
              obtain ⟨g1, g2⟩ := h
              cases g1
              subst g2
              simp only [h3, Bool.not_true, Bool.false_eq_true, if_false]
              refine Holds_bind (M := fun r fs => r = Except.ok [] ∧ fs = fs') _ _ _ ?_ ?_ ?_
              · unfold writeEntry
                simp only [hf, reduceCtorEq, if_false, false_and]
                exact Holds_fixed_await hwr
              · intro a fs'' h
                obtain ⟨_, g2⟩ := h
                subst g2
                refine Holds_bind _ _ _ (Holds_fixed_await hut) ?_ ?_
                · intro a fs' h
                  obtain ⟨_, g2⟩ := h
                  subst g2
                  exact Holds_pure ⟨rfl, rfl⟩
                · intro e' fs' h; cases h.1
              · intro e' fs' h; cases h.1
            · intro e' fs' h; cases h.1
          · intro e' fs' h; cases h.1
        · intro e' fs' h; cases h.1
      · intro e' fs' h; cases h.1
    · intro e' fs' h; cases h.1

end SecondRun

/-! ### Idempotence of `Promise.all` over files and directories -/

theorem Holds_true {α : Type} (p : Proc α) :
    ∀ fs, Holds (fun _ => True) (fun _ _ => True) (fun (_ : Except Err α) _ => True) p fs := by
  induction p with
  | done r => intro fs; trivial
  | call c k ih => intro fs fs' _ _; exact ⟨trivial, trivial, ih _ _⟩

theorem Holds_bind_true {α β : Type} {Q : Except Err β → FS → Prop} (p : Proc α)
    (f : α → Proc β) (fs : FS)
    (h : ∀ a fs', Holds (fun _ => True) (fun _ _ => True) Q (f a) fs')
    (he : ∀ e fs', Q (Except.error e) fs') :
    Holds (fun _ => True) (fun _ _ => True) Q (p >>= f) fs :=
  Holds_bind p f fs (Holds_true p fs) (fun a fs' _ => h a fs') (fun e fs' _ => he e fs')

/-- A process of `files.map` resolves with the element it was started on. -/
theorem materialize_returns (env : Env) (out : Str) (x : Value) (fs : FS) :
    Holds (fun _ => True) (fun _ _ => True) (fun r _ => ∀ v, r = Except.ok v → v = x)
      (materialize env out x) fs := by
  have herr : ∀ (y : Value) (e : Err) (fs' : FS),
      (fun (r : Except Err Value) (_ : FS) => ∀ v, r = Except.ok v → v = y)
        (Except.error e) fs' := fun y e fs' v hv => by cases hv
  have hpure : ∀ (y : Value) fs', Holds (fun _ => True) (fun _ _ => True)
      (fun r _ => ∀ v, r = Except.ok v → v = y) (pure y) fs' :=
    fun y fs' => Holds_pure (fun v hv => by cases hv; rfl)
  cases x with
  | promise s => exact Holds_throw (fun v hv => by cases hv)
  | entry e =>
    unfold materialize
    simp only
    by_cases hd : e.type = EntryType.directory
    · simp only [hd, if_true]
      refine Holds_bind_true (Q := fun r _ => ∀ v, r = Except.ok v → v = Value.entry e)
        _ _ _ (fun _ _ => ?_) (herr _)
      refine Holds_bind_true (Q := fun r _ => ∀ v, r = Except.ok v → v = Value.entry e)
        _ _ _ (fun _ _ => ?_) (herr _)
      refine Holds_bind_true (Q := fun r _ => ∀ v, r = Except.ok v → v = Value.entry e)
        _ _ _ (fun _ _ => ?_) (herr _)
      refine Holds_bind_true (Q := fun r _ => ∀ v, r = Except.ok v → v = Value.entry e)
        _ _ _ (fun _ _ => ?_) (herr _)
      exact hpure _ _
    · simp only [hd, if_false]
      have htail : ∀ (y : Str) (fs' : FS), Holds (fun _ => True) (fun _ _ => True)
          (fun r _ => ∀ v, r = Except.ok v → v = Value.entry e)
          (Proc.await (Call.realpath (dirname (join out e.path))) >>= fun realDestinationDir =>
            if (!startsWith realDestinationDir y) = true then
              Proc.throw (Err.escapeWrite realDestinationDir)
            else
              writeEntry env e (join out e.path) >>= fun _ =>
                if e.type = EntryType.file then
                  Proc.await (Call.utimes (join out e.path)) >>= fun _ => pure (Value.entry e)
                else (pure [] : Proc Str) >>= fun _ => pure (Value.entry e)) fs' := by
        intro y fs'
        refine Holds_bind_true (Q := fun r _ => ∀ v, r = Except.ok v → v = Value.entry e)
          _ _ _ (fun rd _ => ?_) (herr _)
        split_ifs
        · exact Holds_throw (fun v hv => (by cases hv))
        · refine Holds_bind_true (Q := fun r _ => ∀ v, r = Except.ok v → v = Value.entry e)
            _ _ _ (fun _ _ => ?_) (herr _)
          exact Holds_bind_true (Q := fun r _ => ∀ v, r = Except.ok v → v = Value.entry e)
            _ _ _ (fun _ _ => hpure _ _) (herr _)
        · refine Holds_bind_true (Q := fun r _ => ∀ v, r = Except.ok v → v = Value.entry e)
            _ _ _ (fun _ _ => ?_) (herr _)
          exact Holds_bind_true (Q := fun r _ => ∀ v, r = Except.ok v → v = Value.entry e)
            _ _ _ (fun _ _ => hpure _ _) (herr _)
      refine Holds_bind_true (Q := fun r _ => ∀ v, r = Except.ok v → v = Value.entry e)
        _ _ _ (fun _ _ => ?_) (herr _)
      refine Holds_bind_true (Q := fun r _ => ∀ v, r = Except.ok v → v = Value.entry e)
        _ _ _ (fun _ _ => ?_) (herr _)
      refine Holds_bind_true (Q := fun r _ => ∀ v, r = Except.ok v → v = Value.entry e)
        _ _ _ (fun _ _ => ?_) (herr _)
      by_cases hf : e.type = EntryType.file
      · simp only [hf, if_true]
        refine Holds_bind_true (Q := fun r _ => ∀ v, r = Except.ok v → v = Value.entry e)
          _ _ _ (fun y fs' => ?_) (herr _)
        have := htail y fs'
        simp only [hf, if_true] at this
        exact this
      · simp only [hf, if_false]
        refine Holds_bind_true (Q := fun r _ => ∀ v, r = Except.ok v → v = Value.entry e)
          _ _ _ (fun y fs' => ?_) (herr _)
        have := htail y fs'
        simp only [hf, if_false] at this
        exact this

theorem forall₂_eq_map {α β : Type} (g : α → β) :
    ∀ (xs : List α) (vs : List β), List.Forall₂ (fun x v => v = g x) xs vs → vs = xs.map g := by
  intro xs vs h
  induction h with
  | nil => rfl
  | cons h _ ih => rw [h, ih]; rfl

theorem forall₂_left {α β : Type} {P : α → β → Prop} :
    ∀ {xs : List α} {vs : List β}, List.Forall₂ P xs vs → ∀ x ∈ xs, ∃ v, P x v := by
  intro xs vs h
  induction h with
  | nil => intro x hx; cases hx
  | cons h _ ih =>
    intro x hx
    rcases List.mem_cons.mp hx with rfl | hx
    · exact ⟨_, h⟩
    · exact ih x hx

/-- When `Promise.all` over the processes of `files.map` resolves, it resolves
with `files`. -/
theorem awaitAll_materialize_values (env : Env) (out : Str) (sched : List Nat)
    (files vs : List Value) (fs : FS)
    (h : (awaitAll sched (files.map (materialize env out)) fs).1 = Except.ok vs) : vs = files := by
  obtain ⟨_, _, h3, _⟩ := awaitAll_sound (I := fun _ => True) (R := fun _ _ => True)
    (Q := fun (x : Value) r _ => ∀ v, r = Except.ok v → v = x)
    (fun _ => trivial) (fun _ _ _ _ _ => trivial) (fun _ _ _ _ h _ => h)
    sched (materialize env out) files fs trivial
    (fun x _ => materialize_returns env out x fs)
  have := h3 vs h
  have h' : List.Forall₂ (fun x v => v = id x) files vs :=
    this.imp (fun {a b} hab => hab b rfl)
  simpa using forall₂_eq_map id files vs h'

/-- Idempotence of the materialization of file and directory entries, for any
two schedules. -/
theorem awaitAll_idempotent (env : Env) (out : Str) (s1 s2 : List Nat) (es : List Entry)
    (fs T : FS) (vs : List Value)
    (hclear : Clear out es fs) (hsup : ∀ e ∈ es, Supported env e) (hconf : NoConflict out es)
    (h1 : awaitAll s1 (es.map (fun e => materialize env out (Value.entry e))) fs
      = (Except.ok vs, T)) :
    awaitAll s2 (es.map (fun e => materialize env out (Value.entry e))) T
      = (Except.ok vs, T) := by
  obtain ⟨_, _, g3, _⟩ := awaitAll_sound (I := Clear out es) (R := Writes out es)
    (Q := fun (e : Entry) r fs' => e ∈ es → ∀ v, r = Except.ok v → v = Value.entry e ∧ Post out e fs')
    (fun a => Writes_refl out es a) (fun a b c => Writes_trans)
    (fun e r a b hq hR he v hv => ⟨(hq he v hv).1, Post_stable hconf he (hq he v hv).2 hR⟩)
    s1 (fun e => materialize env out (Value.entry e)) es fs hclear
    (fun e he => Holds_weaken (fun r fs' h _ => h) _ _
      (materialize_holds env hconf he (hsup e he) fs))
  rw [h1] at g3
  have hall := g3 vs rfl
  have hvs : vs = es.map Value.entry := by
    have hmem : ∀ (l : List Entry) (ws : List Value), (∀ e ∈ l, e ∈ es) →
        List.Forall₂ (fun e v => e ∈ es → ∀ v', Except.ok v = (Except.ok v' : Except Err Value) →
          v' = Value.entry e ∧ Post out e T) l ws → ws = l.map Value.entry := by
      intro l ws hl h
      induction h with
      | nil => rfl
      | @cons e v l' ws' hh _ ih =>
        rw [(hh (hl e (List.mem_cons_self _ _)) v rfl).1,
          ih (fun e' he' => hl e' (List.mem_cons_of_mem _ he'))]
        rfl
    exact hmem es vs (fun _ h => h) hall
  have hpost : ∀ e ∈ es, Post out e T := by
    intro e he
    obtain ⟨v, hv⟩ := forall₂_left hall e he
    exact (hv he v rfl).2
  obtain ⟨k1, _, k3, k4⟩ := awaitAll_sound (I := fun fs' => fs' = T) (R := fun a b => a = b)
    (Q := fun (e : Entry) r fs' => e ∈ es → r = Except.ok (Value.entry e) ∧ fs' = T)
    (fun _ => rfl) (fun a b c h1 h2 => h1.trans h2)
    (fun e r a b hq hR he => by subst hR; exact hq he)
    s2 (fun e => materialize env out (Value.entry e)) es T rfl
    (fun e he => Holds_weaken (fun r fs' h _ => h) _ _
      (materialize_replay env (hsup e he) (hpost e he)))
  refine Prod.ext ?_ k1
  cases hres : (awaitAll s2 (es.map (fun e => materialize env out (Value.entry e))) T).1 with
  | error err =>
    obtain ⟨e, he, hq⟩ := k4 err hres
    cases (hq he).1
  | ok vs' =>
    have h2 := k3 vs' hres
    have hmem : ∀ (l : List Entry) (ws : List Value), (∀ e ∈ l, e ∈ es) →
        List.Forall₂ (fun e v => e ∈ es →
          (Except.ok v : Except Err Value) = Except.ok (Value.entry e) ∧
            (awaitAll s2 (es.map (fun e => materialize env out (Value.entry e))) T).2 = T) l ws →
        ws = l.map Value.entry := by
      intro l ws hl h
      induction h with
      | nil => rfl
      | @cons e v l' ws' hh _ ih =>
        have := (hh (hl e (List.mem_cons_self _ _))).1
        cases this
        rw [ih (fun e' he' => hl e' (List.mem_cons_of_mem _ he'))]
        rfl
    rw [hvs, hmem es vs' (fun _ h => h) h2]

/-! ### Filter and map (claim C9) -/

theorem runPlugins_congr (input : Buffer) (o1 o2 : Options) (h : o1.plugins = o2.plugins) :
    runPlugins input o1 = runPlugins input o2 := by
  unfold runPlugins
  rw [h]

/-- C9: with `strip = 0`, a filter and a map, what `extractFile` returns when
called without output is the plugin output restricted to the entries accepted
by the filter (asked on the entry before it is mapped), in their order, each
replaced by its image under the map; when called with an output and resolving,
it resolves with that same list, whatever the schedule; with the filter
`path !== 'skip.txt'` and the map that sets the mode to `0o644`, the result is
the entries other than `skip.txt`, each with mode `0o644`; and what is
written is that list: of `skip.txt` and `keep.txt`, both of mode `0o600`,
extracted into `/out`, only `keep.txt` is written, with mode `0o644`. -/
theorem C9_filter_then_map (env : Env) (sched : List Nat) (input : Buffer)
    (plugins : List Plugin) (files : List Entry) (filter : Value → Bool) (map : Value → Value)
    (w : World)
    (hp : runPlugins input { plugins := plugins } = Except.ok files) :
    extractFile env sched input none
        { plugins := plugins, strip := 0, filter := some filter, map := some map } w
      = (Except.ok (((files.map Value.entry).filter filter).map map),
          { w with pluginCalls := w.pluginCalls + plugins.length })
    ∧ (∀ (out : Str) (vs : List Value) (w1 : World),
        extractFile env sched input (some out)
            { plugins := plugins, strip := 0, filter := some filter, map := some map } w
          = (Except.ok vs, w1) →
        vs = ((files.map Value.entry).filter filter).map map)
    ∧ extractFile env sched input none
        { plugins := plugins, strip := 0, filter := some skipFilter, map := some setMode644 } w
      = (Except.ok ((files.filter (fun e => e.path != "skip.txt".toList)).map
            (fun e => Value.entry { e with mode := 420 })),
          { w with pluginCalls := w.pluginCalls + plugins.length })
    ∧ (extractFile posixEnv [] [] (some "/out".toList)
        { plugins := [fun _ => Except.ok
            [fileEntry "skip.txt".toList [1] 384, fileEntry "keep.txt".toList [2] 384]],
          strip := 0, filter := some skipFilter, map := some setMode644 } (freshWorld tmpFS)).1
      = Except.ok [Value.entry (fileEntry "keep.txt".toList [2] 420)]
    ∧ (extractFile posixEnv [] [] (some "/out".toList)
        { plugins := [fun _ => Except.ok
            [fileEntry "skip.txt".toList [1] 384, fileEntry "keep.txt".toList [2] 384]],
          strip := 0, filter := some skipFilter, map := some setMode644 } (freshWorld tmpFS)).2.fs
        ["out".toList, "keep.txt".toList] = some (Node.file [2] 420)
    ∧ (extractFile posixEnv [] [] (some "/out".toList)
        { plugins := [fun _ => Except.ok
            [fileEntry "skip.txt".toList [1] 384, fileEntry "keep.txt".toList [2] 384]],
          strip := 0, filter := some skipFilter, map := some setMode644 } (freshWorld tmpFS)).2.fs
        ["out".toList, "skip.txt".toList] = none := by
  have hp1 : runPlugins input
      { plugins := plugins, strip := 0, filter := some filter, map := some map }
      = Except.ok files := by
    rw [← hp]; exact runPlugins_congr _ _ _ rfl
  have hp2 : runPlugins input
      { plugins := plugins, strip := 0, filter := some skipFilter, map := some setMode644 }
      = Except.ok files := by
    rw [← hp]; exact runPlugins_congr _ _ _ rfl
  refine ⟨?_, ?_, ?_, by decide, by decide, by decide⟩
  · simp [extractFile, hp1, transform]
  · intro out vs w1 h
    unfold extractFile at h
    rw [hp1] at h
    simp only [transform, lt_irrefl, if_false] at h
    by_cases hfal : falsy (some out) = true
    · simp only [hfal, if_true, Prod.mk.injEq, Except.ok.injEq] at h
      exact h.1.symm
    · simp only [hfal, Bool.false_eq_true, if_false, Prod.mk.injEq] at h
      exact awaitAll_materialize_values env out sched _ vs _ h.1
  · simp only [extractFile, hp2, transform, lt_irrefl, if_false, List.filter_map, List.map_map]
    rfl

/-- C9 (witness): of an archive of `skip.txt` and `keep.txt`, both of mode
`0o600`, only `keep.txt` is returned, with mode `0o644`. -/
theorem C9_filter_then_map_witness :
    extractFile posixEnv [] [] none
        { plugins := [fun _ => Except.ok
            [fileEntry "skip.txt".toList [1] 384, fileEntry "keep.txt".toList [2] 384]],
          strip := 0, filter := some skipFilter, map := some setMode644 } (freshWorld tmpFS)
      = (Except.ok [Value.entry (fileEntry "keep.txt".toList [2] 420)],
          { fs := tmpFS, reads := [], pluginCalls := 1 }) :=
  (C9_filter_then_map posixEnv [] [] _
    [fileEntry "skip.txt".toList [1] 384, fileEntry "keep.txt".toList [2] 384]
    skipFilter setMode644 (freshWorld tmpFS) (by rfl)).1

/-! ### Idempotence (claim C10) -/

theorem dotdotLinkFS_wellFormed : WellFormed dotdotLinkFS := by
  intro p c h
  have key : ∀ q, p ++ [c] = q → p = q.dropLast := fun q hq => by rw [← hq]; simp
  have hne : p ++ [c] ≠ [] := by simp
  simp only [look, hne, if_false] at h
  unfold dotdotLinkFS at h
  split_ifs at h with h1 h2 h3 h4 h5 h6 h7 h8 h9
  · rw [key _ h1]; decide
  · rw [key _ h2]; decide
  · rw [key _ h3]; decide
  · rw [key _ h4]; decide
  · rw [key _ h5]; decide
  · rw [key _ h6]; decide
  · rw [key _ h7]; decide
  · rw [key _ h8]; decide
  · rw [key _ h9]; decide
  · exact absurd rfl h

/-- C10 (counterexample): an archive with one symbolic-link entry is extracted
into `/out` successfully, and extracting it again into the resulting
filesystem is rejected with a filesystem error.  The same happens with an
archive whose one entry is a regular file of mode `0o444`.  With links in the
output directory whose targets contain `..`, a directory entry is extracted
successfully and refused the second time.  And two file entries with the same
destination and different data leave the data of the one written last, which
depends on the schedule.  Both filesystems are well formed. -/
theorem C10_symlink_second_run_fails :
    WellFormed tmpFS
    ∧ WellFormed dotdotLinkFS
    ∧ (extractFile posixEnv [] [] (some "/out".toList)
        (archiveOptions [symlinkEntry "l".toList "t".toList]) (freshWorld tmpFS)).1
      = Except.ok [Value.entry (symlinkEntry "l".toList "t".toList)]
    ∧ (extractFile posixEnv [] [] (some "/out".toList)
        (archiveOptions [symlinkEntry "l".toList "t".toList])
        (extractFile posixEnv [] [] (some "/out".toList)
          (archiveOptions [symlinkEntry "l".toList "t".toList]) (freshWorld tmpFS)).2).1
      = Except.error Err.io
    ∧ (extractFile posixEnv [] [] (some "/out".toList)
        (archiveOptions [fileEntry "f".toList [1] 292]) (freshWorld tmpFS)).1
      = Except.ok [Value.entry (fileEntry "f".toList [1] 292)]
    ∧ (extractFile posixEnv [] [] (some "/out".toList)
        (archiveOptions [fileEntry "f".toList [1] 292])
        (extractFile posixEnv [] [] (some "/out".toList)
          (archiveOptions [fileEntry "f".toList [1] 292]) (freshWorld tmpFS)).2).1
      = Except.error Err.io
    ∧ (extractFile posixEnv [] [] (some "/out".toList)
        (archiveOptions [dirEntry "l/name".toList]) (freshWorld dotdotLinkFS)).1
      = Except.ok [Value.entry (dirEntry "l/name".toList)]
    ∧ (extractFile posixEnv [] [] (some "/out".toList)
        (archiveOptions [dirEntry "l/name".toList])
        (extractFile posixEnv [] [] (some "/out".toList)
          (archiveOptions [dirEntry "l/name".toList]) (freshWorld dotdotLinkFS)).2).1
      = Except.error Err.escapeDir
    ∧ (extractFile posixEnv [] [] (some "/out".toList)
        (archiveOptions [fileEntry "f".toList [1] 420, fileEntry "f".toList [2] 420])
        (freshWorld tmpFS)).2.fs ["out".toList, "f".toList] = some (Node.file [2] 420)
    ∧ (extractFile posixEnv [1, 1, 1, 1, 1, 1, 1, 1, 1, 1, 1, 1] [] (some "/out".toList)
        (archiveOptions [fileEntry "f".toList [1] 420, fileEntry "f".toList [2] 420])
        (extractFile posixEnv [] [] (some "/out".toList)
          (archiveOptions [fileEntry "f".toList [1] 420, fileEntry "f".toList [2] 420])
          (freshWorld tmpFS)).2)
      = (Except.ok [Value.entry (fileEntry "f".toList [1] 420),
            Value.entry (fileEntry "f".toList [2] 420)],
          { fs := (extractFile posixEnv [1, 1, 1, 1, 1, 1, 1, 1, 1, 1, 1, 1] [] (some "/out".toList)
              (archiveOptions [fileEntry "f".toList [1] 420, fileEntry "f".toList [2] 420])
              (extractFile posixEnv [] [] (some "/out".toList)
                (archiveOptions [fileEntry "f".toList [1] 420, fileEntry "f".toList [2] 420])
                (freshWorld tmpFS)).2).2.fs,
            reads := [], pluginCalls := 2 })
    ∧ (extractFile posixEnv [1, 1, 1, 1, 1, 1, 1, 1, 1, 1, 1, 1] [] (some "/out".toList)
        (archiveOptions [fileEntry "f".toList [1] 420, fileEntry "f".toList [2] 420])
        (extractFile posixEnv [] [] (some "/out".toList)
          (archiveOptions [fileEntry "f".toList [1] 420, fileEntry "f".toList [2] 420])
          (freshWorld tmpFS)).2).2.fs ["out".toList, "f".toList] = some (Node.file [1] 420) := by
  refine ⟨tmpFS_wellFormed, dotdotLinkFS_wellFormed, by decide, by decide, by decide, by decide,
    by decide, by decide, by decide, ?_, by decide⟩
  refine Prod.ext (by decide) ?_
  rfl

/-- C10 (amended): when an extraction on a well-formed filesystem has
succeeded, under any schedule, and every entry it materialized is a directory
or a regular file whose mode, after the umask, keeps the owner write
permission, no symbolic link lies on the path of the output directory or of
the destination of an entry, and no two file entries with the same
destination differ in their data, then extracting the same input again with
the same options into the resulting filesystem, under any schedule, succeeds
with the same entry list and leaves every path of the filesystem with the node
it had. -/
theorem C10_files_and_directories_idempotent (env : Env) (s1 s2 : List Nat) (input : Buffer)
    (output : Option Str) (opts : Options) (w w1 : World) (vs : List Value)
    (hwf : WellFormed w.fs)
    (h1 : extractFile env s1 input output opts w = (Except.ok vs, w1))
    (hty : ∀ v ∈ vs, ∃ e, v = Value.entry e ∧
      ((e.type = EntryType.file ∧ ownerWritable (maskMode env e.mode).toNat = true) ∨
        e.type = EntryType.directory))
    (hlinks : ∀ out, output = some out → NoLinkOn w.fs (resolveLexical out) ∧
      ∀ e, Value.entry e ∈ vs → NoLinkOn w.fs (resolveLexical (join out e.path)))
    (hconf : ∀ out, output = some out → ∀ e1 e2, Value.entry e1 ∈ vs → Value.entry e2 ∈ vs →
      e1.type = EntryType.file → e2.type = EntryType.file →
      resolveLexical (join out e1.path) = resolveLexical (join out e2.path) →
      e1.data = e2.data) :
    ∃ w2, extractFile env s2 input output opts w1 = (Except.ok vs, w2) ∧ w2.fs = w1.fs := by
  unfold extractFile at h1 ⊢
  cases hp : runPlugins input opts with
  | error err => simp [hp] at h1
  | ok files =>
    rw [hp] at h1
    simp only at h1 ⊢
    cases output with
    | none =>
      simp only [Prod.mk.injEq, Except.ok.injEq] at h1
      exact ⟨_, Prod.ext (congrArg Except.ok h1.1) rfl, rfl⟩
    | some out =>
      simp only at h1 ⊢
      by_cases hfal : falsy (some out) = true
      · simp only [hfal, if_true, Prod.mk.injEq, Except.ok.injEq] at h1 ⊢
        exact ⟨_, ⟨h1.1, rfl⟩, rfl⟩
      · simp only [hfal, Bool.false_eq_true, if_false, Prod.mk.injEq] at h1 ⊢
        obtain ⟨hres, hw⟩ := h1
        have hvals := awaitAll_materialize_values env out s1 _ vs _ hres
        obtain ⟨es, hes, hsup⟩ := entries_of_values (Supported env) vs hty
        have hmapeq : (transform env opts files).map (materialize env out)
            = es.map (fun e => materialize env out (Value.entry e)) := by
          rw [← hvals, hes, List.map_map]
          rfl
        have hclear : Clear out es w.fs := by
          refine ⟨hwf, (hlinks out rfl).1, fun e he => (hlinks out rfl).2 e ?_⟩
          rw [hes]
          exact List.mem_map_of_mem _ he
        have hnc : NoConflict out es := by
          intro e1 he1 e2 he2
          exact hconf out rfl e1 e2 (by rw [hes]; exact List.mem_map_of_mem _ he1)
            (by rw [hes]; exact List.mem_map_of_mem _ he2)
        rw [hmapeq] at hres hw ⊢
        have hrun := awaitAll_idempotent env out s1 s2 es w.fs _ vs hclear hsup hnc
          (Prod.ext hres rfl)
        rw [← hw]
        simp only
        rw [hrun]
        exact ⟨_, ⟨rfl, rfl⟩, rfl⟩

theorem tmpFS_noLink (q : List Name) : NoLinkOn tmpFS q := by
  intro p _ t h
  unfold look tmpFS at h
  split_ifs at h <;> cases h

/-- C10 (witness): a directory `a/` and a file `a/b.txt` extracted twice into
`/out`, under two different schedules. -/
theorem C10_files_and_directories_idempotent_witness :
    ∃ w2, extractFile posixEnv [1, 0] [] (some "/out".toList)
        (archiveOptions [dirEntry "a/".toList, fileEntry "a/b.txt".toList [1, 2] 420])
        (extractFile posixEnv [0, 1, 0, 1] [] (some "/out".toList)
          (archiveOptions [dirEntry "a/".toList, fileEntry "a/b.txt".toList [1, 2] 420])
          (freshWorld tmpFS)).2
      = (Except.ok [Value.entry (dirEntry "a/".toList),
          Value.entry (fileEntry "a/b.txt".toList [1, 2] 420)], w2)
      ∧ w2.fs = (extractFile posixEnv [0, 1, 0, 1] [] (some "/out".toList)
          (archiveOptions [dirEntry "a/".toList, fileEntry "a/b.txt".toList [1, 2] 420])
          (freshWorld tmpFS)).2.fs :=
  C10_files_and_directories_idempotent posixEnv [0, 1, 0, 1] [1, 0] [] (some "/out".toList)
    (archiveOptions [dirEntry "a/".toList, fileEntry "a/b.txt".toList [1, 2] 420])
    (freshWorld tmpFS) _
    [Value.entry (dirEntry "a/".toList), Value.entry (fileEntry "a/b.txt".toList [1, 2] 420)]
    tmpFS_wellFormed
    (by
      have h : (extractFile posixEnv [0, 1, 0, 1] [] (some "/out".toList)
          (archiveOptions [dirEntry "a/".toList, fileEntry "a/b.txt".toList [1, 2] 420])
          (freshWorld tmpFS)).1
          = Except.ok [Value.entry (dirEntry "a/".toList),
              Value.entry (fileEntry "a/b.txt".toList [1, 2] 420)] := by decide
      exact Prod.ext h rfl)
    (by
      intro v hv
      simp only [List.mem_cons, List.mem_singleton, List.not_mem_nil, or_false] at hv
      rcases hv with rfl | rfl
      · exact ⟨_, rfl, Or.inr rfl⟩
      · exact ⟨_, rfl, Or.inl ⟨rfl, by decide⟩⟩)
    (fun _ _ => ⟨tmpFS_noLink _, fun _ _ => tmpFS_noLink _⟩)
    (by
      intro out _ e1 e2 h1 h2 hf1 hf2 _
      simp only [List.mem_cons, List.mem_singleton, List.not_mem_nil, or_false,
        Value.entry.injEq] at h1 h2
      rcases h1 with rfl | rfl
      · cases hf1
      · rcases h2 with rfl | rfl
        · cases hf2
        · rfl)

/-! ### Entries that escape the output directory (claim C1) -/

theorem checkAndMake_escape (dir realOut rp : Str) (fs : FS) (h : startsWith rp realOut = false) :
    (checkAndMake dir realOut rp).run fs = (Except.error Err.escapeDir, fs) := by
  simp [checkAndMake, h, Proc.run_throw]

theorem safeMakeDirAux_escape (fs : FS) (realOut rp : Str) (h : startsWith rp realOut = false) :
    ∀ (fuel : Nat) (dir : Str), nearestReal fs fuel dir = Except.ok rp →
      (safeMakeDirAux fuel dir realOut).run fs = (Except.error Err.escapeDir, fs) := by
  intro fuel
  induction fuel with
  | zero =>
    intro dir hn
    simp only [nearestReal] at hn
    simp only [safeMakeDirAux]
    rw [Proc.run_bind, Proc.run_recover, Proc.run_await]
    have e1 : (Call.realpath dir).perform fs = (realpath fs dir, fs) := rfl
    rw [e1, hn]
    exact checkAndMake_escape dir realOut rp fs h
  | succ n ih =>
    intro dir hn
    simp only [nearestReal] at hn
    simp only [safeMakeDirAux]
    rw [Proc.run_bind, Proc.run_recover, Proc.run_await]
    have e1 : (Call.realpath dir).perform fs = (realpath fs dir, fs) := rfl
    rw [e1]
    cases hr : realpath fs dir with
    | ok real =>
      rw [hr] at hn
      simp only [Except.ok.injEq] at hn
      subst hn
      exact checkAndMake_escape dir realOut real fs h
    | error e =>
      rw [hr] at hn
      by_cases he : e = Err.unsettled
      · subst he
        simp at hn
      · have hn' : nearestReal fs n (dirname dir) = Except.ok rp := by
          cases e <;> first | exact absurd rfl he | exact hn
        simp only [he, if_false]
        rw [ih (dirname dir) hn']

theorem materialize_escape (env : Env) (output : Str) (e : Entry) (fs fs1 : FS)
    (outputPath realOut rp : Str)
    (hmk : makeDir fs output = some (outputPath, fs1))
    (hreal : realpath fs1 outputPath = Except.ok realOut)
    (hnear : nearestReal fs1 (safeTarget output e).length (safeTarget output e) = Except.ok rp)
    (hesc : startsWith rp realOut = false) :
    (materialize env output (Value.entry e)).run fs = (Except.error Err.escapeDir, fs1) := by
  have h1 : (Proc.await (Call.makeDir output)).run fs = (Except.ok outputPath, fs1) := by
    simp [Proc.run_await, Call.perform, Eff.ofOp, hmk]
  have h2 : (Proc.await (Call.realpath outputPath)).run fs1 = (Except.ok realOut, fs1) := by
    have e1 : (Call.realpath outputPath).perform fs1 = (realpath fs1 outputPath, fs1) := rfl
    rw [Proc.run_await, e1, hreal]
  have h3 : (safeMakeDir (safeTarget output e) realOut).run fs1
      = (Except.error Err.escapeDir, fs1) :=
    safeMakeDirAux_escape fs1 realOut rp hesc _ _ hnear
  unfold materialize
  simp only
  by_cases hd : e.type = EntryType.directory
  · simp only [safeTarget, hd, if_true] at h3
    simp only [hd, if_true]
    rw [Proc.run_bind_ok h1, Proc.run_bind_ok h2, Proc.run_bind_error h3]
  · simp only [safeTarget, hd, if_false] at h3
    simp only [hd, if_false]
    rw [Proc.run_bind_ok h1, Proc.run_bind_ok h2, Proc.run_bind_error h3]

theorem extractFile_single (env : Env) (sched : List Nat) (input : Buffer) (output : Str)
    (e : Entry) (w : World) (hout : falsy (some output) = false) :
    extractFile env sched input (some output) (archiveOptions [e]) w
      = (match ((materialize env output (Value.entry e)).run w.fs).1 with
          | Except.ok a => Except.ok [a]
          | Except.error err => Except.error err,
         { w with fs := ((materialize env output (Value.entry e)).run w.fs).2,
                  pluginCalls := w.pluginCalls + 1 }) := by
  unfold extractFile
  rw [runPlugins_archiveOptions]
  simp only [transform_archiveOptions, hout, Bool.false_eq_true, if_false, List.map]
  rw [awaitAll_single]
  cases ((materialize env output (Value.entry e)).run w.fs).1 <;> simp [archiveOptions]

/-- C1 (amended): when the nearest ancestor of the directory to create for
which `fs.realpath` succeeds has a real path that does not start with the
real path of the output root, the entry is refused with the path-escape error
of `safeMakeDir`, and the filesystem is left as `makeDir(output)` made it;
this is what the process of the entry does when it runs alone and what
`extractFile` does on the archive of that entry, whatever the schedule. -/
theorem C1_escape_refused (env : Env) (sched : List Nat) (input : Buffer) (output : Str)
    (e : Entry) (w : World) (fs1 : FS) (outputPath realOut rp : Str)
    (hout : falsy (some output) = false)
    (hmk : makeDir w.fs output = some (outputPath, fs1))
    (hreal : realpath fs1 outputPath = Except.ok realOut)
    (hnear : nearestReal fs1 (safeTarget output e).length (safeTarget output e) = Except.ok rp)
    (hesc : startsWith rp realOut = false) :
    (materialize env output (Value.entry e)).run w.fs = (Except.error Err.escapeDir, fs1)
    ∧ extractFile env sched input (some output) (archiveOptions [e]) w
      = (Except.error Err.escapeDir,
          { fs := fs1, reads := w.reads, pluginCalls := w.pluginCalls + 1 }) := by
  have h := materialize_escape env output e w.fs fs1 outputPath realOut rp hmk hreal hnear hesc
  refine ⟨h, ?_⟩
  rw [extractFile_single env sched input output e w hout, h]

/-- C1 (witness): into `/out` on a filesystem holding only `/tmp`, the file
entry `../b` is refused and only `/out` has been created. -/
theorem C1_escape_refused_witness :
    (materialize posixEnv "/out".toList (Value.entry (fileEntry "../b".toList [1] 420))).run
        (freshWorld tmpFS).fs
      = (Except.error Err.escapeDir, store tmpFS ["out".toList] Node.dir)
    ∧ extractFile posixEnv [0, 0] [] (some "/out".toList)
        (archiveOptions [fileEntry "../b".toList [1] 420]) (freshWorld tmpFS)
      = (Except.error Err.escapeDir,
          { fs := store tmpFS ["out".toList] Node.dir, reads := (freshWorld tmpFS).reads,
            pluginCalls := (freshWorld tmpFS).pluginCalls + 1 }) :=
  C1_escape_refused posixEnv [0, 0] [] "/out".toList (fileEntry "../b".toList [1] 420)
    (freshWorld tmpFS) _ "/out".toList "/out".toList "/".toList
    (by decide) (by rfl) (by decide) (by decide) (by decide)

/-- The removal of `..` from the path string by `fs.realpath`: with the links
`/out/m` to `/tmp/deep` and `/out/l` to `m/../x`, `fs.realpath('/out/l')` is
`/out/x` while the operating system resolves `/out/l` to `/tmp/x`; the file
entry `l/f` passes both prefix tests and is written to `/tmp/x/f`. -/
theorem realpath_is_lexical :
    realpath dotdotFS "/out/l".toList = Except.ok "/out/x".toList
    ∧ resolve dotdotFS "/out/l".toList = some ["tmp".toList, "x".toList]
    ∧ ((materialize posixEnv "/out".toList (Value.entry (fileEntry "l/f".toList [1] 420))).run
        dotdotFS).1 = Except.ok (Value.entry (fileEntry "l/f".toList [1] 420))
    ∧ ((materialize posixEnv "/out".toList (Value.entry (fileEntry "l/f".toList [1] 420))).run
        dotdotFS).2 ["tmp".toList, "x".toList, "f".toList] = some (Node.file [1] 420) := by
  decide

/-! ### Termination of `safeMakeDir`, the guard, the default export -/

theorem realpath_of_special {fs : FS} {s : Str} (h : ∀ c ∈ splitSlash s, Special c) :
    realpath fs s = Except.ok ['/'] := by
  have h0 : resolveLexical s = [] := by
    have := normalizeSegs_skip_special (splitSlash s) [] h
    rw [List.append_nil] at this
    rw [resolveLexical, this]
    rfl
  unfold realpath
  rw [h0]
  rfl

/-- The parent of a path is one that `fs.realpath` resolves in every
filesystem, or it is a shorter string. -/
theorem dirname_resolves_or_shorter (s : Str) :
    (∀ fs, realpath fs (dirname s) = Except.ok ['/']) ∨ (dirname s).length < s.length := by
  have hdot : ∀ fs, realpath fs ['.'] = Except.ok ['/'] := fun fs => realpath_of_special (by
    intro c hc
    have : splitSlash ['.'] = [['.']] := by decide
    rw [this] at hc
    simp only [List.mem_singleton] at hc
    exact Or.inr (Or.inl hc))
  have hroot : ∀ fs, realpath fs ['/'] = Except.ok ['/'] := fun fs => realpath_of_special (by
    intro c hc
    have : splitSlash ['/'] = [[], []] := by decide
    rw [this] at hc
    simp only [List.mem_cons, List.mem_singleton, List.not_mem_nil, or_false, or_self] at hc
    exact Or.inl hc)
  have hroot2 : ∀ fs, realpath fs ['/', '/'] = Except.ok ['/'] := fun fs =>
    realpath_of_special (by
      intro c hc
      have : splitSlash ['/', '/'] = [[], [], []] := by decide
      rw [this] at hc
      simp only [List.mem_cons, List.mem_singleton, List.not_mem_nil, or_false, or_self] at hc
      exact Or.inl hc)
  unfold dirname
  by_cases hs : s = []
  · simp only [hs, if_true]
    exact Or.inl hdot
  · simp only [hs, if_false]
    cases hk : (((splitSlash s).reverse.dropWhile (· = [])).reverse).dropLast with
    | nil =>
      simp only
      split_ifs
      · exact Or.inl hroot
      · exact Or.inl hdot
    | cons a l =>
      simp only
      by_cases hd : joinSlash (a :: l) = []
      · simp only [hd, if_true]
        exact Or.inl hroot
      · simp only [hd, if_false]
        by_cases hd2 : s.head? = some '/' ∧ joinSlash (a :: l) = ['/']
        · simp only [hd2, and_self, if_true]
          exact Or.inl hroot2
        · simp only [hd2, if_false]
          right
          -- the kept segments are a proper prefix of the segments of `s`
          have hpre : ∃ rest, rest ≠ [] ∧ splitSlash s = (a :: l) ++ rest := by
            have h1 : ((splitSlash s).reverse.dropWhile (· = [])).reverse <+: splitSlash s := by
              have := List.dropWhile_suffix (fun x : Str => decide (x = [])) (l := (splitSlash s).reverse)
              have := List.reverse_prefix.mpr this
              simpa using this
            obtain ⟨t1, ht1⟩ := h1
            rcases List.eq_nil_or_concat ((splitSlash s).reverse.dropWhile (· = [])).reverse
              with hnil | ⟨k, x, hkx⟩
            · rw [hnil] at hk
              simp at hk
            · rw [hkx] at hk ht1
              simp only [List.concat_eq_append, List.dropLast_concat] at hk ht1
              refine ⟨x :: t1, by simp, ?_⟩
              rw [← ht1, hk]
              simp
          obtain ⟨rest, hrest, hsplit⟩ := hpre
          have := joinSlash_append_length (a :: l) rest (by simp) hrest
          rw [← hsplit, joinSlash_splitSlash] at this
          exact this

theorem scanWith_not_diverges (fs : FS) (restart : List Name → Except Err (List Name))
    (h : ∀ l, restart l ≠ Except.error Err.diverges) :
    ∀ (rest known : List Name), scanWith fs restart known rest ≠ Except.error Err.diverges := by
  intro rest
  induction rest with
  | nil => intro known; simp [scanWith]
  | cons c rest ih =>
    intro known
    rw [scanWith]
    cases lstatIn fs known c with
    | none => simp
    | some n =>
      cases n with
      | symlink t =>
        simp only
        cases walk fs maxLinks [] (known ++ [c]) with
        | none => simp
        | some _ => exact h _
      | dir => exact ih _
      | file d m => exact ih _

theorem realpathFrom_not_diverges (fs : FS) :
    ∀ (bound : Nat) (l : List Name), realpathFrom fs bound l ≠ Except.error Err.diverges := by
  intro bound
  induction bound with
  | zero => intro l; simp [realpathFrom]
  | succ n ih =>
    intro l
    rw [realpathFrom]
    exact scanWith_not_diverges fs _ ih _ _

/-- No filesystem call settles to the out-of-fuel result of `safeMakeDir`. -/
theorem perform_not_diverges (c : Call) (fs : FS) :
    (c.perform fs).1 ≠ Except.error Err.diverges := by
  cases c with
  | makeDir p =>
    simp only [Call.perform, Eff.ofOp]
    cases Decompress.makeDir fs p with
    | none => simp
    | some r => simp
  | realpath p =>
    simp only [Call.perform, realpath]
    have := realpathFrom_not_diverges fs (maxExpansions + 1) (resolveLexical p)
    cases h : realpathFrom fs (maxExpansions + 1) (resolveLexical p) with
    | ok q => simp
    | error e =>
      rw [h] at this
      simpa using this
  | readlink p =>
    simp only [Call.perform, Eff.ofQuery]
    cases Decompress.readlink fs p <;> simp
  | link existing p =>
    simp only [Call.perform, Eff.ofUpdate]
    cases Decompress.link fs existing p <;> simp
  | symlink target p =>
    simp only [Call.perform, Eff.ofUpdate]
    cases Decompress.symlink fs target p <;> simp
  | writeFile p data mode =>
    simp only [Call.perform, Eff.ofUpdate]
    split_ifs
    · simp
    · cases Decompress.writeFile fs p data mode.toNat <;> simp
  | utimes p =>
    simp only [Call.perform, Eff.ofUpdate]
    cases Decompress.utimes fs p <;> simp

theorem await_not_diverges (c : Call) (fs : FS) :
    Holds (fun _ => True) (fun _ _ => True)
      (fun (r : Except Err Str) _ => r ≠ Except.error Err.diverges) (Proc.await c) fs :=
  Holds_await (fun fs' _ _ => ⟨trivial, trivial, perform_not_diverges c fs'⟩)

theorem checkAndMake_not_diverges (dir realOut rp : Str) (fs : FS) :
    Holds (fun _ => True) (fun _ _ => True)
      (fun (r : Except Err Str) _ => r ≠ Except.error Err.diverges)
      (checkAndMake dir realOut rp) fs := by
  unfold checkAndMake
  by_cases hs : startsWith rp realOut = true
  · simp only [hs, Bool.not_true, Bool.false_eq_true, if_false]
    exact Holds_bind _ _ fs (await_not_diverges _ fs)
      (fun a fs' _ => await_not_diverges _ fs') (fun e fs' h => h)
  · simp only [hs, Bool.not_false, if_true]
    intro h
    cases h

/-- The recursion of `safeMakeDir` ends within `dir.length` calls, whatever the
filesystem calls of other processes do in between: it never settles to the
out-of-fuel result. -/
theorem safeMakeDirAux_total (realOut : Str) :
    ∀ (fuel : Nat) (dir : Str),
      dir.length ≤ fuel ∨ (∀ fs, realpath fs dir = Except.ok ['/']) →
      ∀ fs, Holds (fun _ => True) (fun _ _ => True)
        (fun (r : Except Err Str) _ => r ≠ Except.error Err.diverges)
        (safeMakeDirAux fuel dir realOut) fs := by
  have hempty : ∀ fs, realpath fs [] = Except.ok ['/'] := fun fs => by
    unfold realpath
    rfl
  have hcall : ∀ (dir : Str) (fs : FS), Holds (fun _ => True) (fun _ _ => True)
      (fun (r : Except Err Str) _ => ∃ fs0, r = realpath fs0 dir)
      (Proc.await (Call.realpath dir)) fs :=
    fun dir fs => Holds_await (fun fs' _ _ => ⟨trivial, trivial, fs', rfl⟩)
  intro fuel
  induction fuel with
  | zero =>
    intro dir h fs
    have hres : ∀ fs, realpath fs dir = Except.ok ['/'] := by
      rcases h with h | h
      · have : dir = [] := List.length_eq_zero.mp (Nat.le_zero.mp h)
        subst this
        exact hempty
      · exact h
    simp only [safeMakeDirAux]
    refine Holds_bind _ _ fs
      (Holds_recover (Q := fun r _ => r ≠ Except.error Err.diverges) _ _ fs (hcall dir fs)
        (fun a fs' _ => by simp) (fun e fs' hm => ?_))
      (fun a fs' _ => checkAndMake_not_diverges _ _ _ fs') (fun e fs' h => h)
    obtain ⟨fs0, h0⟩ := hm
    rw [hres fs0] at h0
    cases h0
  | succ n ih =>
    intro dir h fs
    simp only [safeMakeDirAux]
    refine Holds_bind _ _ fs
      (Holds_recover (Q := fun r _ => r ≠ Except.error Err.diverges) _ _ fs (hcall dir fs)
        (fun a fs' _ => by simp) (fun e fs' hm => ⟨fun he => by rw [he]; simp, fun _ => ?_⟩))
      (fun a fs' _ => checkAndMake_not_diverges _ _ _ fs') (fun e fs' h => h)
    obtain ⟨fs0, h0⟩ := hm
    have hlen : dir.length ≤ n + 1 := by
      rcases h with h | h
      · exact h
      · rw [h fs0] at h0
        cases h0
    refine ih (dirname dir) ?_ fs'
    rcases dirname_resolves_or_shorter dir with h1 | h1
    · exact Or.inr h1
    · left; omega

/-- Run alone from any filesystem, `safeMakeDir` settles to a result of the
program, never to the out-of-fuel one. -/
theorem safeMakeDir_total (dir realOut : Str) (fs : FS) :
    ((safeMakeDir dir realOut).run fs).1 ≠ Except.error Err.diverges :=
  (Holds_run (I := fun _ => True) (R := fun _ _ => True) (fun _ => trivial)
    (fun _ _ _ _ _ => trivial) _ fs trivial
    (safeMakeDirAux_total realOut dir.length dir (Or.inl (le_refl _)) fs)).2.2

/-- The guard where it does what its name says: a destination that is a
symbolic link with a non-empty target is refused, and a destination that is
not a symbolic link passes with `realOutputPath` unchanged; the filesystem is
untouched. -/
theorem preventWritingThroughSymlink_spec (destination realOutputPath : Str) (fs : FS) :
    (∀ t, readlink fs destination = some t → t ≠ [] →
        (preventWritingThroughSymlink destination realOutputPath).run fs
          = (Except.error Err.symlinkRefused, fs)) ∧
    (readlink fs destination = none →
        (preventWritingThroughSymlink destination realOutputPath).run fs
          = (Except.ok realOutputPath, fs)) := by
  have e1 : (Call.readlink destination).perform fs
      = (match readlink fs destination with
          | none => Except.error Err.io
          | some a => Except.ok a, fs) := by
    simp only [Call.perform, Eff.ofQuery]
    cases readlink fs destination <;> rfl
  refine ⟨fun t ht hne => ?_, fun hn => ?_⟩
  · cases t with
    | nil => exact absurd rfl hne
    | cons c cs =>
      unfold preventWritingThroughSymlink
      rw [Proc.run_bind, Proc.run_recover, Proc.run_bind, Proc.run_await, e1, ht]
      rfl
  · unfold preventWritingThroughSymlink
    rw [Proc.run_bind, Proc.run_recover, Proc.run_bind, Proc.run_await, e1, hn]
    rfl

/-- With a path string as input the default export reads the file and is then
rejected: with the filesystem error when the file cannot be read, with the
`TypeError` of `read.then` otherwise. -/
theorem decompress_string_input_rejected (env : Env) (sched : List Nat) (p : Str)
    (output : OutputArg) (opts : Option UserOptions) (w : World) :
    decompress env sched (Input.str p) output opts w
      = (Except.error (if (readFile w.fs p).isSome then Err.typeError TypeErrorKind.thenNotFunction
          else Err.io), { w with reads := p :: w.reads }) := by
  cases hr : readFile w.fs p <;> cases output <;> simp [decompress, hr, callThen]

/-! ### Destinations of entries made of names -/

theorem normalizeSegs_true_false : ∀ (segs accF ds : List Str),
    (∀ c ∈ ds, c = ['.', '.']) → (∀ c ∈ accF, Plain c) →
    ∃ dots, normalizeSegs true (accF ++ ds) segs = dots ++ normalizeSegs false accF segs ∧
      ∀ c ∈ dots, c = ['.', '.'] := by
  intro segs
  induction segs with
  | nil =>
    intro accF ds hds _
    refine ⟨ds.reverse, by simp [normalizeSegs], ?_⟩
    intro c hc
    exact hds c (List.mem_reverse.mp hc)
  | cons seg rest ih =>
    intro accF ds hds hF
    rw [normalizeSegs.eq_def, normalizeSegs.eq_def false]
    simp only
    by_cases h1 : seg = [] ∨ seg = ['.']
    · simp only [h1, if_true]
      exact ih accF ds hds hF
    · simp only [h1, if_false]
      by_cases h2 : seg = ['.', '.']
      · simp only [h2, if_true]
        cases accF with
        | nil =>
          simp only [List.nil_append]
          cases ds with
          | nil =>
            simp only [if_true, Bool.false_eq_true, if_false]
            exact ih [] [['.', '.']] (by simp) (by simp)
          | cons last ds' =>
            have hl : last = ['.', '.'] := hds last (by simp)
            simp only [hl, if_true, Bool.false_eq_true, if_false]
            have := ih [] (['.', '.'] :: ['.', '.'] :: ds') (by
              intro c hc
              simp only [List.mem_cons] at hc
              rcases hc with rfl | rfl | hc
              · rfl
              · rfl
              · exact hds c (by simp [hc])) (by simp)
            simpa using this
        | cons a accF' =>
          have ha : a ≠ ['.', '.'] := (hF a (by simp)).2.2
          simp only [List.cons_append, ha, if_false]
          exact ih accF' ds hds (fun c hc => hF c (by simp [hc]))
      · simp only [h2, if_false]
        have hp : Plain seg := by
          refine ⟨fun h => h1 (Or.inl h), fun h => h1 (Or.inr h), h2⟩
        have := ih (seg :: accF) ds hds (by
          intro c hc
          simp only [List.mem_cons] at hc
          rcases hc with rfl | hc
          · exact hp
          · exact hF c hc)
        simpa using this

theorem normalizeSegs_append_plain : ∀ (xs acc mid : List Str), (∀ c ∈ mid, Plain c) →
    normalizeSegs false acc (xs ++ mid) = normalizeSegs false acc xs ++ mid := by
  intro xs
  induction xs with
  | nil =>
    intro acc mid hmid
    have := normalizeSegs_push_plain mid [] acc hmid
    rw [List.append_nil] at this
    rw [List.nil_append, this]
    simp [normalizeSegs]
  | cons seg rest ih =>
    intro acc mid hmid
    rw [List.cons_append, normalizeSegs.eq_def, normalizeSegs.eq_def false acc (seg :: rest)]
    simp only
    by_cases h1 : seg = [] ∨ seg = ['.']
    · simp only [h1, if_true]
      exact ih _ _ hmid
    · simp only [h1, if_false]
      by_cases h2 : seg = ['.', '.']
      · simp only [h2, if_true]
        cases acc with
        | nil => exact ih _ _ hmid
        | cons last acc' =>
          simp only
          split_ifs <;> exact ih _ _ hmid
      · simp only [h2, if_false]
        exact ih _ _ hmid

/-- What `path.normalize` returns resolves, as a string, to the same
component list as its argument. -/
theorem resolveLexical_normalize (x : Str) : resolveLexical (normalize x) = resolveLexical x := by
  unfold normalize
  by_cases hx : x = []
  · simp only [hx, if_true]
    decide
  · simp only [hx, if_false]
    have hplainF : ∀ c ∈ normalizeSegs false [] (splitSlash x), Plain c :=
      normalizeSegs_false_plain _ _ (by simp)
    have hshape : ∃ dots, normalizeSegs (!decide (x.head? = some '/')) [] (splitSlash x)
        = dots ++ normalizeSegs false [] (splitSlash x) ∧ ∀ c ∈ dots, c = ['.', '.'] := by
      by_cases hAbs : x.head? = some '/'
      · exact ⟨[], by simp [hAbs], by simp⟩
      · have := normalizeSegs_true_false (splitSlash x) [] [] (by simp) (by simp)
        simpa [hAbs] using this
    obtain ⟨dots, hns, hdots⟩ := hshape
    have hnoslash : ∀ c ∈ normalizeSegs (!decide (x.head? = some '/')) [] (splitSlash x), '/' ∉ c := by
      intro c hc
      rcases normalizeSegs_subset _ _ _ c hc with h | h
      · simp at h
      · exact splitSlash_noslash x c h
    unfold resolveLexical
    generalize normalizeSegs false [] (splitSlash x) = plains at hns hplainF ⊢
    generalize normalizeSegs (!decide (x.head? = some '/')) [] (splitSlash x) = ns at hns hnoslash ⊢
    by_cases hbody : joinSlash ns = []
    · simp only [hbody, if_true]
      have hpl : plains = [] := by
        rcases joinSlash_eq_nil hbody with h | h
        · rw [h] at hns
          have := congrArg List.length hns
          simp only [List.length_nil, List.length_append] at this
          exact List.length_eq_zero.mp (by omega)
        · rw [h] at hns
          cases plains with
          | nil => rfl
          | cons a l =>
            exfalso
            have hmem : a ∈ [([] : Str)] := by
              rw [hns]
              simp
            simp only [List.mem_singleton] at hmem
            exact (hplainF a (by simp)).1 hmem
      rw [hpl]
      split_ifs <;> decide
    · simp only [hbody, if_false]
      have hne : ns ≠ [] := by
        intro h
        rw [h] at hbody
        exact hbody rfl
      have hsplit := splitSlash_joinSlash _ hne hnoslash
      have hd : ∀ c ∈ dots, Special c := fun c hc => Or.inr (Or.inr (hdots c hc))
      have hd' : ∀ c ∈ [] :: dots, Special c := by
        intro c hc
        simp only [List.mem_cons] at hc
        rcases hc with rfl | hc
        · exact Or.inl rfl
        · exact hd c hc
      by_cases hAbs : x.head? = some '/'
      · by_cases hTr : x.getLast? = some '/'
        · simp only [hAbs, hTr, if_true]
          rw [splitSlash_cons_slash, splitSlash_snoc_slash, hsplit, hns]
          have := @normalizeSegs_of_shaped ([] :: dots) plains [[]]
            hd' hplainF (by simp)
          simpa using this
        · simp only [hAbs, hTr, if_true, if_false]
          rw [splitSlash_cons_slash, hsplit, hns]
          have := @normalizeSegs_of_shaped ([] :: dots) plains []
            hd' hplainF (by simp)
          simpa using this
      · by_cases hTr : x.getLast? = some '/'
        · simp only [hAbs, hTr, if_true, if_false]
          rw [splitSlash_snoc_slash, hsplit, hns]
          exact normalizeSegs_of_shaped hd hplainF (by simp)
        · simp only [hAbs, hTr, if_false]
          rw [hsplit, hns]
          have := @normalizeSegs_of_shaped dots plains []
            hd hplainF (by simp)
          simpa using this

/-- The destination of an entry whose path is made of names: the components
of the output directory, then those names. -/
theorem resolveLexical_join (out b : Str) (hout : out ≠ []) (hb : b ≠ [])
    (hplain : ∀ c ∈ splitSlash b, Plain c) :
    resolveLexical (join out b) = resolveLexical out ++ splitSlash b := by
  unfold join
  simp only [hout, hb, if_false]
  rw [resolveLexical_normalize]
  unfold resolveLexical
  rw [splitSlash_append_slash]
  exact normalizeSegs_append_plain _ _ _ hplain

/-! ### Frame of `make-dir`, errors of filesystem calls -/

theorem NoLinkOn_dirGrow {fs fs' : FS} (h : DirGrow fs fs') {q : List Name}
    (hq : NoLinkOn fs q) : NoLinkOn fs' q := by
  intro p hp t ht
  cases hl : look fs p with
  | none =>
    rcases (h p).2 hl with h1 | h1
    · rw [h1] at ht; cases ht
    · rw [h1] at ht; cases ht
  | some n =>
    have := (h p).1 n hl
    rw [this] at ht
    cases ht
    exact hq p hp t hl

/-- The directories `make-dir` creates along a path whose parent has no
symbolic link on it are on that path: every other node is left as it is. -/
theorem mkdirRev_frame : ∀ (rev : List Name) (fs fs' : FS), (∀ c ∈ rev, Plain c) →
    NoLinkOn fs rev.reverse.dropLast → mkdirRev fs rev = some fs' →
    ∀ p, ¬ p <+: rev.reverse → look fs' p = look fs p := by
  intro rev
  induction rev with
  | nil =>
    intro fs fs' _ _ h p _
    simp only [mkdirRev, Option.some.injEq] at h
    rw [h]
  | cons last parentRev ih =>
    intro fs fs' hplain hno h p hp
    have hrev : (last :: parentRev).reverse = parentRev.reverse ++ [last] := by simp
    rw [hrev, List.dropLast_concat] at hno
    rw [hrev] at hp
    rw [mkdirRev] at h
    cases hw : walk fs maxLinks [] (last :: parentRev).reverse with
    | some q =>
      rw [hw] at h
      simp only at h
      split_ifs at h
      simp only [Option.some.injEq] at h
      rw [h]
    | none =>
      rw [hw] at h
      simp only at h
      cases hm : mkdirRev fs parentRev with
      | none => rw [hm] at h; cases h
      | some fs1 =>
        rw [hm] at h
        simp only at h
        have hplain' : ∀ c ∈ parentRev, Plain c := fun c hc => hplain c (by simp [hc])
        have h1 : look fs1 p = look fs p :=
          ih fs fs1 hplain' ( NoLinkOn_prefix hno (List.dropLast_prefix _)) hm p
            (fun hpp => hp (hpp.trans (List.prefix_append _ _)))
        have hno1 : NoLinkOn fs1 parentRev.reverse :=
          NoLinkOn_dirGrow (mkdirRev_dirgrow _ _ _ hm) hno
        cases hw1 : walk fs1 maxLinks [] parentRev.reverse with
        | none => rw [hw1] at h; cases h
        | some d =>
          rw [hw1] at h
          simp only at h
          have hd : d = parentRev.reverse :=
            (walk_noLink (fun c hc => hplain' c (List.mem_reverse.mp hc)) hno1 hw1).1
          subst hd
          split_ifs at h
          simp only [Option.some.injEq] at h
          rw [← h, look_store_other _ _ _ _ (by
            intro he
            exact hp (he ▸ List.prefix_refl _)), h1]

theorem walk_dirs (fs : FS) (b : Nat) (rest : List Str) :
    ∀ (pre cur : List Name), (∀ c ∈ pre, Plain c) →
      (∀ p, p <+: pre → p ≠ [] → isDir fs (cur ++ p) = true) →
      walk fs b cur (pre ++ rest) = walk fs b (cur ++ pre) rest := by
  intro pre
  induction pre with
  | nil => intro cur _ _; simp
  | cons c pre ih =>
    intro cur hplain hd
    have hc : Plain c := hplain c (by simp)
    have hdir : look fs (cur ++ [c]) = some Node.dir :=
      (isDir_iff fs _).mp (hd [c] (by simp) (by simp))
    rw [List.cons_append, walk_cons]
    have h1 : ¬ (c = [] ∨ c = ['.']) := fun h => h.elim hc.1 hc.2.1
    simp only [h1, hc.2.2, if_false, hdir]
    rw [ih (cur ++ [c]) (fun x hx => hplain x (by simp [hx])) (by
      intro p hp hne
      have := hd (c :: p) (by simpa using hp) (by simp)
      simpa using this)]
    simp

theorem scanWith_dirs (fs : FS) (restart : List Name → Except Err (List Name))
    (rest : List Name) :
    ∀ (pre known : List Name), (∀ c ∈ known ++ pre, Plain c) → DirChain fs (known ++ pre) →
      scanWith fs restart known (pre ++ rest) = scanWith fs restart (known ++ pre) rest := by
  intro pre
  induction pre with
  | nil => intro known _ _; simp
  | cons c pre ih =>
    intro known hplain hd
    have hk : DirChain fs known := DirChain_prefix hd (List.prefix_append _ _)
    have hl : lstatIn fs known c = look fs (known ++ [c]) :=
      lstatIn_of_chain c (fun x hx => hplain x (by simp [hx])) hk
    have hdir : look fs (known ++ [c]) = some Node.dir :=
      (isDir_iff fs _).mp (hd (known ++ [c]) (by
        rw [show known ++ c :: pre = (known ++ [c]) ++ pre by simp]
        exact List.prefix_append _ _))
    rw [List.cons_append, scanWith, hl, hdir]
    simp only
    have := ih (known ++ [c]) (by simpa using hplain) (by simpa using hd)
    rw [this]
    simp

/-- What `resolveParent` returns on a normalized string: the final component
of the lexical path, and where the operating system resolves the components
before it. -/
theorem resolveParent_lexical {fs : FS} {s : Str} {d : List Name} {l : Name} (hn : Normal s)
    (h : resolveParent fs s = some (d, l)) :
    ∃ m0, resolveLexical s = m0 ++ [l] ∧ (∀ c ∈ m0, Plain c) ∧
      walk fs maxLinks [] m0 = some d ∧ isDir fs d = true := by
  obtain ⟨pre, mid, post, hsegs, hpre, hmid, hpost⟩ := hn
  have hlex : resolveLexical s = mid := resolveLexical_of_shaped hsegs hpre hmid hpost
  unfold resolveParent at h
  simp only at h
  cases hlast : (splitSlash s).getLast? with
  | none => rw [hlast] at h; cases h
  | some last =>
    rw [hlast] at h
    simp only at h
    by_cases hsp : last = [] ∨ last = ['.'] ∨ last = ['.', '.']
    · simp [hsp] at h
    · simp only [hsp, if_false] at h
      have hpostnil : post = [] := by
        by_contra hne
        rw [hsegs, List.getLast?_append_of_ne_nil _ hne] at hlast
        have hm := List.mem_of_getLast?_eq_some hlast
        exact hsp (Or.inl (hpost _ hm))
      subst hpostnil
      simp only [List.append_nil] at hsegs
      have hmidne : mid ≠ [] := by
        intro hm
        subst hm
        simp only [List.append_nil] at hsegs
        rw [hsegs] at hlast
        have hm := List.mem_of_getLast?_eq_some hlast
        exact hsp (hpre _ hm)
      rcases List.eq_nil_or_concat mid with hm | ⟨m0, c, hm⟩
      · exact absurd hm hmidne
      · simp only [List.concat_eq_append] at hm
        subst hm
        have hl2 : last = c := by
          rw [hsegs, ← List.append_assoc, List.getLast?_append_of_ne_nil _ (by simp)] at hlast
          simpa using hlast.symm
        subst hl2
        have hdrop : (splitSlash s).dropLast = pre ++ m0 := by
          rw [hsegs, ← List.append_assoc, List.dropLast_concat]
        rw [hdrop] at h
        cases hw : walk fs maxLinks [] (pre ++ m0) with
        | none => rw [hw] at h; cases h
        | some d' =>
          rw [hw] at h
          simp only at h
          by_cases hd : isDir fs d' = true
          · simp only [hd, if_true, Option.some.injEq, Prod.mk.injEq] at h
            obtain ⟨h1, h2⟩ := h
            subst h1
            subst h2
            rw [walk_skip_special_root fs maxLinks pre m0 hpre] at hw
            exact ⟨m0, hlex, fun x hx => hmid x (by simp [hx]), hw, hd⟩
          · simp [hd] at h

theorem realpathFrom_error (fs : FS) :
    ∀ (bound : Nat) (l : List Name) (e : Err), realpathFrom fs bound l = Except.error e →
      e = Err.io ∨ e = Err.unsettled := by
  intro bound
  induction bound with
  | zero =>
    intro l e h
    simp only [realpathFrom, Except.error.injEq] at h
    exact Or.inr h.symm
  | succ n ih =>
    intro l e
    rw [realpathFrom]
    generalize ([] : List Name) = known
    induction l generalizing known with
    | nil => intro h; simp [scanWith] at h
    | cons c rest ihl =>
      intro h
      rw [scanWith] at h
      cases hl : lstatIn fs known c with
      | none =>
        rw [hl] at h
        simp only [Except.error.injEq] at h
        exact Or.inl h.symm
      | some nd =>
        rw [hl] at h
        cases nd with
        | symlink t =>
          simp only at h
          cases hw : walk fs maxLinks [] (known ++ [c]) with
          | none =>
            rw [hw] at h
            simp only [Except.error.injEq] at h
            exact Or.inl h.symm
          | some _ =>
            rw [hw] at h
            exact ih _ _ h
        | dir => exact ihl _ h
        | file d m => exact ihl _ h

/-- A filesystem call is rejected with an error of the filesystem only. -/
theorem perform_error (c : Call) (fs : FS) (e : Err) (h : (c.perform fs).1 = Except.error e) :
    e = Err.io ∨ e = Err.unsettled ∨ e = Err.rangeError := by
  cases c with
  | makeDir p =>
    simp only [Call.perform, Eff.ofOp] at h
    cases hm : Decompress.makeDir fs p with
    | none => rw [hm] at h; simp only [Except.error.injEq] at h; exact Or.inl h.symm
    | some r => rw [hm] at h; cases h
  | realpath p =>
    simp only [Call.perform, realpath] at h
    cases hr : realpathFrom fs (maxExpansions + 1) (resolveLexical p) with
    | ok q => rw [hr] at h; cases h
    | error e' =>
      rw [hr] at h
      simp only [Except.error.injEq] at h
      subst h
      rcases realpathFrom_error fs _ _ _ hr with h1 | h1
      · exact Or.inl h1
      · exact Or.inr (Or.inl h1)
  | readlink p =>
    simp only [Call.perform, Eff.ofQuery] at h
    cases hm : Decompress.readlink fs p with
    | none => rw [hm] at h; simp only [Except.error.injEq] at h; exact Or.inl h.symm
    | some r => rw [hm] at h; cases h
  | link existing p =>
    simp only [Call.perform, Eff.ofUpdate] at h
    cases hm : Decompress.link fs existing p with
    | none => rw [hm] at h; simp only [Except.error.injEq] at h; exact Or.inl h.symm
    | some r => rw [hm] at h; cases h
  | symlink target p =>
    simp only [Call.perform, Eff.ofUpdate] at h
    cases hm : Decompress.symlink fs target p with
    | none => rw [hm] at h; simp only [Except.error.injEq] at h; exact Or.inl h.symm
    | some r => rw [hm] at h; cases h
  | writeFile p data mode =>
    simp only [Call.perform, Eff.ofUpdate] at h
    split_ifs at h
    · simp only [Except.error.injEq] at h; exact Or.inr (Or.inr h.symm)
    · cases hm : Decompress.writeFile fs p data mode.toNat with
      | none => rw [hm] at h; simp only [Except.error.injEq] at h; exact Or.inl h.symm
      | some r => rw [hm] at h; cases h
  | utimes p =>
    simp only [Call.perform, Eff.ofUpdate] at h
    cases hm : Decompress.utimes fs p with
    | none => rw [hm] at h; simp only [Except.error.injEq] at h; exact Or.inl h.symm
    | some r => rw [hm] at h; cases h

/-! ### The invariant of the archive `evil -> /tmp`, `evil/pwned` -/

/-- Outside `fs.realpath`, and `fs.writeFile` with a negative mode, a
filesystem call is rejected with a filesystem error only. -/
theorem perform_refused (c : Call) (fs : FS) (hc : ∀ p, c ≠ Call.realpath p)
    (hm : ∀ p d m, c = Call.writeFile p d m → 0 ≤ m) : Refused (c.perform fs).1 := by
  intro e h
  left
  cases c with
  | makeDir p =>
    simp only [Call.perform, Eff.ofOp] at h
    cases hm : Decompress.makeDir fs p with
    | none => rw [hm] at h; simp only [Except.error.injEq] at h; exact h.symm
    | some r => rw [hm] at h; cases h
  | realpath p => exact absurd rfl (hc p)
  | readlink p =>
    simp only [Call.perform, Eff.ofQuery] at h
    cases hm : Decompress.readlink fs p with
    | none => rw [hm] at h; simp only [Except.error.injEq] at h; exact h.symm
    | some r => rw [hm] at h; cases h
  | link existing p =>
    simp only [Call.perform, Eff.ofUpdate] at h
    cases hm : Decompress.link fs existing p with
    | none => rw [hm] at h; simp only [Except.error.injEq] at h; exact h.symm
    | some r => rw [hm] at h; cases h
  | symlink target p =>
    simp only [Call.perform, Eff.ofUpdate] at h
    cases hm : Decompress.symlink fs target p with
    | none => rw [hm] at h; simp only [Except.error.injEq] at h; exact h.symm
    | some r => rw [hm] at h; cases h
  | writeFile p data mode =>
    have hmode : ¬ mode < 0 := not_lt.mpr (hm p data mode rfl)
    simp only [Call.perform, Eff.ofUpdate, hmode, if_false] at h
    cases hw : Decompress.writeFile fs p data mode.toNat with
    | none => rw [hw] at h; simp only [Except.error.injEq] at h; exact h.symm
    | some r => rw [hw] at h; cases h
  | utimes p =>
    simp only [Call.perform, Eff.ofUpdate] at h
    cases hm : Decompress.utimes fs p with
    | none => rw [hm] at h; simp only [Except.error.injEq] at h; exact h.symm
    | some r => rw [hm] at h; cases h

theorem Refused_cast {α β : Type} {e : Err} (h : Refused (Except.error e : Except Err α)) :
    Refused (Except.error e : Except Err β) := by
  intro err he
  cases he
  exact h e rfl

theorem Refused_ok {α : Type} (a : α) : Refused (Except.ok a : Except Err α) := by
  intro e he
  cases he

theorem Refusal_not_refused {e : Err} (h : Refusal e) :
    e ≠ Err.symlinkRefused ∧ e ≠ Err.unsettled ∧ e ≠ Err.diverges := by
  rcases h with h | h | h <;> subst h <;> simp

theorem startsWith_self (x : Str) : startsWith x x = true := by
  simp [startsWith]

theorem maskMode_small (env : Env) {mode : Nat} (h : mode < 2 ^ 31) : 0 ≤ maskMode env mode := by
  unfold maskMode
  have h1 : mode % 2 ^ 32 = mode := Nat.mod_eq_of_lt (by omega)
  have h2 : Nat.land (mode % 2 ^ 32) (2 ^ 32 - 1 - env.umask % 2 ^ 32) ≤ mode := by
    rw [h1]
    exact Nat.and_le_left
  simp only
  split_ifs with hb
  · exact Int.natCast_nonneg _
  · exact absurd (by omega) hb

section Evil

variable {qo : List Name}

theorem Outside_ne_nil (h : Outside qo) : qo ≠ [] := by
  intro hq
  subst hq
  have := h.2.1
  revert this
  decide

theorem Outside_plain_evil (h : Outside qo) : ∀ c ∈ qo ++ ["evil".toList], Plain c := by
  intro c hc
  rw [List.mem_append] at hc
  rcases hc with hc | hc
  · exact h.1 c hc
  · simp only [List.mem_singleton] at hc
    subst hc
    exact ⟨by decide, by decide, by decide⟩

theorem Outside_pwned_apart (h : Outside qo) {q : List Name}
    (hq : q <+: qo ++ ["evil".toList]) : ¬ ["tmp".toList, "pwned".toList] <+: q := by
  intro hp
  have h1 := hp.trans hq
  rw [List.prefix_concat_iff] at h1
  rcases h1 with h1 | h1
  · have h2 := congrArg List.getLast? h1
    rw [List.getLast?_append_of_ne_nil _ (by simp)] at h2
    revert h2
    decide
  · exact h.2.2 h1

theorem evil_ne_tmp (qo : List Name) : qo ++ ["evil".toList] ≠ ["tmp".toList] := by
  intro h
  have h2 := congrArg List.getLast? h
  rw [List.getLast?_append_of_ne_nil _ (by simp)] at h2
  revert h2
  decide

theorem evil_ne_pwned (qo : List Name) :
    qo ++ ["evil".toList] ≠ ["tmp".toList, "pwned".toList] := by
  intro h
  have h2 := congrArg List.getLast? h
  rw [List.getLast?_append_of_ne_nil _ (by simp)] at h2
  revert h2
  decide

theorem evilFile_eq (qo : List Name) :
    qo ++ ["evil".toList, "pwned".toList] = (qo ++ ["evil".toList]) ++ ["pwned".toList] := by
  simp

theorem evilFile_ne_pwned (h : Outside qo) :
    qo ++ ["evil".toList, "pwned".toList] ≠ ["tmp".toList, "pwned".toList] := by
  intro he
  have h2 := congrArg List.length he
  simp only [List.length_append, List.length_cons, List.length_nil] at h2
  have : qo.length = 0 := by omega
  exact Outside_ne_nil h (List.length_eq_zero.mp this)

theorem evilFile_ne_evil (qo : List Name) :
    qo ++ ["evil".toList, "pwned".toList] ≠ qo ++ ["evil".toList] := by
  intro h
  have h2 := congrArg List.length h
  simp at h2

theorem evil_above (qo : List Name) {p : List Name} (hp : p <+: qo) :
    p ≠ qo ++ ["evil".toList] := by
  intro h
  have := hp.length_le
  rw [h] at this
  simp at this

theorem evilFile_above (qo : List Name) {p : List Name} (hp : p <+: qo) :
    p ≠ qo ++ ["evil".toList, "pwned".toList] := by
  intro h
  have := hp.length_le
  rw [h] at this
  simp at this

theorem Trap_dirGrow {fs fs' : FS} (h : Trap qo fs) (hg : DirGrow fs fs') (hwf : WellFormed fs')
    (hpw : look fs' ["tmp".toList, "pwned".toList] = none) : Trap qo fs' := by
  obtain ⟨_, h2, _, h4, h5, h6⟩ := h
  refine ⟨hwf, isDir_mono (Grow_ext (DirGrow_grow hg)) h2, hpw, NoLinkOn_dirGrow hg h4, ?_, ?_⟩
  · rcases h5 with h5 | h5 | h5
    · rcases (hg _).2 h5 with g | g
      · exact Or.inl g
      · exact Or.inr (Or.inl g)
    · exact Or.inr (Or.inl ((hg _).1 _ h5))
    · exact Or.inr (Or.inr ((hg _).1 _ h5))
  · intro t ht
    cases hl : look fs (qo ++ ["evil".toList, "pwned".toList]) with
    | none =>
      rcases (hg _).2 hl with g | g
      · rw [g] at ht; cases ht
      · rw [g] at ht; cases ht
    | some n =>
      have := (hg _).1 n hl
      rw [this] at ht
      cases ht
      exact h6 t hl

/-- The call `makeDir(p)` on the output directory, a directory above it or
its entry `evil` keeps the invariant. -/
theorem Trap_makeDir (ho : Outside qo) {fs : FS} (h : Trap qo fs) (p : Str)
    (hp : resolveLexical p <+: qo ++ ["evil".toList]) :
    Trap qo ((Call.makeDir p).perform fs).2 ∧ Ext fs ((Call.makeDir p).perform fs).2 := by
  simp only [Call.perform, Eff.ofOp]
  cases hm : Decompress.makeDir fs p with
  | none => exact ⟨h, Ext_refl fs⟩
  | some r =>
    obtain ⟨a, fs1⟩ := r
    simp only
    have hinv := (makeDir_inv hm).2
    have hdg := mkdirRev_dirgrow _ _ _ hinv
    have hno : NoLinkOn fs (resolveLexical p).reverse.reverse.dropLast := by
      rw [List.reverse_reverse]
      refine NoLinkOn_prefix h.2.2.2.1 ?_
      have hp' := hp
      rw [List.prefix_concat_iff] at hp'
      rcases hp' with hp' | hp'
      · rw [hp', List.dropLast_concat]
      · exact (List.dropLast_prefix _).trans hp'
    have hfr := mkdirRev_frame _ fs fs1
      (fun c hc => resolveLexical_plain p c (List.mem_reverse.mp hc)) hno hinv
      ["tmp".toList, "pwned".toList] (by
        rw [List.reverse_reverse]
        exact Outside_pwned_apart ho hp)
    exact ⟨Trap_dirGrow h hdg (makeDir_wf h.1 hm) (by rw [hfr]; exact h.2.2.1),
      Grow_ext (DirGrow_grow hdg)⟩

theorem Trap_dirChain {fs : FS} (h : Trap qo fs)
    (hl : look fs (qo ++ ["evil".toList]) ≠ none) : DirChain fs qo := by
  intro p hp
  exact WellFormed_prefix h.1 (qo ++ ["evil".toList]) hl p (hp.trans (List.prefix_append _ _))
    (evil_above qo hp)

theorem Trap_noLink_evil {fs : FS} (h : Trap qo fs)
    (hl : look fs (qo ++ ["evil".toList]) ≠ some (Node.symlink "/tmp".toList)) :
    NoLinkOn fs (qo ++ ["evil".toList]) := by
  intro p hp t ht
  rw [List.prefix_concat_iff] at hp
  rcases hp with hp | hp
  · subst hp
    rcases h.2.2.2.2.1 with g | g | g
    · rw [g] at ht; cases ht
    · rw [g] at ht; cases ht
    · exact hl g
  · exact h.2.2.2.1 p hp t ht

/-- Where the operating system resolves the entry `evil` of the output
directory: to itself when it is a directory, to `/tmp` when it is the link. -/
theorem walk_evil (ho : Outside qo) {fs : FS} (h : Trap qo fs) {d : List Name}
    (hw : walk fs maxLinks [] (qo ++ ["evil".toList]) = some d) :
    (d = qo ++ ["evil".toList] ∧ isDir fs (qo ++ ["evil".toList]) = true) ∨
    (d = ["tmp".toList] ∧
      look fs (qo ++ ["evil".toList]) = some (Node.symlink "/tmp".toList)) := by
  by_cases hl : look fs (qo ++ ["evil".toList]) = some (Node.symlink "/tmp".toList)
  · right
    refine ⟨?_, hl⟩
    have hchain := Trap_dirChain h (by rw [hl]; simp)
    rw [walk_dirs fs maxLinks _ qo [] ho.1 (fun p hp _ => by simpa using hchain p hp)] at hw
    have hml : maxLinks = 39 + 1 := rfl
    have e1 : ¬ ("evil".toList = [] ∨ "evil".toList = ['.']) := by decide
    have e2 : "evil".toList ≠ ['.', '.'] := by decide
    have e3 : "/tmp".toList ≠ [] := by decide
    have e4 : ("/tmp".toList).head? = some '/' := by decide
    have e5 : splitSlash "/tmp".toList = [[], "tmp".toList] := by decide
    rw [List.nil_append, hml, walk_cons] at hw
    simp only [e1, e2, e3, e4, e5, if_true, if_false, hl, List.append_nil] at hw
    rw [walk_cons] at hw
    simp only [true_or, if_true] at hw
    have htmp : look fs ([] ++ ["tmp".toList]) = some Node.dir := by
      simpa using (isDir_iff fs _).mp h.2.1
    rw [walk_plain_dir fs 39 [] "tmp".toList ⟨by decide, by decide, by decide⟩ htmp] at hw
    simpa using hw.symm
  · left
    obtain ⟨g1, _, g3⟩ := walk_noLink (Outside_plain_evil ho) (Trap_noLink_evil h hl) hw
    refine ⟨g1, ?_⟩
    rcases h.2.2.2.2.1 with g | g | g
    · exact absurd g g3
    · exact (isDir_iff fs _).mpr g
    · exact absurd g hl

/-- In every state of the extraction, `fs.readlink` fails on the destination
`evil/pwned`: through the directory `evil` it is not a link, and through the
link `evil` it does not exist. -/
theorem readlink_evil (ho : Outside qo) {fs : FS} (h : Trap qo fs) {s : Str} (hn : Normal s)
    (hs : resolveLexical s = qo ++ ["evil".toList, "pwned".toList]) : readlink fs s = none := by
  unfold readlink
  cases hp : resolveParent fs s with
  | none => rfl
  | some r =>
    obtain ⟨d, l⟩ := r
    simp only
    obtain ⟨m0, hm0, _, hw, _⟩ := resolveParent_lexical hn hp
    rw [hs, evilFile_eq] at hm0
    obtain ⟨k1, k2⟩ := List.append_inj' hm0 rfl
    simp only [List.cons.injEq, and_true] at k2
    subst k1
    subst k2
    rcases walk_evil ho h hw with ⟨g1, _⟩ | ⟨g1, _⟩
    · subst g1
      cases hl : look fs (qo ++ ["evil".toList] ++ ["pwned".toList]) with
      | none => rfl
      | some n =>
        cases n with
        | symlink t =>
          exfalso
          rw [← evilFile_eq] at hl
          exact h.2.2.2.2.2 t hl
        | dir => rfl
        | file dt m => rfl
    · subst g1
      have : look fs (["tmp".toList] ++ ["pwned".toList]) = none := h.2.2.1
      rw [this]

/-- What `fs.realpath` gives on the entry `evil` of the output directory when
it is the link: `/tmp`, or a filesystem error. -/
theorem realpath_evil_link (ho : Outside qo) {fs : FS} (h : Trap qo fs) {s : Str}
    (hs : resolveLexical s = qo ++ ["evil".toList])
    (hl : look fs (qo ++ ["evil".toList]) = some (Node.symlink "/tmp".toList)) :
    realpath fs s = Except.ok "/tmp".toList ∨ realpath fs s = Except.error Err.io := by
  have hchain := Trap_dirChain h (by rw [hl]; simp)
  unfold realpath
  rw [hs, realpathFrom]
  have := scanWith_dirs fs (realpathFrom fs maxExpansions) ["evil".toList] qo []
    (by simpa using ho.1) (by simpa using hchain)
  rw [List.nil_append] at this
  rw [this, scanWith, lstatIn_of_chain _ ho.1 hchain, hl]
  simp only
  cases hw : walk fs maxLinks [] (qo ++ ["evil".toList]) with
  | none => exact Or.inr rfl
  | some d =>
    left
    simp only
    have e4 : ("/tmp".toList).head? = some '/' := by decide
    have e5 : normalizeSegs false [] (splitSlash "/tmp".toList) = ["tmp".toList] := by decide
    simp only [e4, if_true, e5, List.append_nil]
    have hexp : maxExpansions = 63 + 1 := rfl
    have hd : DirChain fs ["tmp".toList] := by
      intro p hp
      rcases List.prefix_cons_iff.mp hp with rfl | ⟨p', rfl, hp'⟩
      · exact isDir_root fs
      · have : p' = [] := List.prefix_nil.mp hp'
        subst this
        exact h.2.1
    rw [hexp, realpathFrom_dirChain 63 (by
      intro c hc
      simp only [List.mem_singleton] at hc
      subst hc
      exact ⟨by decide, by decide, by decide⟩) hd]
    have e6 : render ["tmp".toList] = "/tmp".toList := by decide
    simp only [e6]

/-- What `fs.realpath` gives on the entry `evil` of the output directory:
its own path when it is a directory, `/tmp` when it is the link. -/
theorem realpath_evil_cases (ho : Outside qo) {fs : FS} (h : Trap qo fs) {s r : Str}
    (hs : resolveLexical s = qo ++ ["evil".toList]) (hr : realpath fs s = Except.ok r) :
    (r = render (qo ++ ["evil".toList]) ∧ isDir fs (qo ++ ["evil".toList]) = true) ∨
      r = "/tmp".toList := by
  by_cases hl : look fs (qo ++ ["evil".toList]) = some (Node.symlink "/tmp".toList)
  · right
    rcases realpath_evil_link ho h hs hl with g | g
    · rw [g] at hr
      simp only [Except.ok.injEq] at hr
      exact hr.symm
    · rw [g] at hr
      cases hr
  · left
    have hno := Trap_noLink_evil h hl
    rw [← hs] at hno
    rcases realpath_noLink hno with ⟨g1, g2⟩ | g
    · rw [g1] at hr
      simp only [Except.ok.injEq] at hr
      rw [hs] at g2 hr
      refine ⟨hr.symm, ?_⟩
      rcases h.2.2.2.2.1 with g | g | g
      · exact absurd g g2
      · exact (isDir_iff fs _).mpr g
      · exact absurd g hl
    · rw [g] at hr
      cases hr

/-- A real path of the entry `evil` of the output directory that passes the
prefix test shows that `evil` is a directory: through the link the real path
is `/tmp`. -/
theorem realpath_evil (ho : Outside qo) {fs : FS} (h : Trap qo fs) {s r : Str}
    (hs : resolveLexical s = qo ++ ["evil".toList]) (hr : realpath fs s = Except.ok r)
    (hpre : startsWith r (render qo) = true) : isDir fs (qo ++ ["evil".toList]) = true := by
  rcases realpath_evil_cases ho h hs hr with ⟨_, g⟩ | g
  · exact g
  · rw [g, ho.2.1] at hpre
    cases hpre

/-- In every state of the extraction, `fs.realpath` on the output directory,
a directory above it or its entry `evil` settles, and is rejected with a
filesystem error only. -/
theorem realpath_trap_error (ho : Outside qo) {fs : FS} (h : Trap qo fs) {s : Str}
    (hs : resolveLexical s <+: qo ++ ["evil".toList]) {e : Err}
    (hr : realpath fs s = Except.error e) : e = Err.io := by
  have hclear : NoLinkOn fs (resolveLexical s) → e = Err.io := by
    intro hno
    rcases realpath_noLink hno with ⟨g, _⟩ | g
    · rw [g] at hr
      cases hr
    · rw [g] at hr
      simp only [Except.error.injEq] at hr
      exact hr.symm
  by_cases hl : look fs (qo ++ ["evil".toList]) = some (Node.symlink "/tmp".toList)
  · have hs' := hs
    rw [List.prefix_concat_iff] at hs'
    rcases hs' with hs' | hs'
    · rcases realpath_evil_link ho h hs' hl with g | g
      · rw [g] at hr
        cases hr
      · rw [g] at hr
        simp only [Except.error.injEq] at hr
        exact hr.symm
    · exact hclear ( NoLinkOn_prefix h.2.2.2.1 hs')
  · exact hclear ( NoLinkOn_prefix (Trap_noLink_evil h hl) hs)

/-- The call `fs.symlink('/tmp', dest)` on the destination `evil` keeps the
invariant, and when it succeeds `evil` is the link. -/
theorem Trap_symlink (ho : Outside qo) {fs : FS} (h : Trap qo fs) {s : Str} (hn : Normal s)
    (hs : resolveLexical s = qo ++ ["evil".toList]) :
    Trap qo ((Call.symlink "/tmp".toList s).perform fs).2 ∧
    Ext fs ((Call.symlink "/tmp".toList s).perform fs).2 ∧
    (∀ a, ((Call.symlink "/tmp".toList s).perform fs).1 = Except.ok a →
      look ((Call.symlink "/tmp".toList s).perform fs).2 (qo ++ ["evil".toList])
        = some (Node.symlink "/tmp".toList)) := by
  simp only [Call.perform, Eff.ofUpdate]
  cases hm : Decompress.symlink fs "/tmp".toList s with
  | none => exact ⟨h, Ext_refl fs, fun a ha => (by cases ha)⟩
  | some fs1 =>
    simp only
    unfold symlink at hm
    have e3 : "/tmp".toList ≠ [] := by decide
    simp only [e3, if_false] at hm
    cases hp : resolveParent fs s with
    | none => rw [hp] at hm; cases hm
    | some r =>
      obtain ⟨d, l⟩ := r
      rw [hp] at hm
      simp only at hm
      obtain ⟨m0, hm0, _, hw, hdir⟩ := resolveParent_lexical hn hp
      rw [hs] at hm0
      obtain ⟨k1, k2⟩ := List.append_inj' hm0 rfl
      simp only [List.cons.injEq, and_true] at k2
      subst k1
      subst k2
      have hd : d = qo := (walk_noLink ho.1 h.2.2.2.1 hw).1
      subst hd
      cases hl : look fs (d ++ ["evil".toList]) with
      | some n => rw [hl] at hm; cases hm
      | none =>
        rw [hl] at hm
        simp only [Option.some.injEq] at hm
        subst hm
        have hne : d ++ ["evil".toList] ≠ [] := by simp
        have hsame := look_store_same fs (d ++ ["evil".toList]) (Node.symlink "/tmp".toList) hne
        refine ⟨⟨WellFormed_store h.1 hdir hl, ?_, ?_, ?_, Or.inr (Or.inr hsame), ?_⟩,
          Grow_ext (Grow_store_new _ hne hl), fun _ _ => hsame⟩
        · rw [isDir_iff, look_store_other _ _ _ _ (evil_ne_tmp d).symm]
          exact (isDir_iff fs _).mp h.2.1
        · rw [look_store_other _ _ _ _ (evil_ne_pwned d).symm]
          exact h.2.2.1
        · intro p hp t ht
          rw [look_store_other _ _ _ _ (evil_above d hp)] at ht
          exact h.2.2.2.1 p hp t ht
        · intro t ht
          rw [look_store_other _ _ _ _ (evilFile_ne_evil d)] at ht
          exact h.2.2.2.2.2 t ht

/-- A hard link to the directory `/tmp` is refused. -/
theorem link_tmp_fails {fs : FS} (h : isDir fs ["tmp".toList] = true) (p : Str) :
    link fs "/tmp".toList p = none := by
  have hp : resolveParent fs "/tmp".toList = some ([], "tmp".toList) := by
    unfold resolveParent
    have e5 : splitSlash "/tmp".toList = [[], "tmp".toList] := by decide
    have e1 : ¬ ("tmp".toList = [] ∨ "tmp".toList = ['.'] ∨ "tmp".toList = ['.', '.']) := by
      decide
    simp only [e5, List.getLast?_cons_cons, List.getLast?_singleton, e1, if_false,
      List.dropLast_cons₂, List.dropLast_single]
    rw [walk_cons]
    simp only [true_or, if_true, walk_nil, isDir_root]
  have hl : look fs ([] ++ ["tmp".toList]) = some Node.dir := by
    simpa using (isDir_iff fs _).mp h
  unfold link
  rw [hp]
  simp only [hl]

/-- The call `fs.writeFile(dest, ...)` on the destination `evil/pwned`, made
when `evil` is a directory, keeps the invariant. -/
theorem Trap_writeFile (ho : Outside qo) {fs : FS} (h : Trap qo fs)
    (hd : isDir fs (qo ++ ["evil".toList]) = true) {s : Str} (hn : Normal s)
    (hs : resolveLexical s = qo ++ ["evil".toList, "pwned".toList]) (data : List Nat)
    (mode : Int) :
    Trap qo ((Call.writeFile s data mode).perform fs).2 ∧
    Ext fs ((Call.writeFile s data mode).perform fs).2 := by
  simp only [Call.perform]
  by_cases hneg : mode < 0
  · simp only [hneg, if_true]
    exact ⟨h, Ext_refl fs⟩
  · simp only [hneg, if_false, Eff.ofUpdate]
    cases hw : writeFile fs s data mode.toNat with
    | none => exact ⟨h, Ext_refl fs⟩
    | some fs1 =>
      simp only
      have hdl : look fs (qo ++ ["evil".toList]) = some Node.dir := (isDir_iff fs _).mp hd
      have hnoB : NoLinkOn fs (resolveLexical s) := by
        rw [hs, evilFile_eq]
        intro p hp t ht
        rw [List.prefix_concat_iff] at hp
        rcases hp with hp | hp
        · subst hp
          rw [← evilFile_eq] at ht
          exact h.2.2.2.2.2 t ht
        · exact Trap_noLink_evil h (by rw [hdl]; simp) p hp t ht
      obtain ⟨d, l, m, hp, hold, hst⟩ := writeFile_inv hw (readlink_evil ho h hn hs)
      obtain ⟨hdl2, hdir⟩ := resolveParent_noLink hn hnoB hp
      rw [hs] at hdl2
      have hne : d ++ [l] ≠ [] := by simp
      have hwf : WellFormed fs1 := by
        rw [hst]
        rcases hold with ⟨hnone, _⟩ | ⟨dt, hfile, _⟩
        · exact WellFormed_store h.1 hdir hnone
        · exact WellFormed_store_file h.1 hfile
      have hext : Ext fs fs1 := by
        rw [hst]
        rcases hold with ⟨hnone, _⟩ | ⟨dt, hfile, _⟩
        · exact Grow_ext (Grow_store_new _ hne hnone)
        · exact Ext_store_file hne hfile
      rw [hdl2] at hst
      refine ⟨⟨hwf, isDir_mono hext h.2.1, ?_, ?_, ?_, ?_⟩, hext⟩
      · rw [hst, look_store_other _ _ _ _ (evilFile_ne_pwned ho).symm]
        exact h.2.2.1
      · intro p hp t ht
        rw [hst, look_store_other _ _ _ _ (evilFile_above qo hp)] at ht
        exact h.2.2.2.1 p hp t ht
      · rw [hst, look_store_other _ _ _ _ (evilFile_ne_evil qo).symm]
        exact h.2.2.2.2.1
      · intro t ht
        rw [hst, look_store_same _ _ _ (by simp)] at ht
        cases ht

end Evil

/-! ### The two callbacks of that archive -/

section EvilRun

variable {out : Str}

theorem perform_makeDir_ok {p a : Str} {fs : FS}
    (h : ((Call.makeDir p).perform fs).1 = Except.ok a) : a = render (resolveLexical p) := by
  simp only [Call.perform, Eff.ofOp] at h
  cases hm : Decompress.makeDir fs p with
  | none => rw [hm] at h; cases h
  | some r =>
    obtain ⟨b, fs1⟩ := r
    rw [hm] at h
    simp only [Except.ok.injEq] at h
    subst h
    exact (makeDir_inv hm).1

/-- The call `fsP.realpath(p)` on the output directory, a directory above it
or its entry `evil`: the filesystem is left as it is, and a rejection is a
filesystem error. -/
theorem Trap_realpath (ho : Outside (resolveLexical out)) (p : Str)
    (hp : resolveLexical p <+: resolveLexical out ++ ["evil".toList]) (fs : FS) :
    Holds (Trap (resolveLexical out)) Ext
      (fun r _ => Refused r ∧ ∃ fs0, r = realpath fs0 p) (Proc.await (Call.realpath p)) fs := by
  refine Holds_await ?_
  intro fs' _ hI
  refine ⟨hI, Ext_refl _, ?_, fs', rfl⟩
  intro e he
  exact Or.inl (realpath_trap_error ho hI hp he)

/-- The call `makeDir(p)` on the output directory, a directory above it or its
entry `evil`. -/
theorem Trap_makeDir_holds (ho : Outside (resolveLexical out)) (p : Str)
    (hp : resolveLexical p <+: resolveLexical out ++ ["evil".toList]) (fs : FS) :
    Holds (Trap (resolveLexical out)) Ext
      (fun r _ => Refused r ∧ ∀ a, r = Except.ok a → a = render (resolveLexical p))
      (Proc.await (Call.makeDir p)) fs := by
  refine Holds_await ?_
  intro fs' _ hI
  obtain ⟨g1, g2⟩ := Trap_makeDir ho hI p hp
  exact ⟨g1, g2, perform_refused _ fs' (fun _ h => by cases h) (fun _ _ _ h => by cases h),
    fun a ha => perform_makeDir_ok ha⟩

theorem checkAndMake_trap (ho : Outside (resolveLexical out)) (dir realOut real : Str)
    (hpre : resolveLexical dir <+: resolveLexical out ++ ["evil".toList]) (fs : FS) :
    Holds (Trap (resolveLexical out)) Ext (fun (r : Except Err Str) _ => Refused r)
      (checkAndMake dir realOut real) fs := by
  unfold checkAndMake
  by_cases hs : startsWith real realOut = true
  · simp only [hs, Bool.not_true, Bool.false_eq_true, if_false]
    refine Holds_bind _ _ _ (Trap_makeDir_holds ho dir hpre fs) ?_ ?_
    · intro made fs1 h1
      have hm := h1.2 made rfl
      subst hm
      refine Holds_weaken (fun r fs' h => h.1) _ _ (Trap_realpath ho _ ?_ fs1)
      rw [resolveLexical_render_self]
      exact hpre
    · intro e fs' h
      exact h.1
  · simp only [hs, Bool.not_false, if_true]
    exact Holds_throw (fun e he => by cases he; exact Or.inr (Or.inl rfl))

/-- The function `safeMakeDir` on the output directory or its entry `evil`,
under any interference that keeps the invariant: it keeps the invariant and
settles, with a value or one of the rejections of `Refusal`. -/
theorem safeMakeDirAux_trap (ho : Outside (resolveLexical out)) (realOut : Str) :
    ∀ (fuel : Nat) (dir : Str) (fs : FS), Normal dir →
      resolveLexical dir <+: resolveLexical out ++ ["evil".toList] →
      dir.length ≤ fuel ∨ (∀ fs, realpath fs dir = Except.ok ['/']) →
      Holds (Trap (resolveLexical out)) Ext (fun (r : Except Err Str) _ => Refused r)
        (safeMakeDirAux fuel dir realOut) fs := by
  have hempty : ∀ fs, realpath fs [] = Except.ok ['/'] := fun fs => by
    unfold realpath
    rfl
  intro fuel
  induction fuel with
  | zero =>
    intro dir fs _ hpre hfuel
    have hres : ∀ fs, realpath fs dir = Except.ok ['/'] := by
      rcases hfuel with h | h
      · have : dir = [] := List.length_eq_zero.mp (Nat.le_zero.mp h)
        subst this
        exact hempty
      · exact h
    simp only [safeMakeDirAux]
    refine Holds_bind (M := fun r _ => Refused r) _ _ _ ?_
      (fun a fs' _ => checkAndMake_trap ho dir realOut a hpre fs') (fun e fs' h => h)
    refine Holds_recover _ _ _ (Trap_realpath ho dir hpre fs) ?_ ?_
    · intro a fs' _
      exact Refused_ok a
    · intro e fs' h
      refine ⟨fun _ => h.1, fun _ => ?_⟩
      obtain ⟨fs0, h0⟩ := h.2
      rw [hres fs0] at h0
      cases h0
  | succ n ih =>
    intro dir fs hn hpre hfuel
    simp only [safeMakeDirAux]
    refine Holds_bind (M := fun r _ => Refused r) _ _ _ ?_
      (fun a fs' _ => checkAndMake_trap ho dir realOut a hpre fs') (fun e fs' h => h)
    refine Holds_recover _ _ _ (Trap_realpath ho dir hpre fs) ?_ ?_
    · intro a fs' _
      exact Refused_ok a
    · intro e fs' h
      refine ⟨fun _ => h.1, fun _ => ?_⟩
      obtain ⟨fs0, h0⟩ := h.2
      have hlen : dir.length ≤ n + 1 := by
        rcases hfuel with hf | hf
        · exact hf
        · rw [hf fs0] at h0
          cases h0
      obtain ⟨hnd, hlexd⟩ := dirname_normal dir hn
      refine ih (dirname dir) fs' hnd ?_ ?_
      · rw [hlexd]
        exact (List.dropLast_prefix _).trans hpre
      · rcases dirname_resolves_or_shorter dir with h1 | h1
        · exact Or.inr h1
        · left; omega

/-- In every state of the extraction the guard lets the destination
`evil/pwned` pass. -/
theorem guard_trap (ho : Outside (resolveLexical out)) {dest : Str} (hn : Normal dest)
    (hs : resolveLexical dest = resolveLexical out ++ ["evil".toList, "pwned".toList])
    (realOut : Str) (fs : FS) :
    Holds (Trap (resolveLexical out)) Ext (fun r _ => r = Except.ok realOut)
      (preventWritingThroughSymlink dest realOut) fs := by
  unfold preventWritingThroughSymlink
  refine Holds_bind (M := fun r _ => r = Except.ok none) _ _ _ ?_ ?_ ?_
  · refine Holds_recover (M := fun r _ => r = Except.error Err.io) _ _ _ ?_ ?_ ?_
    · refine Holds_bind (M := fun r _ => r = Except.error Err.io) _ _ _ ?_ ?_ ?_
      · refine Holds_await ?_
        intro fs' _ hI
        have hr := readlink_evil ho hI hn hs
        have e1 : (Call.readlink dest).perform fs' = (Except.error Err.io, fs') := by
          simp only [Call.perform, Eff.ofQuery, hr]
        rw [e1]
        exact ⟨hI, Ext_refl _, rfl⟩
      · intro a fs' h
        cases h
      · intro e fs' h
        cases h
        rfl
    · intro a fs' h
      cases h
    · intro e fs' h
      cases h
      exact ⟨fun he => (by cases he), fun _ => Holds_pure rfl⟩
  · intro s fs' h
    cases h
    simp only [truthy, Bool.false_eq_true, if_false]
    exact Holds_pure rfl
  · intro e fs' h
    cases h

theorem evil_paths (hout : out ≠ []) :
    resolveLexical (join out "evil".toList) = resolveLexical out ++ ["evil".toList] ∧
    resolveLexical (join out "evil/pwned".toList)
      = resolveLexical out ++ ["evil".toList, "pwned".toList] := by
  have e1 : splitSlash "evil".toList = ["evil".toList] := by decide
  have e2 : splitSlash "evil/pwned".toList = ["evil".toList, "pwned".toList] := by decide
  constructor
  · rw [resolveLexical_join out _ hout (by decide) (by
      rw [e1]
      intro c hc
      simp only [List.mem_singleton] at hc
      subst hc
      exact ⟨by decide, by decide, by decide⟩), e1]
  · rw [resolveLexical_join out _ hout (by decide) (by
      rw [e2]
      intro c hc
      simp only [List.mem_cons, List.mem_singleton, List.not_mem_nil, or_false] at hc
      rcases hc with rfl | rfl
      · exact ⟨by decide, by decide, by decide⟩
      · exact ⟨by decide, by decide, by decide⟩), e2]

/-- The first two calls of a callback, `makeDir(output)` and
`fsP.realpath(outputPath)`: the real path obtained is the path of the output
directory. -/
theorem outputPath_trap (ho : Outside (resolveLexical out)) {β : Type}
    (Q : Except Err β → FS → Prop) (k : Str → Proc β) (fs : FS)
    (hk : ∀ fs', Holds (Trap (resolveLexical out)) Ext Q (k (render (resolveLexical out))) fs')
    (hq : ∀ e fs', Refusal e → Q (Except.error e) fs') :
    Holds (Trap (resolveLexical out)) Ext Q
      (Proc.await (Call.makeDir out) >>= fun outputPath =>
        Proc.await (Call.realpath outputPath) >>= k) fs := by
  refine Holds_bind _ _ _ (Trap_makeDir_holds ho out (List.prefix_append _ _) fs) ?_ ?_
  · intro outputPath fs1 h1
    have ho1 := h1.2 _ rfl
    subst ho1
    refine Holds_bind (M := fun r _ => Refused r ∧
        ∀ a, r = Except.ok a → a = render (resolveLexical out)) _ _ _ ?_ ?_ ?_
    · refine Holds_await ?_
      intro fs' _ hI
      have hno : NoLinkOn fs' (resolveLexical (render (resolveLexical out))) := by
        rw [resolveLexical_render_self]; exact hI.2.2.2.1
      refine ⟨hI, Ext_refl _, ?_, ?_⟩
      · intro e he
        refine Or.inl (realpath_trap_error ho hI ?_ he)
        rw [resolveLexical_render_self]
        exact List.prefix_append _ _
      · intro a ha
        have := ((realpath_step _ hno).2.1 a ha).1
        rw [resolveLexical_render_self] at this
        exact this
    · intro realOut fs2 h2
      have hr2 := h2.2 _ rfl
      subst hr2
      exact hk fs2
    · intro e fs' h
      exact hq e fs' (h.1 e rfl)
  · intro e fs' h
    exact hq e fs' (h.1 e rfl)

/-- The process of the file entry `evil/pwned`, under any interference that
keeps the invariant: it keeps the invariant, it settles, a rejection is one
of `Refusal`, and it resolves only when the entry `evil` of the output
directory is a directory. -/
theorem materialize_file_trap (env : Env) (ho : Outside (resolveLexical out)) (hout : out ≠ [])
    (e : Entry) (hf : e.type = EntryType.file) (hpath : e.path = "evil/pwned".toList)
    (hmode : e.mode < 2 ^ 31) (fs : FS) :
    Holds (Trap (resolveLexical out)) Ext
      (fun r fs' => Refused r ∧
        (∀ v, r = Except.ok v → isDir fs' (resolveLexical out ++ ["evil".toList]) = true))
      (materialize env out (Value.entry e)) fs := by
  have hnj : Normal (join out e.path) := normal_join _ _
  have hlex : resolveLexical (join out e.path)
      = resolveLexical out ++ ["evil".toList, "pwned".toList] := by
    rw [hpath]; exact (evil_paths hout).2
  obtain ⟨hnd, hlexd⟩ := dirname_normal _ hnj
  have hlexd' : resolveLexical (dirname (join out e.path))
      = resolveLexical out ++ ["evil".toList] := by
    rw [hlexd, hlex, evilFile_eq, List.dropLast_concat]
  have hd : e.type ≠ EntryType.directory := by rw [hf]; simp
  unfold materialize
  simp only [hd, if_false, hf, if_true]
  refine outputPath_trap ho _ _ fs ?_ (fun e fs' he => ⟨fun e' h => by cases h; exact he,
    fun v hv => by cases hv⟩)
  intro fs2
  refine Holds_bind (M := fun r _ => Refused r) _ _ _ ?_ ?_ ?_
  · refine safeMakeDirAux_trap ho _ _ _ _ hnd ?_ (Or.inl (le_refl _))
    rw [hlexd']
  · intro r3 fs3 _
    refine Holds_bind (M := fun r _ => r = Except.ok (render (resolveLexical out)))
      _ _ _ (guard_trap ho hnj hlex _ fs3) ?_ ?_
    · intro realOut2 fs4 h4
      simp only [Except.ok.injEq] at h4
      subst h4
      refine Holds_bind (M := fun r fs' => Refused r ∧
          ∀ a, r = Except.ok a →
            (a = render (resolveLexical out ++ ["evil".toList]) ∧
              isDir fs' (resolveLexical out ++ ["evil".toList]) = true) ∨
            a = "/tmp".toList) _ _ _ ?_ ?_ ?_
      · refine Holds_await ?_
        intro fs' _ hI
        refine ⟨hI, Ext_refl _, ?_, ?_⟩
        · intro e' he
          refine Or.inl (realpath_trap_error ho hI ?_ he)
          rw [hlexd']
        · intro a ha
          exact realpath_evil_cases ho hI hlexd' ha
      · intro rdd fs5 h5
        by_cases hsw5 : startsWith rdd (render (resolveLexical out)) = true
        · simp only [hsw5, Bool.not_true, Bool.false_eq_true, if_false]
          have hdir5 : isDir fs5 (resolveLexical out ++ ["evil".toList]) = true := by
            rcases h5.2 _ rfl with ⟨_, g⟩ | g
            · exact g
            · rw [g, ho.2.1] at hsw5
              cases hsw5
          refine Holds_bind (M := fun r fs' => Refused r ∧
              isDir fs' (resolveLexical out ++ ["evil".toList]) = true) _ _ _ ?_ ?_ ?_
          · unfold writeEntry
            simp only [hf, reduceCtorEq, if_false, false_and]
            refine Holds_await ?_
            intro fs' hR hI
            have hdir' := isDir_mono hR hdir5
            obtain ⟨g1, g2⟩ := Trap_writeFile ho hI hdir' hnj hlex e.data
              (maskMode env e.mode)
            refine ⟨g1, g2, perform_refused _ fs' (fun _ h => by cases h) ?_,
              isDir_mono g2 hdir'⟩
            intro p d m h
            cases h
            exact maskMode_small env hmode
          · intro a fs6 h6
            refine Holds_bind (M := fun r fs' => Refused r ∧
                isDir fs' (resolveLexical out ++ ["evil".toList]) = true) _ _ _ ?_ ?_ ?_
            · refine Holds_await ?_
              intro fs' hR hI
              rw [perform_utimes_state]
              exact ⟨hI, Ext_refl _,
                perform_refused _ fs' (fun _ h => by cases h) (fun _ _ _ h => by cases h),
                isDir_mono hR h6.2⟩
            · intro a' fs7 h7
              exact Holds_pure ⟨Refused_ok _, fun _ _ => h7.2⟩
            · intro err fs' h
              exact ⟨Refused_cast h.1, fun v hv => by cases hv⟩
          · intro err fs' h
            exact ⟨Refused_cast h.1, fun v hv => by cases hv⟩
        · simp only [hsw5, Bool.not_false, if_true]
          have hrdd : rdd = "/tmp".toList := by
            rcases h5.2 _ rfl with ⟨g, _⟩ | g
            · exfalso
              rw [g, startsWith_render_snoc (startsWith_self _)] at hsw5
              exact hsw5 rfl
            · exact g
          rw [hrdd]
          exact Holds_throw ⟨fun err he => by cases he; exact Or.inr (Or.inr rfl),
            fun v hv => by cases hv⟩
      · intro err fs' h
        exact ⟨Refused_cast h.1, fun v hv => by cases hv⟩
    · intro err fs' h
      cases h
  · intro err fs' h
    exact ⟨Refused_cast h, fun v hv => by cases hv⟩

/-- The process of the link entry `evil -> /tmp`, under any interference that
keeps the invariant: it keeps the invariant, it settles, a rejection is one
of `Refusal`, and it resolves only when the entry `evil` of the output
directory is the link. -/
theorem materialize_link_trap (env : Env) (ho : Outside (resolveLexical out)) (hout : out ≠ [])
    (e : Entry) (ht : e.type = EntryType.symlink) (hpath : e.path = "evil".toList)
    (hl : e.linkname = "/tmp".toList) (fs : FS) :
    Holds (Trap (resolveLexical out)) Ext
      (fun r fs' => Refused r ∧
        (∀ v, r = Except.ok v → look fs' (resolveLexical out ++ ["evil".toList])
          = some (Node.symlink "/tmp".toList)))
      (materialize env out (Value.entry e)) fs := by
  have hnj : Normal (join out e.path) := normal_join _ _
  have hlex : resolveLexical (join out e.path) = resolveLexical out ++ ["evil".toList] := by
    rw [hpath]; exact (evil_paths hout).1
  obtain ⟨hnd, hlexd⟩ := dirname_normal _ hnj
  have hlexd' : resolveLexical (dirname (join out e.path)) = resolveLexical out := by
    rw [hlexd, hlex, List.dropLast_concat]
  have hd : e.type ≠ EntryType.directory := by rw [ht]; simp
  have hf : e.type ≠ EntryType.file := by rw [ht]; simp
  unfold materialize
  simp only [hd, if_false, hf]
  refine outputPath_trap ho _ _ fs ?_ (fun e fs' he => ⟨fun e' h => by cases h; exact he,
    fun v hv => by cases hv⟩)
  intro fs2
  refine Holds_bind (M := fun r _ => Refused r) _ _ _ ?_ ?_ ?_
  · refine safeMakeDirAux_trap ho _ _ _ _ hnd ?_ (Or.inl (le_refl _))
    rw [hlexd']
    exact List.prefix_append _ _
  · intro r3 fs3 _
    refine Holds_bind (M := fun r _ => r = Except.ok (render (resolveLexical out))) _ _ _
      (Holds_pure rfl) ?_ ?_
    · intro realOut2 fs4 h4
      simp only [Except.ok.injEq] at h4
      subst h4
      refine Holds_bind (M := fun r _ => Refused r ∧
          ∀ a, r = Except.ok a → a = render (resolveLexical out)) _ _ _ ?_ ?_ ?_
      · refine Holds_await ?_
        intro fs' _ hI
        have hno : NoLinkOn fs' (resolveLexical (dirname (join out e.path))) := by
          rw [hlexd']; exact hI.2.2.2.1
        refine ⟨hI, Ext_refl _, ?_, ?_⟩
        · intro e' he
          refine Or.inl (realpath_trap_error ho hI ?_ he)
          rw [hlexd']
          exact List.prefix_append _ _
        · intro a ha
          have := ((realpath_step _ hno).2.1 a ha).1
          rw [hlexd'] at this
          exact this
      · intro rdd fs5 h5
        have hrdd := h5.2 _ rfl
        subst hrdd
        simp only [startsWith_self, Bool.not_true, Bool.false_eq_true, if_false]
        refine Holds_bind (M := fun r fs' => Refused r ∧
            (∀ a, r = Except.ok a → look fs' (resolveLexical out ++ ["evil".toList])
              = some (Node.symlink "/tmp".toList))) _ _ _ ?_ ?_ ?_
        · unfold writeEntry
          simp only [ht, reduceCtorEq, if_false, true_and, if_true, hl]
          by_cases hw : env.win32 = true
          · simp only [hw, if_true]
            refine Holds_await ?_
            intro fs' _ hI
            have e1 : (Call.link "/tmp".toList (join out e.path)).perform fs'
                = (Except.error Err.io, fs') := by
              simp only [Call.perform, Eff.ofUpdate, link_tmp_fails hI.2.1]
            rw [e1]
            exact ⟨hI, Ext_refl _, fun err he => (by cases he; exact Or.inl rfl),
              fun a ha => by cases ha⟩
          · simp only [hw, Bool.false_eq_true, if_false]
            refine Holds_await ?_
            intro fs' _ hI
            obtain ⟨g1, g2, g3⟩ := Trap_symlink ho hI hnj hlex
            exact ⟨g1, g2,
              perform_refused _ fs' (fun _ h => by cases h) (fun _ _ _ h => by cases h), g3⟩
        · intro a fs6 h6
          exact Holds_pure ⟨Refused_ok _, fun _ _ => h6.2 a rfl⟩
        · intro err fs' h
          exact ⟨Refused_cast h.1, fun v hv => by cases hv⟩
      · intro err fs' h
        exact ⟨Refused_cast h.1, fun v hv => by cases hv⟩
    · intro err fs' h
      cases h
  · intro err fs' h
    exact ⟨Refused_cast h, fun v hv => by cases hv⟩

end EvilRun

/-! ### The archive `evil -> /tmp`, `evil/pwned` (claim C3) -/

theorem extractFile_archive (env : Env) (sched : List Nat) (input : Buffer) (out : Str)
    (es : List Entry) (w : World) (hout : falsy (some out) = false) :
    extractFile env sched input (some out) (archiveOptions es) w
      = ((awaitAll sched ((es.map Value.entry).map (materialize env out)) w.fs).1,
         { fs := (awaitAll sched ((es.map Value.entry).map (materialize env out)) w.fs).2,
           reads := w.reads, pluginCalls := w.pluginCalls + 1 }) := by
  unfold extractFile
  rw [runPlugins_archiveOptions]
  simp only [transform_archiveOptions, hout, Bool.false_eq_true, if_false]
  rfl

/-- C3 (counterexample): the archive of the link `evil -> /tmp` and the file
`evil/pwned`, extracted into `/out` on a filesystem holding only `/tmp`.  When
the filesystem calls of the two callbacks alternate, the call is rejected with
`Refusing to write outside output directory: /tmp`; when the callback of the
link runs to its end first, it is rejected with `Refusing to create a
directory outside the output path.`; when the callback of the file runs to
its end first, `evil` is a directory, the file is written to `/out/evil/pwned`
and the call is rejected with the filesystem error of `fs.symlink`.  In all
three cases `/tmp/pwned` is not created and the rejection is not the one of
the guard against writing through a link.  Extracted into `/t`, whose path is
a string prefix of `/tmp`, the archive is accepted and `/tmp/pwned` is
written. -/
theorem C3_rejected_with_path_escape :
    (extractFile posixEnv [0, 1, 0, 1, 0, 1, 0, 1, 0, 1, 0, 1, 0, 1] [] (some "/out".toList)
        (archiveOptions evilArchive) (freshWorld tmpFS)).1
      = Except.error (Err.escapeWrite "/tmp".toList)
    ∧ (extractFile posixEnv [0, 1, 0, 1, 0, 1, 0, 1, 0, 1, 0, 1, 0, 1] [] (some "/out".toList)
        (archiveOptions evilArchive) (freshWorld tmpFS)).2.fs ["tmp".toList, "pwned".toList]
      = none
    ∧ (extractFile posixEnv [] [] (some "/out".toList) (archiveOptions evilArchive)
        (freshWorld tmpFS)).1 = Except.error Err.escapeDir
    ∧ (extractFile posixEnv [] [] (some "/out".toList) (archiveOptions evilArchive)
        (freshWorld tmpFS)).2.fs ["tmp".toList, "pwned".toList] = none
    ∧ (extractFile posixEnv [1, 1, 1, 1, 1, 1, 1, 1, 1, 1, 1, 1] [] (some "/out".toList)
        (archiveOptions evilArchive) (freshWorld tmpFS)).1 = Except.error Err.io
    ∧ (extractFile posixEnv [1, 1, 1, 1, 1, 1, 1, 1, 1, 1, 1, 1] [] (some "/out".toList)
        (archiveOptions evilArchive) (freshWorld tmpFS)).2.fs
        ["out".toList, "evil".toList, "pwned".toList] = some (Node.file [1] 420)
    ∧ (extractFile posixEnv [1, 1, 1, 1, 1, 1, 1, 1, 1, 1, 1, 1] [] (some "/out".toList)
        (archiveOptions evilArchive) (freshWorld tmpFS)).2.fs
        ["tmp".toList, "pwned".toList] = none
    ∧ Err.escapeWrite "/tmp".toList ≠ Err.symlinkRefused
    ∧ Err.escapeDir ≠ Err.symlinkRefused
    ∧ Err.io ≠ Err.symlinkRefused
    ∧ (extractFile posixEnv [] [] (some "/t".toList) (archiveOptions evilArchive)
        (freshWorld tmpFS)).1 = Except.ok (evilArchive.map Value.entry)
    ∧ (extractFile posixEnv [] [] (some "/t".toList) (archiveOptions evilArchive)
        (freshWorld tmpFS)).2.fs ["tmp".toList, "pwned".toList] = some (Node.file [1] 420) := by
  decide

/-- C3 (amended): the archive of the link `evil -> /tmp` and the file
`evil/pwned` is extracted into an output directory `out` on whose path there
is no symbolic link, that has no entry `evil` yet, whose path is not a string
prefix of `/tmp` and is not below `/tmp/pwned`, on a well-formed filesystem in
which `/tmp` is a directory without an entry `pwned`.  Then, in whatever order
the filesystem calls of the two callbacks are performed, the call is
rejected, with `Refusing to create a directory outside the output path.`,
with `Refusing to write outside output directory: /tmp` or with a filesystem
error, hence not with `Refusing to write into a symlink`, and `/tmp/pwned` is
not created. -/
theorem C3_evil_archive_refused (env : Env) (sched : List Nat) (input : Buffer) (out : Str)
    (w : World)
    (hout : falsy (some out) = false)
    (hwf : WellFormed w.fs)
    (hno : NoLinkOn w.fs (resolveLexical out))
    (hfresh : look w.fs (resolveLexical out ++ ["evil".toList]) = none)
    (htmp : isDir w.fs ["tmp".toList] = true)
    (hpw : look w.fs ["tmp".toList, "pwned".toList] = none)
    (hpre : startsWith "/tmp".toList (render (resolveLexical out)) = false)
    (hsub : ¬ ["tmp".toList, "pwned".toList] <+: resolveLexical out) :
    (∃ e, (extractFile env sched input (some out) (archiveOptions evilArchive) w).1
        = Except.error e ∧
        (e = Err.escapeDir ∨ e = Err.escapeWrite "/tmp".toList ∨ e = Err.io))
    ∧ (extractFile env sched input (some out) (archiveOptions evilArchive) w).1
        ≠ Except.error Err.symlinkRefused
    ∧ look (extractFile env sched input (some out) (archiveOptions evilArchive) w).2.fs
        ["tmp".toList, "pwned".toList] = none := by
  have hne : out ≠ [] := by
    intro h
    subst h
    simp [falsy] at hout
  have ho : Outside (resolveLexical out) := ⟨resolveLexical_plain out, hpre, hsub⟩
  have hI : Trap (resolveLexical out) w.fs := by
    refine ⟨hwf, htmp, hpw, hno, Or.inl hfresh, ?_⟩
    intro t ht
    have hd := hwf (resolveLexical out ++ ["evil".toList]) "pwned".toList (by
      rw [← evilFile_eq, ht]
      simp)
    rw [isDir_iff, hfresh] at hd
    cases hd
  have hAB : Value.entry (symlinkEntry "evil".toList "/tmp".toList)
      ≠ Value.entry (fileEntry "evil/pwned".toList [1] 420) := by
    intro h
    injection h with h
    have := congrArg Entry.type h
    simp [symlinkEntry, fileEntry] at this
  have hall : ∀ x ∈ evilArchive.map Value.entry,
      Holds (Trap (resolveLexical out)) Ext
        (fun r fs' => Refused r ∧
          (∀ v, r = Except.ok v →
            (x = Value.entry (symlinkEntry "evil".toList "/tmp".toList) →
              look fs' (resolveLexical out ++ ["evil".toList])
                = some (Node.symlink "/tmp".toList)) ∧
            (x = Value.entry (fileEntry "evil/pwned".toList [1] 420) →
              isDir fs' (resolveLexical out ++ ["evil".toList]) = true)))
        (materialize env out x) w.fs := by
    intro x hx
    simp only [evilArchive, List.map_cons, List.map_nil, List.mem_cons, List.mem_singleton,
      List.not_mem_nil, or_false] at hx
    rcases hx with rfl | rfl
    · refine Holds_weaken ?_ _ _
        (materialize_link_trap env ho hne _ rfl rfl rfl w.fs)
      intro r fs' h
      exact ⟨h.1, fun v hv => ⟨fun _ => h.2 v hv, fun hx => absurd hx hAB⟩⟩
    · refine Holds_weaken ?_ _ _
        (materialize_file_trap env ho hne _ rfl rfl (by decide) w.fs)
      intro r fs' h
      exact ⟨h.1, fun v hv => ⟨fun hx => absurd hx.symm hAB, fun _ => h.2 v hv⟩⟩
  obtain ⟨k1, _, k3, k4⟩ := awaitAll_sound (I := Trap (resolveLexical out)) (R := Ext)
    Ext_refl (fun _ _ _ => Ext_trans) (by
      intro x r a b hq hab
      refine ⟨hq.1, fun v hv => ⟨fun hx => ?_, fun hx => isDir_mono hab ((hq.2 v hv).2 hx)⟩⟩
      obtain ⟨n', hn', hk⟩ := hab _ _ ((hq.2 v hv).1 hx)
      cases n' with
      | dir => simp [sameKind] at hk
      | file d m => simp [sameKind] at hk
      | symlink t =>
        simp only [sameKind] at hk
        rw [hn', ← hk])
    sched (materialize env out) (evilArchive.map Value.entry) w.fs hI hall
  rw [extractFile_archive env sched input out evilArchive w hout]
  simp only
  have hres : ∃ e, (awaitAll sched ((evilArchive.map Value.entry).map (materialize env out))
      w.fs).1 = Except.error e ∧ Refusal e := by
    cases hres : (awaitAll sched ((evilArchive.map Value.entry).map (materialize env out))
        w.fs).1 with
    | error e =>
      obtain ⟨x, _, hq⟩ := k4 e hres
      exact ⟨e, rfl, hq.1 e rfl⟩
    | ok vs =>
      exfalso
      have hf := k3 vs hres
      simp only [evilArchive, List.map_cons, List.map_nil] at hf
      cases hf with
      | cons h1 h2 =>
        cases h2 with
        | cons h3 _ =>
          have g1 := (h1.2 _ rfl).1 rfl
          have g2 := (h3.2 _ rfl).2 rfl
          rw [isDir_iff, g1] at g2
          cases g2
  obtain ⟨e, he, hr⟩ := hres
  refine ⟨⟨e, he, ?_⟩, ?_, k1.2.2.1⟩
  · rcases hr with h | h | h
    · exact Or.inr (Or.inr h)
    · exact Or.inl h
    · exact Or.inr (Or.inl h)
  · rw [he]
    intro h
    simp only [Except.error.injEq] at h
    exact (Refusal_not_refused hr).1 h

/-- C3 (witness): extraction into `/out` on a filesystem holding only `/tmp`,
the filesystem calls of the two callbacks taken in the order second, first,
first, second, second, first. -/
theorem C3_evil_archive_refused_witness :
    (∃ e, (extractFile posixEnv [1, 0, 0, 1, 1, 0] [] (some "/out".toList)
        (archiveOptions evilArchive) (freshWorld tmpFS)).1
        = Except.error e ∧
        (e = Err.escapeDir ∨ e = Err.escapeWrite "/tmp".toList ∨ e = Err.io))
    ∧ (extractFile posixEnv [1, 0, 0, 1, 1, 0] [] (some "/out".toList)
        (archiveOptions evilArchive) (freshWorld tmpFS)).1
        ≠ Except.error Err.symlinkRefused
    ∧ look (extractFile posixEnv [1, 0, 0, 1, 1, 0] [] (some "/out".toList)
        (archiveOptions evilArchive) (freshWorld tmpFS)).2.fs
        ["tmp".toList, "pwned".toList] = none :=
  C3_evil_archive_refused posixEnv [1, 0, 0, 1, 1, 0] [] "/out".toList (freshWorld tmpFS)
    (by decide) tmpFS_wellFormed (tmpFS_noLink _) (by decide) (by decide) (by decide)
    (by decide) (by decide)

end Decompress
